import Mathlib

/-!
Shallow embedding of the OgmaNeo2 core (SparseCoder and PAL Actor) and
verification of the specification claims against it.

Conventions of the embedding:
* machine floats are modelled as exact rationals;
* integer coordinates and buffer addresses are modelled as `Int`;
* flat buffers are modelled as functions `Int → α` (persistent state) or
  `List Int` (CSDR inputs passed by the caller);
* each kernel dispatch is embedded as the sequential per-position loop that
  the source contains under its `KERNEL_DEBUG` / `KERNEL_NOTHREAD` paths.
-/

namespace Ogma

/-- Two dimensional integer coordinate, as the source's `Int2`. -/
structure Int2 where
  x : Int
  y : Int
deriving DecidableEq, Repr

/-- Three dimensional integer coordinate / grid extent, as the source's `Int3`. -/
structure Int3 where
  x : Int
  y : Int
  z : Int
deriving DecidableEq, Repr

/-- Four component weight coordinate, as the source's `Int4`. -/
structure Int4 where
  x : Int
  y : Int
  z : Int
  w : Int
deriving DecidableEq, Repr

/-- Modelled from the spec: `index2(pos, width) = pos.y*width + pos.x` (§4.1);
the helper itself lives in `Helpers.h`, which is not under `src/`, but the
`SparseCoder::forward` kernel in `src/` spells out the same arithmetic
(`dPartial = x + y*sizeX + ...`). -/
def address2 (pos : Int2) (width : Int) : Int :=
  pos.y * width + pos.x

/-- Modelled from the spec: `index3(pos3, size2) = pos3.z*size2.x*size2.y + index2`
(§4.1), matching the partial-offset arithmetic written out in
`SparseCoder::forward`. -/
def address3 (pos : Int3) (size2 : Int2) : Int :=
  pos.z * (size2.x * size2.y) + pos.y * size2.x + pos.x

/-- Modelled from the spec: the four component dense weight address used by
`SparseCoder::backward` and `SparseCoder::learn`; the source comments state it
is equivalent to the cached computation `dPartial + az * dxyz` of
`SparseCoder::forward`, which forces
`address4(p, size) = p.x + p.y*size.x + p.z*size.x*size.y + p.w*size.x*size.y*size.z`. -/
def address4 (pos : Int4) (size : Int3) : Int :=
  pos.w * (size.x * size.y * size.z) + pos.z * (size.x * size.y) + pos.y * size.x + pos.x

/-- Modelled from the spec: the column-major cell address used by the actor and
predictor (`address3C`): cells of one hidden column are consecutive, so that
column `i` owns rows `i*z .. i*z+z-1`; this layout is forced by the
`initRandom` line `_hiddenCounts[i] += vl._weights.counts(i * _hiddenSize.z) / vld._size.z`
in `src/`. -/
def address2C (pos : Int2) (dims : Int2) : Int :=
  pos.y + pos.x * dims.y

/-- Modelled from the spec: three dimensional companion of `address2C`;
`address3C(⟨x, y, c⟩, size) = c + size.z * address2C(⟨x, y⟩, ⟨size.x, size.y⟩)`. -/
def address3C (pos : Int3) (dims : Int3) : Int :=
  pos.z + dims.z * (pos.y + dims.y * pos.x)

/-- Modelled from the spec: `project(pos, ratio)` is the componentwise
`floor(pos*ratio + ratio*0.5)` resolution-ratio projection of §4.1. -/
def project (pos : Int2) (ratio : ℚ × ℚ) : Int2 :=
  ⟨⌊(pos.x : ℚ) * ratio.1 + ratio.1 * (1/2)⌋, ⌊(pos.y : ℚ) * ratio.2 + ratio.2 * (1/2)⌋⟩

/-- Modelled from the spec: containment of a position in the half-open
receptive-field box `[lowerBound, upperBound)` used by the backward and learn
kernels (§4.1: field is `[center-r, center+r]`, and the callers in `src/` pass
`upperBound = center + r + 1`). -/
def inBounds (pos lowerBound upperBound : Int2) : Bool :=
  decide (lowerBound.x ≤ pos.x) && decide (pos.x < upperBound.x) &&
  decide (lowerBound.y ≤ pos.y) && decide (pos.y < upperBound.y)

/-- Closed integer range `[a, b]` as a list, in increasing order; the shape of
every `for (int v = a; v <= b; v++)` loop of the source. -/
def rangeClosed (a b : Int) : List Int :=
  (List.range (b + 1 - a).toNat).map (fun (n : Nat) => a + (n : Int))

/-- Pointwise update of a function buffer (one `buf[i] = v` store). -/
def fset {α : Type} (f : Int → α) (i : Int) (v : α) : Int → α :=
  fun j => if j = i then v else f j

/-- The float sentinel `-999999.0f` that seeds every running-max loop. -/
def negSentinel : ℚ := -999999

/-- The defensive divisor clamp `std::max(1.0f, count)` of the coder kernels. -/
def clampDiv (count : ℚ) : ℚ := max 1 count

/-- The defensive divisor clamp `std::max(1, count)` on integer counts used by
the actor kernels. -/
def clampDivI (count : Int) : Int := max 1 count

/-- Column positions of a `w × h` grid in source iteration order
(`x` outer, `y` inner). -/
def gridPositions (w h : Int) : List Int2 :=
  (rangeClosed 0 (w - 1)).flatMap (fun x => (rangeClosed 0 (h - 1)).map (fun y => ⟨x, y⟩))

/-! ## Sparse coder data model (`SparseCoder.h` / `SparseCoder.cpp`) -/

/-- Visible layer descriptor: visible grid extent and connection radius. -/
structure VisibleLayerDesc where
  size : Int3
  radius : Int
deriving DecidableEq, Repr

/-- Per visible layer state of the sparse coder: dense weights, the two
projection ratios, the precomputed reverse radii and the reconstruction codes. -/
structure SCVisibleLayer where
  weights : Int → ℚ
  visibleToHidden : ℚ × ℚ
  hiddenToVisible : ℚ × ℚ
  reverseRadii : Int2
  reconCs : Int → Int

instance : Inhabited VisibleLayerDesc :=
  ⟨⟨⟨4, 4, 16⟩, 2⟩⟩

instance : Inhabited SCVisibleLayer :=
  ⟨⟨fun _ => 0, (0, 0), (0, 0), ⟨0, 0⟩, fun _ => 0⟩⟩

/-- The sparse coder engine instance. -/
structure SparseCoder where
  hiddenSize : Int3
  hiddenCs : Int → Int
  hiddenActivations : Int → ℚ
  visibleLayers : List SCVisibleLayer
  visibleLayerDescs : List VisibleLayerDesc
  alpha : ℚ
  explainIters : Nat

namespace SparseCoder

/-- Clamped receptive-field positions of a visible grid around `center`
(`SparseCoder::forward` iteration bounds), `x` outer, `y` inner. -/
def fieldPositions (vld : VisibleLayerDesc) (center : Int2) : List Int2 :=
  (rangeClosed (max 0 (center.x - vld.radius)) (min (vld.size.x - 1) (center.x + vld.radius))).flatMap
    (fun x =>
      (rangeClosed (max 0 (center.y - vld.radius)) (min (vld.size.y - 1) (center.y + vld.radius))).map
        (fun y => ⟨x, y⟩))

/-- Feed-forward support of one visible layer for hidden cell `(pos, hc)`
against the input codes (the `inputActivation` accumulation of
`SparseCoder::forward`). -/
def inputActLayer (hiddenSize : Int3) (vl : SCVisibleLayer) (vld : VisibleLayerDesc)
    (inputCs : List Int) (pos : Int2) (hc : Int) : ℚ :=
  let center := project pos vl.hiddenToVisible
  let flb : Int2 := ⟨center.x - vld.radius, center.y - vld.radius⟩
  let diam := vld.radius * 2 + 1
  let dxy := hiddenSize.x * hiddenSize.y
  let dxyz := dxy * hiddenSize.z
  let dPartial := pos.x + pos.y * hiddenSize.x + hc * dxy
  ((fieldPositions vld center).map (fun vp =>
    let visibleC := inputCs.getD (address2 vp vld.size.x).toNat 0
    let az := vp.x - flb.x + (vp.y - flb.y) * diam + visibleC * (diam * diam)
    vl.weights (dPartial + az * dxyz))).sum

/-- Reconstruction support of one visible layer for hidden cell `(pos, hc)`
against the layer's current reconstruction codes (the `reconActivation`
accumulation of `SparseCoder::forward`). -/
def reconActLayer (hiddenSize : Int3) (vl : SCVisibleLayer) (vld : VisibleLayerDesc)
    (pos : Int2) (hc : Int) : ℚ :=
  let center := project pos vl.hiddenToVisible
  let flb : Int2 := ⟨center.x - vld.radius, center.y - vld.radius⟩
  let diam := vld.radius * 2 + 1
  let dxy := hiddenSize.x * hiddenSize.y
  let dxyz := dxy * hiddenSize.z
  let dPartial := pos.x + pos.y * hiddenSize.x + hc * dxy
  ((fieldPositions vld center).map (fun vp =>
    let reconC := vl.reconCs (address2 vp vld.size.x)
    let az := vp.x - flb.x + (vp.y - flb.y) * diam + reconC * (diam * diam)
    vl.weights (dPartial + az * dxyz))).sum

/-- Total feed-forward input support of hidden cell `(pos, hc)` summed over all
visible layers. -/
def inputAct (sc : SparseCoder) (inputCs : List (List Int)) (pos : Int2) (hc : Int) : ℚ :=
  ((List.zip sc.visibleLayers sc.visibleLayerDescs).enum.map (fun p =>
    inputActLayer sc.hiddenSize p.2.1 p.2.2 (inputCs.getD p.1 []) pos hc)).sum

/-- Total reconstruction support of hidden cell `(pos, hc)` summed over all
visible layers. -/
def reconAct (sc : SparseCoder) (pos : Int2) (hc : Int) : ℚ :=
  ((List.zip sc.visibleLayers sc.visibleLayerDescs).map (fun p =>
    reconActLayer sc.hiddenSize p.1 p.2 pos hc)).sum

/-- Per-slot activation value of one forward iteration, stated against the
pre-pass state: on the first iteration the summed feed-forward input support,
later the running activation incremented by (input support minus
reconstruction support). -/
def scNewVal (sc : SparseCoder) (inputCs : List (List Int)) (firstIter : Bool)
    (pos : Int2) (hc : Int) : ℚ :=
  if firstIter then inputAct sc inputCs pos hc
  else sc.hiddenActivations (address3 ⟨pos.x, pos.y, hc⟩ ⟨sc.hiddenSize.x, sc.hiddenSize.y⟩)
    + inputAct sc inputCs pos hc - reconAct sc pos hc

/-- One step of the `hc` loop of `SparseCoder::forward`: update the activation
slot of cell `hc` and track the running argmax. -/
def forwardCellStep (sc : SparseCoder) (inputCs : List (List Int)) (firstIter : Bool)
    (pos : Int2) (acc : (Int → ℚ) × Int × ℚ) (hc : Int) : (Int → ℚ) × Int × ℚ :=
  let hIdx := address3 ⟨pos.x, pos.y, hc⟩ ⟨sc.hiddenSize.x, sc.hiddenSize.y⟩
  let ia := inputAct sc inputCs pos hc
  let ra := reconAct sc pos hc
  let newV := if firstIter then ia else acc.1 hIdx + ia - ra
  let acts := fset acc.1 hIdx newV
  if acc.2.2 < newV then (acts, hc, newV) else (acts, acc.2.1, acc.2.2)

/-- The `SparseCoder::forward` kernel at one hidden column: returns the updated
activation buffer and the new hidden code of the column. -/
def forwardColumn (sc : SparseCoder) (inputCs : List (List Int)) (firstIter : Bool)
    (pos : Int2) : (Int → ℚ) × Int :=
  let r := (rangeClosed 0 (sc.hiddenSize.z - 1)).foldl
    (forwardCellStep sc inputCs firstIter pos) (sc.hiddenActivations, 0, negSentinel)
  (r.1, r.2.1)

/-- One position step of the coder's forward fold. -/
def fpStepC (inputCs : List (List Int)) (firstIter : Bool) (s : SparseCoder) (pos : Int2) :
    SparseCoder :=
  let r := forwardColumn s inputCs firstIter pos
  { s with
    hiddenActivations := r.1
    hiddenCs := fset s.hiddenCs (address2 pos s.hiddenSize.x) r.2 }

/-- The forward pass of `SparseCoder::activate`: the forward kernel run over
every hidden column (the sequential `KERNEL_DEBUG` loop of the source). -/
def forwardPass (sc : SparseCoder) (inputCs : List (List Int)) (firstIter : Bool) :
    SparseCoder :=
  (gridPositions sc.hiddenSize.x sc.hiddenSize.y).foldl (fpStepC inputCs firstIter) sc

/-- Search window of hidden columns possibly covering visible position `pos`
(the `reverseRadii`-bounded iteration of `SparseCoder::backward` and
`SparseCoder::learn`), `x` outer, `y` inner. -/
def hWindow (hiddenSize : Int3) (vl : SCVisibleLayer) (pos : Int2) : List Int2 :=
  let c := project pos vl.visibleToHidden
  (rangeClosed (max 0 (c.x - vl.reverseRadii.x)) (min (hiddenSize.x - 1) (c.x + vl.reverseRadii.x))).flatMap
    (fun x =>
      (rangeClosed (max 0 (c.y - vl.reverseRadii.y)) (min (hiddenSize.y - 1) (c.y + vl.reverseRadii.y))).map
        (fun y => ⟨x, y⟩))

/-- Lower corner of hidden column `hp`'s receptive field in the visible grid. -/
def fieldLB (vl : SCVisibleLayer) (vld : VisibleLayerDesc) (hp : Int2) : Int2 :=
  ⟨(project hp vl.hiddenToVisible).x - vld.radius, (project hp vl.hiddenToVisible).y - vld.radius⟩

/-- Containment test: does hidden column `hp`'s receptive field contain visible
position `pos`? -/
def containsPos (vl : SCVisibleLayer) (vld : VisibleLayerDesc) (hp pos : Int2) : Bool :=
  inBounds pos (fieldLB vl vld hp)
    ⟨(project hp vl.hiddenToVisible).x + vld.radius + 1,
     (project hp vl.hiddenToVisible).y + vld.radius + 1⟩

/-- Dense weight address read and written by the backward and learn kernels for
hidden column `hp`, visible position `pos` and visible code `vc` (the
`address4(wPos, _hiddenSize)` computation, with `hiddenC` the column's current
hidden code). -/
def recWAddr (hiddenSize : Int3) (vl : SCVisibleLayer) (vld : VisibleLayerDesc)
    (hiddenCs : Int → Int) (hp pos : Int2) (vc : Int) : Int :=
  let flb := fieldLB vl vld hp
  let diam := vld.radius * 2 + 1
  let hiddenC := hiddenCs (address2 hp hiddenSize.x)
  address4 ⟨hp.x, hp.y, hiddenC,
    pos.x - flb.x + (pos.y - flb.y) * diam + vc * (diam * diam)⟩ hiddenSize

/-- The `(sum, count)` accumulation over the hidden window shared by
`SparseCoder::backward` and `SparseCoder::learn`. -/
def supportPair (hiddenSize : Int3) (weights : Int → ℚ) (hiddenCs : Int → Int)
    (vl : SCVisibleLayer) (vld : VisibleLayerDesc) (pos : Int2) (vc : Int) : ℚ × ℚ :=
  (hWindow hiddenSize vl pos).foldl
    (fun acc hp =>
      if containsPos vl vld hp pos then
        (acc.1 + weights (recWAddr hiddenSize vl vld hiddenCs hp pos vc), acc.2 + 1)
      else acc)
    (0, 0)

/-- Normalized average hidden support of `(pos, vc)`, i.e.
`sum / max(1, count)` as computed by the backward and learn kernels. -/
def avgSupport (hiddenSize : Int3) (weights : Int → ℚ) (hiddenCs : Int → Int)
    (vl : SCVisibleLayer) (vld : VisibleLayerDesc) (pos : Int2) (vc : Int) : ℚ :=
  let p := supportPair hiddenSize weights hiddenCs vl vld pos vc
  p.1 / clampDiv p.2

/-- Reconstruction code chosen by the `SparseCoder::backward` kernel at one
visible column of layer `vli`: argmax of the average support over the visible
codes (ties to the lowest code, running max seeded at the sentinel). -/
def reconCode (sc : SparseCoder) (vli : Nat) (pos : Int2) : Int :=
  let vl := sc.visibleLayers.getD vli default
  let vld := sc.visibleLayerDescs.getD vli default
  ((rangeClosed 0 (vld.size.z - 1)).foldl
    (fun acc vc =>
      let s := avgSupport sc.hiddenSize vl.weights sc.hiddenCs vl vld pos vc
      if acc.2 < s then (vc, s) else acc)
    (0, negSentinel)).1

/-- The `SparseCoder::backward` kernel at one visible column of layer `vli`:
picks the visible code with the highest average support as the reconstruction
code. -/
def backwardColumn (sc : SparseCoder) (vli : Nat) (pos : Int2) : SparseCoder :=
  let vl := sc.visibleLayers.getD vli default
  let vld := sc.visibleLayerDescs.getD vli default
  { sc with
    visibleLayers := sc.visibleLayers.set vli
      { vl with reconCs := fset vl.reconCs (address2 pos vld.size.x) (reconCode sc vli pos) } }

/-- The backward pass over every visible column of layer `vli`. -/
def backwardPassLayer (sc : SparseCoder) (vli : Nat) : SparseCoder :=
  let vld := sc.visibleLayerDescs.getD vli default
  (gridPositions vld.size.x vld.size.y).foldl (fun s pos => backwardColumn s vli pos) sc

/-- The backward passes of one `activate` iteration, over every visible layer. -/
def backwardAll (sc : SparseCoder) : SparseCoder :=
  (List.range sc.visibleLayers.length).foldl backwardPassLayer sc

/-- One full iteration of `SparseCoder::activate`: the forward pass over all
hidden columns followed by the backward pass for every visible layer. -/
def activateIter (sc : SparseCoder) (inputCs : List (List Int)) (firstIter : Bool) :
    SparseCoder :=
  backwardAll (forwardPass sc inputCs firstIter)

/-- First `n` iterations of `SparseCoder::activate` (iteration 0 is the first
one, with `firstIter = true`). -/
def activateAux (sc : SparseCoder) (inputCs : List (List Int)) : Nat → SparseCoder
  | 0 => sc
  | n + 1 => activateIter (activateAux sc inputCs n) inputCs (n == 0)

/-- `SparseCoder::activate`: `explainIters` rounds of forward + backward. -/
def activate (sc : SparseCoder) (inputCs : List (List Int)) : SparseCoder :=
  activateAux sc inputCs sc.explainIters

/-- One step of the `vc` loop of the `SparseCoder::learn` kernel: recompute the
average support for `(pos, vc)` and move every containing weight by
`alpha * (target - avg)`. -/
def learnCodeStep (hiddenSize : Int3) (hiddenCs : Int → Int) (alpha : ℚ)
    (vl : SCVisibleLayer) (vld : VisibleLayerDesc) (inputC : Int) (pos : Int2)
    (w : Int → ℚ) (vc : Int) : Int → ℚ :=
  let p := supportPair hiddenSize w hiddenCs vl vld pos vc
  let target : ℚ := if vc = inputC then 1 else 0
  let delta := alpha * (target - p.1 / clampDiv p.2)
  (hWindow hiddenSize vl pos).foldl
    (fun wAcc hp =>
      if containsPos vl vld hp pos then
        let a := recWAddr hiddenSize vl vld hiddenCs hp pos vc
        fset wAcc a (wAcc a + delta)
      else wAcc)
    w

/-- The `SparseCoder::learn` kernel at one visible column of layer `vli`. -/
def learnColumn (sc : SparseCoder) (inputCs : List (List Int)) (vli : Nat) (pos : Int2) :
    SparseCoder :=
  let vl := sc.visibleLayers.getD vli default
  let vld := sc.visibleLayerDescs.getD vli default
  let inputC := (inputCs.getD vli []).getD (address2 pos vld.size.x).toNat 0
  let w := (rangeClosed 0 (vld.size.z - 1)).foldl
    (learnCodeStep sc.hiddenSize sc.hiddenCs sc.alpha vl vld inputC pos) vl.weights
  { sc with visibleLayers := sc.visibleLayers.set vli { vl with weights := w } }

/-- The learn pass over every visible column of layer `vli`. -/
def learnPassLayer (sc : SparseCoder) (inputCs : List (List Int)) (vli : Nat) :
    SparseCoder :=
  let vld := sc.visibleLayerDescs.getD vli default
  (gridPositions vld.size.x vld.size.y).foldl (fun s pos => learnColumn s inputCs vli pos) sc

/-- `SparseCoder::learn`: the learn pass for every visible layer. -/
def learnAll (sc : SparseCoder) (inputCs : List (List Int)) : SparseCoder :=
  (List.range sc.visibleLayers.length).foldl (fun s vli => learnPassLayer s inputCs vli) sc

end SparseCoder

/-! ## Actor data model (`Actor.h` / `Actor.cpp`, PAL variant) -/

/-- Modelled from the spec: the compressed one-hot weight collection
(`SparseMatrix` with `multiplyOHVs` / `deltaOHVs`) is not under `src/`; §4.4
describes it as a per-hidden-unit structure supporting a dot product against a
one-hot input code and an additive update against a one-hot code. `w row i c`
is the weight between hidden row `row` and code `c` of visible column `i`;
`field row` lists the visible columns inside `row`'s receptive field. -/
structure OneHotMatrix where
  w : Int → Int → Int → ℚ
  field : Int → List Int

instance : Inhabited OneHotMatrix :=
  ⟨⟨fun _ _ _ => 0, fun _ => []⟩⟩

/-- Modelled from the spec: `multiplyOneHot` (§4.4) — the dot product of row
`row` against the one-hot codes of `inputCs`. -/
def multiplyOHVs (m : OneHotMatrix) (inputCs : List Int) (row : Int) : ℚ :=
  ((m.field row).map (fun i => m.w row i (inputCs.getD i.toNat 0))).sum

/-- Modelled from the spec: `deltaOneHot` (§4.4) — add `delta` to the one
weight per visible column of `row`'s receptive field selected by the one-hot
codes of `inputCs`. -/
def deltaOHVs (m : OneHotMatrix) (inputCs : List Int) (delta : ℚ) (row : Int) :
    OneHotMatrix :=
  { m with
    w := fun r i c =>
      if r = row ∧ i ∈ m.field row ∧ c = inputCs.getD i.toNat 0 then m.w r i c + delta
      else m.w r i c }

/-- One history sample of the actor: the input CSDRs, the hidden (action) CSDR
and the feedback CSDR recorded at one environment step. -/
structure HistorySample where
  inputCs : List (List Int)
  hiddenCs : List Int
  feedBackCs : List Int
deriving DecidableEq, Repr

instance : Inhabited HistorySample :=
  ⟨⟨[], [], []⟩⟩

/-- The PAL actor engine instance. -/
structure Actor where
  hiddenSize : Int3
  hiddenCs : Int → Int
  hiddenCounts : Int → Int
  visibleLayers : List OneHotMatrix
  visibleLayerDescs : List VisibleLayerDesc
  historySize : Nat
  historySamples : List HistorySample
  alpha : ℚ
  gamma : ℚ
  gap : ℚ
  historyIters : Nat

namespace Actor

/-- Raw activation of hidden cell `(pos, hc)`: the weight dot products summed
over all visible layers (`Actor::forward` accumulation; no normalization). -/
def actSum (hiddenSize : Int3) (layers : List OneHotMatrix) (inputCs : List (List Int))
    (pos : Int2) (hc : Int) : ℚ :=
  (layers.enum.map (fun p =>
    multiplyOHVs p.2 (inputCs.getD p.1 []) (address3C ⟨pos.x, pos.y, hc⟩ hiddenSize))).sum

/-- The `Actor::forward` kernel at one hidden column: greedy argmax over the
action codes (ties to the lowest index, running max seeded at the sentinel). -/
def forwardCode (hiddenSize : Int3) (layers : List OneHotMatrix)
    (inputCs : List (List Int)) (pos : Int2) : Int :=
  ((rangeClosed 0 (hiddenSize.z - 1)).foldl
    (fun acc hc =>
      let s := actSum hiddenSize layers inputCs pos hc
      if acc.2 < s then (hc, s) else acc)
    (0, negSentinel)).1

/-- The forward (policy) pass of the actor over every hidden column; the
supplied RNG stream is threaded through as in the source signature but never
read by the kernel. -/
def forwardPass (a : Actor) (inputCs : List (List Int)) (rng : Nat → Nat) : Actor :=
  (gridPositions a.hiddenSize.x a.hiddenSize.y).foldl
    (fun s pos =>
      { s with
        hiddenCs := fset s.hiddenCs (address2C pos ⟨s.hiddenSize.x, s.hiddenSize.y⟩)
          (forwardCode s.hiddenSize s.visibleLayers inputCs pos) })
    a

/-- Normalized activation pair `(sum, sumPrev)` of hidden cell `(pos, hc)` in
the `Actor::learn` kernel: dot products against `s`'s and `sPrev`'s inputs,
each divided by the clamped per-column support count. -/
def learnSums (hiddenSize : Int3) (counts : Int → Int) (layers : List OneHotMatrix)
    (inputCs inputCsPrev : List (List Int)) (pos : Int2) (hc : Int) : ℚ × ℚ :=
  let hIdx := address3C ⟨pos.x, pos.y, hc⟩ hiddenSize
  let d : ℚ := (clampDivI (counts (address2C pos ⟨hiddenSize.x, hiddenSize.y⟩)) : ℤ)
  ((layers.enum.map (fun p => multiplyOHVs p.2 (inputCs.getD p.1 []) hIdx)).sum / d,
   (layers.enum.map (fun p => multiplyOHVs p.2 (inputCsPrev.getD p.1 []) hIdx)).sum / d)

/-- The `hc` loop of the `Actor::learn` kernel: running maxima of the
normalized activations, and the two action-value reads at `targetC`, which stay
`none` (uninitialized in the source) unless some iteration hits `hc = targetC`. -/
def learnScan (hiddenSize : Int3) (counts : Int → Int) (layers : List OneHotMatrix)
    (inputCs inputCsPrev : List (List Int)) (pos : Int2) (targetC : Int) :
    ℚ × ℚ × Option ℚ × Option ℚ :=
  (rangeClosed 0 (hiddenSize.z - 1)).foldl
    (fun acc hc =>
      let s := learnSums hiddenSize counts layers inputCs inputCsPrev pos hc
      let maxA := max acc.1 s.1
      let maxAP := max acc.2.1 s.2
      if hc = targetC then (maxA, maxAP, some s.1, some s.2)
      else (maxA, maxAP, acc.2.2.1, acc.2.2.2))
    (negSentinel, negSentinel, none, none)

/-- The PAL delta: `alpha * dPAL` with
`dQ = reward + gamma*maxActivation - qActionPrev`,
`dAdv = dQ - gap*(maxActivationPrev - qActionPrev)` and
`dPAL = max(dAdv, dQ - gap*(maxActivation - nextQActionPrev))`. -/
def learnDeltaVal (alpha gamma gap reward maxA maxAP nextQ qP : ℚ) : ℚ :=
  let dQ := reward + gamma * maxA - qP
  let dAdv := dQ - gap * (maxAP - qP)
  let dPAL := max dAdv (dQ - gap * (maxA - nextQ))
  alpha * dPAL

/-- Target action code of the `Actor::learn` kernel at one column: the code
read from the kernel's `hiddenCsPrev` argument at this column. -/
def learnTargetC (hiddenSize : Int3) (hiddenCsPrev : List Int) (pos : Int2) : Int :=
  hiddenCsPrev.getD (address2C pos ⟨hiddenSize.x, hiddenSize.y⟩).toNat 0

/-- Weight row written by the `Actor::learn` kernel at one column:
`address3C(⟨pos, targetC⟩)`. -/
def learnRow (hiddenSize : Int3) (hiddenCsPrev : List Int) (pos : Int2) : Int :=
  address3C ⟨pos.x, pos.y, learnTargetC hiddenSize hiddenCsPrev pos⟩ hiddenSize

/-- The `Actor::learn` kernel at one hidden column: compute the PAL delta and
apply it to every visible layer's weights at row `(pos, targetC)` against
`inputCsPrev`'s one-hot codes. Uninitialized action-value reads are modelled by
`Option.getD _ 0`. -/
def learnColumn (a : Actor) (inputCs : List (List Int)) (hiddenCsPrev feedBackCsPrev : List Int)
    (inputCsPrev : List (List Int)) (pos : Int2) : List OneHotMatrix :=
  let col := address2C pos ⟨a.hiddenSize.x, a.hiddenSize.y⟩
  let targetC := learnTargetC a.hiddenSize hiddenCsPrev pos
  let scan := learnScan a.hiddenSize a.hiddenCounts a.visibleLayers inputCs inputCsPrev pos targetC
  let reward : ℚ := if targetC = feedBackCsPrev.getD col.toNat 0 then 1 else 0
  let delta := learnDeltaVal a.alpha a.gamma a.gap reward scan.1 scan.2.1
    (scan.2.2.1.getD 0) (scan.2.2.2.getD 0)
  a.visibleLayers.enum.map (fun p =>
    deltaOHVs p.2 (inputCsPrev.getD p.1 []) delta (learnRow a.hiddenSize hiddenCsPrev pos))

/-- One learn dispatch of `Actor::step`: the learn kernel over every hidden
column. -/
def learnPass (a : Actor) (inputCs : List (List Int)) (hiddenCsPrev feedBackCsPrev : List Int)
    (inputCsPrev : List (List Int)) : Actor :=
  (gridPositions a.hiddenSize.x a.hiddenSize.y).foldl
    (fun s pos =>
      { s with visibleLayers := learnColumn s inputCs hiddenCsPrev feedBackCsPrev inputCsPrev pos })
    a

/-- The shift-and-reuse rotation of the full history buffer: the front sample
moves to the back (where it is immediately overwritten by the new sample). -/
def histShift {α : Type} (l : List α) : List α :=
  l.drop 1 ++ l.take 1

/-- `Actor::step`: forward pass, history append (with FIFO eviction once at
capacity), then `historyIters` replay-learning iterations when enabled and at
least 3 samples are valid. `rng it` supplies the raw draw of replay iteration
`it`; the uniform draw on `[0, historySize-2]` is modelled by reduction mod
`historySize - 1`. -/
def stepFn (a : Actor) (inputCs : List (List Int)) (hiddenCs feedBackCs : List Int)
    (learnEnabled : Bool) (rng : Nat → Nat) : Actor :=
  let a1 := forwardPass a inputCs rng
  let atCap : Bool := a1.historySize = a1.historySamples.length
  let samples1 := if atCap then histShift a1.historySamples else a1.historySamples
  let size1 := if atCap then a1.historySize else a1.historySize + 1
  let samples2 := samples1.set (size1 - 1) ⟨inputCs, hiddenCs, feedBackCs⟩
  let a2 := { a1 with historySamples := samples2, historySize := size1 }
  if learnEnabled && decide (2 < size1) then
    (List.range a2.historyIters).foldl
      (fun s it =>
        let t := rng it % (size1 - 1)
        let smp := samples2.getD (t + 1) default
        let smpPrev := samples2.getD t default
        learnPass s smp.inputCs smp.hiddenCs smp.feedBackCs smpPrev.inputCs)
      a2
  else a2

/-- One position step of the forward fold. -/
def fpStep (inputCs : List (List Int)) (s : Actor) (pos : Int2) : Actor :=
  { s with
    hiddenCs := fset s.hiddenCs (address2C pos ⟨s.hiddenSize.x, s.hiddenSize.y⟩)
      (forwardCode s.hiddenSize s.visibleLayers inputCs pos) }

/-- One position step of the learn pass fold. -/
def lpStep (inputCs : List (List Int)) (hiddenCsPrev feedBackCsPrev : List Int)
    (inputCsPrev : List (List Int)) (s : Actor) (pos : Int2) : Actor :=
  { s with visibleLayers := learnColumn s inputCs hiddenCsPrev feedBackCsPrev inputCsPrev pos }

/-- Abbreviation for the step function of the `learnScan` fold. -/
def lsStep (hiddenSize : Int3) (counts : Int → Int) (layers : List OneHotMatrix)
    (inputCs inputCsPrev : List (List Int)) (pos : Int2) (targetC : Int)
    (acc : ℚ × ℚ × Option ℚ × Option ℚ) (hc : Int) : ℚ × ℚ × Option ℚ × Option ℚ :=
  let s := learnSums hiddenSize counts layers inputCs inputCsPrev pos hc
  let maxA := max acc.1 s.1
  let maxAP := max acc.2.1 s.2
  if hc = targetC then (maxA, maxAP, some s.1, some s.2)
  else (maxA, maxAP, acc.2.2.1, acc.2.2.2)

/-- Arguments of one `Actor::step` call fed from the environment. -/
structure StepArgs where
  inputCs : List (List Int)
  hiddenCs : List Int
  feedBackCs : List Int
  learnEnabled : Bool
  rng : Nat → Nat

/-- The history sample that `Actor::step` records for one call. -/
def StepArgs.toSample (x : StepArgs) : HistorySample :=
  ⟨x.inputCs, x.hiddenCs, x.feedBackCs⟩

/-- Feed a sequence of environment steps to the actor. -/
def feed (a : Actor) (steps : List StepArgs) : Actor :=
  steps.foldl (fun s x => Actor.stepFn s x.inputCs x.hiddenCs x.feedBackCs x.learnEnabled x.rng) a

end Actor

/-! ## Basic lemmas on the addressing helpers -/

theorem mem_rangeClosed {a b i : Int} : i ∈ rangeClosed a b ↔ a ≤ i ∧ i ≤ b := by
  unfold rangeClosed
  rw [List.mem_map]
  constructor
  · rintro ⟨n, hn, rfl⟩
    rw [List.mem_range] at hn
    omega
  · rintro ⟨h1, h2⟩
    refine ⟨(i - a).toNat, ?_, by omega⟩
    rw [List.mem_range]
    omega

theorem rangeClosed_nodup (a b : Int) : (rangeClosed a b).Nodup := by
  unfold rangeClosed
  refine List.Nodup.map ?_ (List.nodup_range _)
  intro m n h
  have h' : a + (m : Int) = a + (n : Int) := h
  omega

theorem mem_gridPositions {w h : Int} {p : Int2} :
    p ∈ gridPositions w h ↔ 0 ≤ p.x ∧ p.x ≤ w - 1 ∧ 0 ≤ p.y ∧ p.y ≤ h - 1 := by
  unfold gridPositions
  simp only [List.mem_flatMap, List.mem_map]
  constructor
  · rintro ⟨x, hx, y, hy, rfl⟩
    have hx' := mem_rangeClosed.mp hx
    have hy' := mem_rangeClosed.mp hy
    exact ⟨hx'.1, hx'.2, hy'.1, hy'.2⟩
  · rintro ⟨h1, h2, h3, h4⟩
    exact ⟨p.x, mem_rangeClosed.mpr ⟨h1, h2⟩, p.y, mem_rangeClosed.mpr ⟨h3, h4⟩, rfl⟩

theorem gridPositions_nodup (w h : Int) : (gridPositions w h).Nodup := by
  unfold gridPositions
  have hys := rangeClosed_nodup 0 (h - 1)
  have hxs := rangeClosed_nodup 0 (w - 1)
  revert hxs
  induction rangeClosed 0 (w - 1) with
  | nil => intro _; simp
  | cons x xs ih =>
    intro hnd
    rw [List.flatMap_cons]
    refine List.Nodup.append (hys.map ?_) (ih hnd.of_cons) ?_
    · intro m n hmn
      simpa [Int2.mk.injEq] using hmn
    · intro p hp hp'
      simp only [List.mem_map] at hp
      simp only [List.mem_flatMap, List.mem_map] at hp'
      rcases hp with ⟨y, _, rfl⟩
      rcases hp' with ⟨x', hx', y', _, hy'⟩
      have hxx : x = x' := by
        have := congrArg Int2.x hy'
        simpa using this.symm
      exact (List.nodup_cons.mp hnd).1 (hxx ▸ hx')

theorem fset_same {α : Type} (f : Int → α) (i : Int) (v : α) : fset f i v i = v := by
  simp [fset]

theorem fset_other {α : Type} (f : Int → α) {i j : Int} (v : α) (h : j ≠ i) :
    fset f i v j = f j := by
  simp [fset, h]

/-- Generic running-choice lemma: if every fold step either keeps the tracked
index or replaces it by the current list element, the final index is the seed
or a list member. -/
theorem foldl_choice_mem {σ : Type} (proj : σ → Int) (f : σ → Int → σ)
    (hf : ∀ acc x, proj (f acc x) = proj acc ∨ proj (f acc x) = x) :
    ∀ (l : List Int) (acc : σ), proj (l.foldl f acc) = proj acc ∨ proj (l.foldl f acc) ∈ l := by
  intro l
  induction l with
  | nil => intro acc; exact Or.inl rfl
  | cons x l ih =>
    intro acc
    rw [List.foldl_cons]
    rcases ih (f acc x) with h | h
    · rcases hf acc x with h' | h'
      · exact Or.inl (h.trans h')
      · exact Or.inr (by rw [h, h']; exact List.mem_cons_self x l)
    · exact Or.inr (List.mem_cons_of_mem x h)

/-- The running-argmax loop shape shared by `SparseCoder::backward` and
`Actor::forward`: starting from index `0` and the sentinel, the chosen index
stays in `[0, n)` whenever `n ≥ 1`. -/
theorem argmax_fold_range (g : Int → ℚ) (n : Int) (hn : 1 ≤ n) :
    0 ≤ ((rangeClosed 0 (n - 1)).foldl
      (fun (acc : Int × ℚ) c => if acc.2 < g c then (c, g c) else acc)
      ((0 : Int), negSentinel)).1 ∧
    ((rangeClosed 0 (n - 1)).foldl
      (fun (acc : Int × ℚ) c => if acc.2 < g c then (c, g c) else acc)
      ((0 : Int), negSentinel)).1 ≤ n - 1 := by
  have h := foldl_choice_mem (fun (r : Int × ℚ) => r.1)
    (fun (acc : Int × ℚ) c => if acc.2 < g c then (c, g c) else acc)
    (fun acc x => by dsimp only; split; exacts [Or.inr rfl, Or.inl rfl])
    (rangeClosed 0 (n - 1)) ((0 : Int), negSentinel)
  rcases h with h | h
  · have h' : ((rangeClosed 0 (n - 1)).foldl
        (fun (acc : Int × ℚ) c => if acc.2 < g c then (c, g c) else acc)
        ((0 : Int), negSentinel)).1 = 0 := h
    omega
  · have h' := mem_rangeClosed.mp h
    omega

/-- Unique decomposition of an address `base + q * d` with `0 ≤ base < d`. -/
theorem addr_decomp_unique {base base' q q' d : Int} (h1 : 0 ≤ base) (h2 : base < d)
    (h3 : 0 ≤ base') (h4 : base' < d) (h : base + q * d = base' + q' * d) :
    base = base' ∧ q = q' := by
  have hd : 0 < d := lt_of_le_of_lt h1 h2
  have hq : q = q' := by
    rcases lt_trichotomy q q' with hlt | heq | hgt
    · nlinarith [mul_le_mul_of_nonneg_right (by omega : q + 1 ≤ q') (le_of_lt hd)]
    · exact heq
    · nlinarith [mul_le_mul_of_nonneg_right (by omega : q' + 1 ≤ q) (le_of_lt hd)]
  subst hq
  exact ⟨by omega, rfl⟩

/-- `address2C` is injective on valid grid positions. -/
theorem address2C_inj {d : Int2} {p q : Int2}
    (hp : 0 ≤ p.x ∧ p.x ≤ d.x - 1 ∧ 0 ≤ p.y ∧ p.y ≤ d.y - 1)
    (hq : 0 ≤ q.x ∧ q.x ≤ d.x - 1 ∧ 0 ≤ q.y ∧ q.y ≤ d.y - 1)
    (h : address2C p d = address2C q d) : p = q := by
  unfold address2C at h
  have := @addr_decomp_unique p.y q.y p.x q.x d.y
    (by omega) (by omega) (by omega) (by omega) h
  cases p; cases q
  simp_all

theorem mem_prodList {xs ys : List Int} {p : Int2} :
    p ∈ xs.flatMap (fun x => ys.map (fun y => Int2.mk x y)) ↔ p.x ∈ xs ∧ p.y ∈ ys := by
  simp only [List.mem_flatMap, List.mem_map]
  constructor
  · rintro ⟨x, hx, y, hy, rfl⟩
    exact ⟨hx, hy⟩
  · rintro ⟨hx, hy⟩
    exact ⟨p.x, hx, p.y, hy, rfl⟩

theorem prodList_nodup (xs ys : List Int) (hx : xs.Nodup) (hy : ys.Nodup) :
    (xs.flatMap (fun x => ys.map (fun y => Int2.mk x y))).Nodup := by
  induction xs with
  | nil => simp
  | cons x xs ih =>
    rw [List.flatMap_cons]
    refine List.Nodup.append (hy.map ?_) (ih hx.of_cons) ?_
    · intro m n hmn
      simpa [Int2.mk.injEq] using hmn
    · intro p hp hp'
      simp only [List.mem_map] at hp
      simp only [List.mem_flatMap, List.mem_map] at hp'
      rcases hp with ⟨y, _, rfl⟩
      rcases hp' with ⟨x', hx', y', _, hy'⟩
      have hxx : x = x' := by
        have := congrArg Int2.x hy'
        simpa using this.symm
      exact (List.nodup_cons.mp hx).1 (hxx ▸ hx')

/-- Injectivity of the per-cell address within bounded hidden coordinates. -/
theorem address3_slot_inj {sx sy : Int} {p q : Int2} {hc hc' : Int}
    (hp : 0 ≤ p.x ∧ p.x ≤ sx - 1 ∧ 0 ≤ p.y ∧ p.y ≤ sy - 1)
    (hq : 0 ≤ q.x ∧ q.x ≤ sx - 1 ∧ 0 ≤ q.y ∧ q.y ≤ sy - 1)
    (h : address3 ⟨p.x, p.y, hc⟩ ⟨sx, sy⟩ = address3 ⟨q.x, q.y, hc'⟩ ⟨sx, sy⟩) :
    p = q ∧ hc = hc' := by
  unfold address3 at h
  obtain ⟨hp1, hp2, hp3, hp4⟩ := hp
  obtain ⟨hq1, hq2, hq3, hq4⟩ := hq
  have hsx : 1 ≤ sx := by omega
  have hsy : 1 ≤ sy := by omega
  have hpy : 0 ≤ p.y * sx := mul_nonneg hp3 (by omega)
  have hqy : 0 ≤ q.y * sx := mul_nonneg hq3 (by omega)
  have hpb : p.y * sx + p.x < sx * sy := by nlinarith
  have hqb : q.y * sx + q.x < sx * sy := by nlinarith
  have h' : p.y * sx + p.x + hc * (sx * sy) = q.y * sx + q.x + hc' * (sx * sy) := by
    linear_combination h
  obtain ⟨hbase, hz⟩ := addr_decomp_unique (by linarith) hpb (by linarith) hqb h'
  have h'' : p.x + p.y * sx = q.x + q.y * sx := by linear_combination hbase
  obtain ⟨hx, hy⟩ := addr_decomp_unique hp1 (by omega) hq1 (by omega) h''
  cases p; cases q
  simp_all

/-- Injectivity of the dense four component weight address within bounded
coordinates (any nonnegative outer offset). -/
theorem address4_inj {size : Int3} {p q : Int4}
    (hp : 0 ≤ p.x ∧ p.x ≤ size.x - 1 ∧ 0 ≤ p.y ∧ p.y ≤ size.y - 1 ∧
      0 ≤ p.z ∧ p.z ≤ size.z - 1 ∧ 0 ≤ p.w)
    (hq : 0 ≤ q.x ∧ q.x ≤ size.x - 1 ∧ 0 ≤ q.y ∧ q.y ≤ size.y - 1 ∧
      0 ≤ q.z ∧ q.z ≤ size.z - 1 ∧ 0 ≤ q.w)
    (h : address4 p size = address4 q size) : p = q := by
  unfold address4 at h
  obtain ⟨hp1, hp2, hp3, hp4, hp5, hp6, hp7⟩ := hp
  obtain ⟨hq1, hq2, hq3, hq4, hq5, hq6, hq7⟩ := hq
  have hsx : 1 ≤ size.x := by omega
  have hsy : 1 ≤ size.y := by omega
  have hsz : 1 ≤ size.z := by omega
  have hpy : 0 ≤ p.y * size.x := mul_nonneg hp3 (by omega)
  have hqy : 0 ≤ q.y * size.x := mul_nonneg hq3 (by omega)
  have hpz : 0 ≤ p.z * (size.x * size.y) := mul_nonneg hp5 (by nlinarith)
  have hqz : 0 ≤ q.z * (size.x * size.y) := mul_nonneg hq5 (by nlinarith)
  have hpb2 : p.y * size.x + p.x < size.x * size.y := by nlinarith
  have hqb2 : q.y * size.x + q.x < size.x * size.y := by nlinarith
  have hpb3 : p.z * (size.x * size.y) + (p.y * size.x + p.x) < size.x * size.y * size.z := by
    nlinarith
  have hqb3 : q.z * (size.x * size.y) + (q.y * size.x + q.x) < size.x * size.y * size.z := by
    nlinarith
  have h3 : p.z * (size.x * size.y) + (p.y * size.x + p.x) + p.w * (size.x * size.y * size.z)
      = q.z * (size.x * size.y) + (q.y * size.x + q.x) + q.w * (size.x * size.y * size.z) := by
    linear_combination h
  obtain ⟨hb3, hw⟩ := addr_decomp_unique (by linarith) hpb3 (by linarith) hqb3 h3
  have h2 : p.y * size.x + p.x + p.z * (size.x * size.y)
      = q.y * size.x + q.x + q.z * (size.x * size.y) := by linear_combination hb3
  obtain ⟨hb2, hzz⟩ := addr_decomp_unique (by linarith) hpb2 (by linarith) hqb2 h2
  have h1 : p.x + p.y * size.x = q.x + q.y * size.x := by linear_combination hb2
  obtain ⟨hxx, hyy⟩ := addr_decomp_unique hp1 (by omega) hq1 (by omega) h1
  cases p; cases q
  simp_all

/-- Writing pairwise-distinct addresses: the final value at an untouched
address is the initial one. -/
theorem fsetFold_notin {α : Type} (addr : Int → Int) (g : Int → α) :
    ∀ (l : List Int) (f : Int → α) (i : Int), (∀ x ∈ l, i ≠ addr x) →
      (l.foldl (fun f x => fset f (addr x) (g x)) f) i = f i := by
  intro l
  induction l with
  | nil => intro f i _; rfl
  | cons x l ih =>
    intro f i hni
    rw [List.foldl_cons, ih _ i (fun y hy => hni y (List.mem_cons_of_mem x hy))]
    exact fset_other _ _ (hni x (List.mem_cons_self x l))

/-- Writing pairwise-distinct addresses: the final value at a written address
is its own write. -/
theorem fsetFold_at {α : Type} (addr : Int → Int) (g : Int → α) :
    ∀ (l : List Int) (f : Int → α) (x : Int), x ∈ l →
      l.Pairwise (fun a b => addr a ≠ addr b) →
      (l.foldl (fun f x => fset f (addr x) (g x)) f) (addr x) = g x := by
  intro l
  induction l with
  | nil => intro f x hx _; exact absurd hx (List.not_mem_nil x)
  | cons y l ih =>
    intro f x hx hpw
    rw [List.foldl_cons]
    rcases List.mem_cons.mp hx with rfl | hx'
    · rw [fsetFold_notin addr g l _ _ (fun r hr => (List.pairwise_cons.mp hpw).1 r hr)]
      exact fset_same _ _ _
    · exact ih _ x hx' (List.pairwise_cons.mp hpw).2

theorem getD_set_self {α : Type} :
    ∀ (l : List α) (i : Nat) (x d : α), i < l.length → (l.set i x).getD i d = x := by
  intro l
  induction l with
  | nil => intro i x d h; simp at h
  | cons a l ih =>
    intro i x d h
    cases i with
    | zero => rfl
    | succ n => exact ih n x d (by simpa using h)

theorem getD_set_other {α : Type} :
    ∀ (l : List α) (i j : Nat) (x d : α), i ≠ j → (l.set i x).getD j d = l.getD j d := by
  intro l
  induction l with
  | nil => intro i j x d _; rfl
  | cons a l ih =>
    intro i j x d h
    cases i with
    | zero =>
      cases j with
      | zero => exact absurd rfl h
      | succ m => rfl
    | succ n =>
      cases j with
      | zero => rfl
      | succ m => exact ih n m x d (fun hc => h (by rw [hc]))

theorem getD_len_le {α : Type} (l : List α) (j : Nat) (d : α) (h : l.length ≤ j) :
    l.getD j d = d := by
  rw [List.getD_eq_getD_get?, List.get?_eq_none.mpr h]
  rfl

/-- A guarded accumulate-write fold (the window loop of `SparseCoder::learn`)
leaves every address outside its guarded write set untouched. -/
theorem gfsetFold_notin {β : Type} (P : β → Bool) (addr : β → Int) (delta : ℚ) :
    ∀ (l : List β) (w : Int → ℚ) (i : Int), (∀ x ∈ l, P x = true → i ≠ addr x) →
      (l.foldl (fun wAcc x =>
        if P x then fset wAcc (addr x) (wAcc (addr x) + delta) else wAcc) w) i = w i := by
  intro l
  induction l with
  | nil => intro w i _; rfl
  | cons x l ih =>
    intro w i hni
    rw [List.foldl_cons, ih _ i (fun r hr => hni r (List.mem_cons_of_mem x hr))]
    by_cases hP : P x = true
    · rw [if_pos hP]
      exact fset_other _ _ (hni x (List.mem_cons_self x l) hP)
    · rw [if_neg hP]

/-- A guarded accumulate-write fold adds `delta` exactly once at each address
of its guarded write set, provided guarded list elements have pairwise distinct
addresses. -/
theorem gfsetFold_at {β : Type} (P : β → Bool) (addr : β → Int) (delta : ℚ) :
    ∀ (l : List β) (w : Int → ℚ) (y : β), y ∈ l → P y = true →
      l.Pairwise (fun a b => P a = true → P b = true → addr a ≠ addr b) →
      (l.foldl (fun wAcc x =>
        if P x then fset wAcc (addr x) (wAcc (addr x) + delta) else wAcc) w) (addr y)
        = w (addr y) + delta := by
  intro l
  induction l with
  | nil => intro w y hy; exact absurd hy (List.not_mem_nil y)
  | cons x l ih =>
    intro w y hy hPy hpw
    rw [List.foldl_cons]
    rcases List.mem_cons.mp hy with he | hy'
    · subst he
      rw [gfsetFold_notin P addr delta l _ _
        (fun r hr hPr => (List.pairwise_cons.mp hpw).1 r hr hPy hPr), if_pos hPy, fset_same]
    · have hstep : (if P x then fset w (addr x) (w (addr x) + delta) else w) (addr y)
          = w (addr y) := by
        by_cases hP : P x = true
        · rw [if_pos hP]
          exact fset_other _ _
            (fun habs => (List.pairwise_cons.mp hpw).1 y hy' hP hPy habs.symm)
        · rw [if_neg hP]
      rw [ih _ y hy' hPy (List.pairwise_cons.mp hpw).2, hstep]

/-- Bounds of the in-field offset `dx + dy * d` with `0 ≤ dx, dy ≤ d - 1`. -/
theorem offset_bounds {dx dy d : Int} (h1 : 0 ≤ dx) (h2 : dx ≤ d - 1) (h3 : 0 ≤ dy)
    (h4 : dy ≤ d - 1) : 0 ≤ dx + dy * d ∧ dx + dy * d ≤ d * d - 1 := by
  have hd : 1 ≤ d := by omega
  have hdy : 0 ≤ dy * d := mul_nonneg h3 (by omega)
  refine ⟨by omega, ?_⟩
  nlinarith

namespace SparseCoder

/-- Generic frame lemma for the coder's position/layer folds: any step that
preserves the listed fields preserves them over the whole fold. -/
theorem scFold_frame {β : Type} (g : SparseCoder → β → SparseCoder)
    (hg : ∀ (s : SparseCoder) (b : β),
      (g s b).hiddenSize = s.hiddenSize ∧ (g s b).hiddenCs = s.hiddenCs ∧
      (g s b).hiddenActivations = s.hiddenActivations ∧
      (g s b).visibleLayerDescs = s.visibleLayerDescs ∧
      (g s b).visibleLayers.length = s.visibleLayers.length ∧
      (g s b).alpha = s.alpha ∧ (g s b).explainIters = s.explainIters) :
    ∀ (l : List β) (s : SparseCoder),
      (l.foldl g s).hiddenSize = s.hiddenSize ∧ (l.foldl g s).hiddenCs = s.hiddenCs ∧
      (l.foldl g s).hiddenActivations = s.hiddenActivations ∧
      (l.foldl g s).visibleLayerDescs = s.visibleLayerDescs ∧
      (l.foldl g s).visibleLayers.length = s.visibleLayers.length ∧
      (l.foldl g s).alpha = s.alpha ∧ (l.foldl g s).explainIters = s.explainIters := by
  intro l
  induction l with
  | nil => intro s; exact ⟨rfl, rfl, rfl, rfl, rfl, rfl, rfl⟩
  | cons x l ih =>
    intro s
    rw [List.foldl_cons]
    obtain ⟨i1, i2, i3, i4, i5, i6, i7⟩ := ih (g s x)
    obtain ⟨j1, j2, j3, j4, j5, j6, j7⟩ := hg s x
    exact ⟨i1.trans j1, i2.trans j2, i3.trans j3, i4.trans j4, i5.trans j5,
      i6.trans j6, i7.trans j7⟩

/-- `SparseCoder::backward` at one visible column changes only the layer list
(and in it only the reconstruction codes). -/
theorem backwardColumn_frame (s : SparseCoder) (vli : Nat) (pos : Int2) :
    (backwardColumn s vli pos).hiddenSize = s.hiddenSize ∧
    (backwardColumn s vli pos).hiddenCs = s.hiddenCs ∧
    (backwardColumn s vli pos).hiddenActivations = s.hiddenActivations ∧
    (backwardColumn s vli pos).visibleLayerDescs = s.visibleLayerDescs ∧
    (backwardColumn s vli pos).visibleLayers.length = s.visibleLayers.length ∧
    (backwardColumn s vli pos).alpha = s.alpha ∧
    (backwardColumn s vli pos).explainIters = s.explainIters := by
  refine ⟨rfl, rfl, rfl, rfl, ?_, rfl, rfl⟩
  simp [backwardColumn]

theorem backwardPassLayer_frame (s : SparseCoder) (vli : Nat) :
    (backwardPassLayer s vli).hiddenSize = s.hiddenSize ∧
    (backwardPassLayer s vli).hiddenCs = s.hiddenCs ∧
    (backwardPassLayer s vli).hiddenActivations = s.hiddenActivations ∧
    (backwardPassLayer s vli).visibleLayerDescs = s.visibleLayerDescs ∧
    (backwardPassLayer s vli).visibleLayers.length = s.visibleLayers.length ∧
    (backwardPassLayer s vli).alpha = s.alpha ∧
    (backwardPassLayer s vli).explainIters = s.explainIters :=
  scFold_frame _ (fun s' p => backwardColumn_frame s' vli p) _ s

theorem backwardAll_frame (s : SparseCoder) :
    (backwardAll s).hiddenSize = s.hiddenSize ∧
    (backwardAll s).hiddenCs = s.hiddenCs ∧
    (backwardAll s).hiddenActivations = s.hiddenActivations ∧
    (backwardAll s).visibleLayerDescs = s.visibleLayerDescs ∧
    (backwardAll s).visibleLayers.length = s.visibleLayers.length ∧
    (backwardAll s).alpha = s.alpha ∧
    (backwardAll s).explainIters = s.explainIters :=
  scFold_frame _ (fun s' vli => backwardPassLayer_frame s' vli) _ s

/-- `SparseCoder::learn` at one visible column changes only the layer list
(and in it only the weights). -/
theorem learnColumn_frame (s : SparseCoder) (inputCs : List (List Int)) (vli : Nat)
    (pos : Int2) :
    (learnColumn s inputCs vli pos).hiddenSize = s.hiddenSize ∧
    (learnColumn s inputCs vli pos).hiddenCs = s.hiddenCs ∧
    (learnColumn s inputCs vli pos).hiddenActivations = s.hiddenActivations ∧
    (learnColumn s inputCs vli pos).visibleLayerDescs = s.visibleLayerDescs ∧
    (learnColumn s inputCs vli pos).visibleLayers.length = s.visibleLayers.length ∧
    (learnColumn s inputCs vli pos).alpha = s.alpha ∧
    (learnColumn s inputCs vli pos).explainIters = s.explainIters := by
  refine ⟨rfl, rfl, rfl, rfl, ?_, rfl, rfl⟩
  simp [learnColumn]

theorem learnPassLayer_frame (s : SparseCoder) (inputCs : List (List Int)) (vli : Nat) :
    (learnPassLayer s inputCs vli).hiddenSize = s.hiddenSize ∧
    (learnPassLayer s inputCs vli).hiddenCs = s.hiddenCs ∧
    (learnPassLayer s inputCs vli).hiddenActivations = s.hiddenActivations ∧
    (learnPassLayer s inputCs vli).visibleLayerDescs = s.visibleLayerDescs ∧
    (learnPassLayer s inputCs vli).visibleLayers.length = s.visibleLayers.length ∧
    (learnPassLayer s inputCs vli).alpha = s.alpha ∧
    (learnPassLayer s inputCs vli).explainIters = s.explainIters :=
  scFold_frame _ (fun s' p => learnColumn_frame s' inputCs vli p) _ s

theorem learnAll_frame (s : SparseCoder) (inputCs : List (List Int)) :
    (learnAll s inputCs).hiddenSize = s.hiddenSize ∧
    (learnAll s inputCs).hiddenCs = s.hiddenCs ∧
    (learnAll s inputCs).hiddenActivations = s.hiddenActivations ∧
    (learnAll s inputCs).visibleLayerDescs = s.visibleLayerDescs ∧
    (learnAll s inputCs).visibleLayers.length = s.visibleLayers.length ∧
    (learnAll s inputCs).alpha = s.alpha ∧
    (learnAll s inputCs).explainIters = s.explainIters :=
  scFold_frame _ (fun s' vli => learnPassLayer_frame s' inputCs vli) _ s

/-- The coder's forward fold leaves everything but the activations and the
hidden CSDR unchanged. -/
theorem scfp_foldl_frame (inputCs : List (List Int)) (fi : Bool) :
    ∀ (ps : List Int2) (s : SparseCoder),
      (ps.foldl (fpStepC inputCs fi) s).hiddenSize = s.hiddenSize ∧
      (ps.foldl (fpStepC inputCs fi) s).visibleLayers = s.visibleLayers ∧
      (ps.foldl (fpStepC inputCs fi) s).visibleLayerDescs = s.visibleLayerDescs ∧
      (ps.foldl (fpStepC inputCs fi) s).alpha = s.alpha ∧
      (ps.foldl (fpStepC inputCs fi) s).explainIters = s.explainIters := by
  intro ps
  induction ps with
  | nil => intro s; exact ⟨rfl, rfl, rfl, rfl, rfl⟩
  | cons p ps ih =>
    intro s
    rw [List.foldl_cons]
    exact ih (fpStepC inputCs fi s p)

theorem forwardPass_frame (sc : SparseCoder) (inputCs : List (List Int)) (fi : Bool) :
    (forwardPass sc inputCs fi).hiddenSize = sc.hiddenSize ∧
    (forwardPass sc inputCs fi).visibleLayers = sc.visibleLayers ∧
    (forwardPass sc inputCs fi).visibleLayerDescs = sc.visibleLayerDescs ∧
    (forwardPass sc inputCs fi).alpha = sc.alpha ∧
    (forwardPass sc inputCs fi).explainIters = sc.explainIters :=
  scfp_foldl_frame inputCs fi _ sc

/-- Every `activate` iteration preserves the geometry fields. -/
theorem activateAux_frame (sc : SparseCoder) (inputCs : List (List Int)) :
    ∀ n : Nat,
      (activateAux sc inputCs n).hiddenSize = sc.hiddenSize ∧
      (activateAux sc inputCs n).visibleLayerDescs = sc.visibleLayerDescs ∧
      (activateAux sc inputCs n).visibleLayers.length = sc.visibleLayers.length ∧
      (activateAux sc inputCs n).alpha = sc.alpha ∧
      (activateAux sc inputCs n).explainIters = sc.explainIters := by
  intro n
  induction n with
  | zero => exact ⟨rfl, rfl, rfl, rfl, rfl⟩
  | succ n ih =>
    obtain ⟨i1, i2, i3, i4, i5⟩ := ih
    obtain ⟨b1, b2, b3, b4, b5, b6, b7⟩ :=
      backwardAll_frame (forwardPass (activateAux sc inputCs n) inputCs (n == 0))
    obtain ⟨f1, f2, f3, f4, f5⟩ :=
      forwardPass_frame (activateAux sc inputCs n) inputCs (n == 0)
    refine ⟨?_, ?_, ?_, ?_, ?_⟩
    · exact (b1.trans f1).trans i1
    · exact (b4.trans f3).trans i2
    · exact (b5.trans (congrArg List.length f2)).trans i3
    · exact (b6.trans f4).trans i4
    · exact (b7.trans f5).trans i5

theorem forwardCellStep_fst (sc : SparseCoder) (inputCs : List (List Int)) (fi : Bool)
    (pos : Int2) (acc : (Int → ℚ) × Int × ℚ) (hc : Int) :
    (forwardCellStep sc inputCs fi pos acc hc).1
      = fset acc.1 (address3 ⟨pos.x, pos.y, hc⟩ ⟨sc.hiddenSize.x, sc.hiddenSize.y⟩)
        (if fi then inputAct sc inputCs pos hc
         else acc.1 (address3 ⟨pos.x, pos.y, hc⟩ ⟨sc.hiddenSize.x, sc.hiddenSize.y⟩)
           + inputAct sc inputCs pos hc - reconAct sc pos hc) := by
  simp only [forwardCellStep]
  split <;> split <;> rfl

theorem forwardCellStep_choice (sc : SparseCoder) (inputCs : List (List Int)) (fi : Bool)
    (pos : Int2) (acc : (Int → ℚ) × Int × ℚ) (hc : Int) :
    (forwardCellStep sc inputCs fi pos acc hc).2.1 = acc.2.1 ∨
    (forwardCellStep sc inputCs fi pos acc hc).2.1 = hc := by
  simp only [forwardCellStep]
  split <;> split <;> simp

/-- The `hc` loop of the forward kernel writes each cell's activation slot with
the per-slot parallel value, provided the accumulator still holds the pre-pass
activations of this column. -/
theorem fc_fold_acts (sc : SparseCoder) (inputCs : List (List Int)) (fi : Bool) (pos : Int2)
    (hvp : 0 ≤ pos.x ∧ pos.x ≤ sc.hiddenSize.x - 1 ∧ 0 ≤ pos.y ∧ pos.y ≤ sc.hiddenSize.y - 1) :
    ∀ (l : List Int) (acc : (Int → ℚ) × Int × ℚ),
      l.Pairwise (fun a b => a ≠ b) →
      (∀ hc ∈ l, acc.1 (address3 ⟨pos.x, pos.y, hc⟩ ⟨sc.hiddenSize.x, sc.hiddenSize.y⟩)
        = sc.hiddenActivations (address3 ⟨pos.x, pos.y, hc⟩ ⟨sc.hiddenSize.x, sc.hiddenSize.y⟩)) →
      (∀ hc ∈ l,
        (l.foldl (forwardCellStep sc inputCs fi pos) acc).1
            (address3 ⟨pos.x, pos.y, hc⟩ ⟨sc.hiddenSize.x, sc.hiddenSize.y⟩)
          = scNewVal sc inputCs fi pos hc) ∧
      (∀ i : Int,
        (∀ hc ∈ l, i ≠ address3 ⟨pos.x, pos.y, hc⟩ ⟨sc.hiddenSize.x, sc.hiddenSize.y⟩) →
        (l.foldl (forwardCellStep sc inputCs fi pos) acc).1 i = acc.1 i) := by
  intro l
  induction l with
  | nil =>
    intro acc _ _
    exact ⟨fun hc h => absurd h (List.not_mem_nil hc), fun i _ => rfl⟩
  | cons hc0 l ih =>
    intro acc hpw hagree
    have hne_addr : ∀ hc ∈ l,
        address3 ⟨pos.x, pos.y, hc⟩ ⟨sc.hiddenSize.x, sc.hiddenSize.y⟩
          ≠ address3 ⟨pos.x, pos.y, hc0⟩ ⟨sc.hiddenSize.x, sc.hiddenSize.y⟩ := by
      intro hc hmem habs
      exact (List.pairwise_cons.mp hpw).1 hc hmem
        ((address3_slot_inj hvp hvp habs).2).symm
    have hstep := forwardCellStep_fst sc inputCs fi pos acc hc0
    have hagree' : ∀ hc ∈ l,
        (forwardCellStep sc inputCs fi pos acc hc0).1
            (address3 ⟨pos.x, pos.y, hc⟩ ⟨sc.hiddenSize.x, sc.hiddenSize.y⟩)
          = sc.hiddenActivations (address3 ⟨pos.x, pos.y, hc⟩ ⟨sc.hiddenSize.x, sc.hiddenSize.y⟩) := by
      intro hc hmem
      rw [hstep, fset_other _ _ (hne_addr hc hmem)]
      exact hagree hc (List.mem_cons_of_mem hc0 hmem)
    obtain ⟨ih1, ih2⟩ := ih (forwardCellStep sc inputCs fi pos acc hc0)
      (List.pairwise_cons.mp hpw).2 hagree'
    constructor
    · intro hc hmem
      rw [List.foldl_cons]
      rcases List.mem_cons.mp hmem with rfl | hmem'
      · rw [ih2 _ (fun hc' hm' => Ne.symm (hne_addr hc' hm')), hstep, fset_same]
        unfold scNewVal
        rw [hagree hc (List.mem_cons_self hc l)]
      · exact ih1 hc hmem'
    · intro i hni
      rw [List.foldl_cons, ih2 i (fun hc hm => hni hc (List.mem_cons_of_mem hc0 hm)), hstep,
        fset_other _ _ (hni hc0 (List.mem_cons_self hc0 l))]

/-- The forward kernel at a valid column: each activation slot of the column
gets the parallel per-slot value, all other slots are untouched. -/
theorem forwardColumn_acts (sc : SparseCoder) (inputCs : List (List Int)) (fi : Bool)
    (pos : Int2)
    (hvp : 0 ≤ pos.x ∧ pos.x ≤ sc.hiddenSize.x - 1 ∧ 0 ≤ pos.y ∧ pos.y ≤ sc.hiddenSize.y - 1) :
    (∀ hc : Int, 0 ≤ hc → hc ≤ sc.hiddenSize.z - 1 →
      (forwardColumn sc inputCs fi pos).1
          (address3 ⟨pos.x, pos.y, hc⟩ ⟨sc.hiddenSize.x, sc.hiddenSize.y⟩)
        = scNewVal sc inputCs fi pos hc) ∧
    (∀ i : Int,
      (∀ hc : Int, 0 ≤ hc → hc ≤ sc.hiddenSize.z - 1 →
        i ≠ address3 ⟨pos.x, pos.y, hc⟩ ⟨sc.hiddenSize.x, sc.hiddenSize.y⟩) →
      (forwardColumn sc inputCs fi pos).1 i = sc.hiddenActivations i) := by
  obtain ⟨h1, h2⟩ := fc_fold_acts sc inputCs fi pos hvp
    (rangeClosed 0 (sc.hiddenSize.z - 1)) (sc.hiddenActivations, 0, negSentinel)
    (rangeClosed_nodup 0 (sc.hiddenSize.z - 1)) (fun _ _ => rfl)
  constructor
  · intro hc hb1 hb2
    exact h1 hc (mem_rangeClosed.mpr ⟨hb1, hb2⟩)
  · intro i hni
    exact h2 i (fun hc hm => hni hc (mem_rangeClosed.mp hm).1 (mem_rangeClosed.mp hm).2)

/-- The forward kernel's emitted code lies in `[0, hiddenSize.z)` once the
column has at least one cell. -/
theorem forwardColumn_code_range (sc : SparseCoder) (inputCs : List (List Int)) (fi : Bool)
    (pos : Int2) (hz : 1 ≤ sc.hiddenSize.z) :
    0 ≤ (forwardColumn sc inputCs fi pos).2 ∧
      (forwardColumn sc inputCs fi pos).2 ≤ sc.hiddenSize.z - 1 := by
  have h := foldl_choice_mem (fun (r : (Int → ℚ) × Int × ℚ) => r.2.1)
    (forwardCellStep sc inputCs fi pos)
    (fun acc x => forwardCellStep_choice sc inputCs fi pos acc x)
    (rangeClosed 0 (sc.hiddenSize.z - 1)) (sc.hiddenActivations, 0, negSentinel)
  rcases h with h | h
  · have h0 : (forwardColumn sc inputCs fi pos).2 = 0 := h
    omega
  · have hb := mem_rangeClosed.mp h
    have h0 : (forwardColumn sc inputCs fi pos).2
        = ((rangeClosed 0 (sc.hiddenSize.z - 1)).foldl (forwardCellStep sc inputCs fi pos)
          (sc.hiddenActivations, 0, negSentinel)).2.1 := rfl
    omega

/-- The reconstruction code chosen by the backward kernel lies in
`[0, vld.size.z)` once the visible column has at least one cell. -/
theorem reconCode_range (sc : SparseCoder) (vli : Nat) (pos : Int2)
    (hz : 1 ≤ (sc.visibleLayerDescs.getD vli default).size.z) :
    0 ≤ reconCode sc vli pos ∧
      reconCode sc vli pos ≤ (sc.visibleLayerDescs.getD vli default).size.z - 1 :=
  argmax_fold_range
    (fun vc => avgSupport sc.hiddenSize (sc.visibleLayers.getD vli default).weights
      sc.hiddenCs (sc.visibleLayers.getD vli default) (sc.visibleLayerDescs.getD vli default)
      pos vc)
    (sc.visibleLayerDescs.getD vli default).size.z hz

/-- During the coder's forward fold, every hidden-code slot either still holds
its pre-pass value or an in-range code. -/
theorem scfp_cs_old_or_inrange (inputCs : List (List Int)) (fi : Bool) (hs : Int3)
    (hz : 1 ≤ hs.z) :
    ∀ (ps : List Int2) (s : SparseCoder), s.hiddenSize = hs →
      ∀ i : Int,
        (ps.foldl (fpStepC inputCs fi) s).hiddenCs i = s.hiddenCs i ∨
        (0 ≤ (ps.foldl (fpStepC inputCs fi) s).hiddenCs i ∧
         (ps.foldl (fpStepC inputCs fi) s).hiddenCs i ≤ hs.z - 1) := by
  intro ps
  induction ps with
  | nil => intro s _ i; exact Or.inl rfl
  | cons p ps ih =>
    intro s hsz i
    rw [List.foldl_cons]
    rcases ih (fpStepC inputCs fi s p) (by rw [← hsz]; rfl) i with h | h
    · by_cases hi : i = address2 p s.hiddenSize.x
      · right
        have hstep : (fpStepC inputCs fi s p).hiddenCs i = (forwardColumn s inputCs fi p).2 := by
          show fset s.hiddenCs (address2 p s.hiddenSize.x) ((forwardColumn s inputCs fi p).2) i
            = _
          rw [hi]
          exact fset_same _ _ _
        have hv := forwardColumn_code_range s inputCs fi p (by rw [hsz]; exact hz)
        rw [hsz] at hv
        rw [h, hstep]
        exact hv
      · left
        rw [h]
        exact fset_other _ _ hi
    · right
      exact h

/-- After the coder's forward fold runs over a list of columns, every listed
column's hidden code is in range. -/
theorem scfp_cs_cover (inputCs : List (List Int)) (fi : Bool) (hs : Int3) (hz : 1 ≤ hs.z) :
    ∀ (ps : List Int2) (s : SparseCoder), s.hiddenSize = hs →
      ∀ p ∈ ps,
        0 ≤ (ps.foldl (fpStepC inputCs fi) s).hiddenCs (address2 p hs.x) ∧
        (ps.foldl (fpStepC inputCs fi) s).hiddenCs (address2 p hs.x) ≤ hs.z - 1 := by
  intro ps
  induction ps with
  | nil => intro s _ p hp; exact absurd hp (List.not_mem_nil p)
  | cons q ps ih =>
    intro s hsz p hp
    rw [List.foldl_cons]
    rcases List.mem_cons.mp hp with h | hp'
    · subst h
      have hstep : (fpStepC inputCs fi s p).hiddenCs (address2 p hs.x)
          = (forwardColumn s inputCs fi p).2 := by
        show fset s.hiddenCs (address2 p s.hiddenSize.x) ((forwardColumn s inputCs fi p).2) _
          = _
        rw [hsz]
        exact fset_same _ _ _
      have hv := forwardColumn_code_range s inputCs fi p (by rw [hsz]; exact hz)
      rw [hsz] at hv
      rcases scfp_cs_old_or_inrange inputCs fi hs hz ps (fpStepC inputCs fi s p)
        (by rw [← hsz]; rfl) (address2 p hs.x) with h | h
      · rw [h, hstep]
        exact hv
      · exact h
    · exact ih (fpStepC inputCs fi s q) (by rw [← hsz]; rfl) p hp'

/-- After `SparseCoder::activate`, every hidden column's code is in
`[0, hiddenSize.z)`. -/
theorem activate_cs_inrange (sc : SparseCoder) (inputCs : List (List Int))
    (hexp : 1 ≤ sc.explainIters) (hz : 1 ≤ sc.hiddenSize.z) (p : Int2)
    (hp : p ∈ gridPositions sc.hiddenSize.x sc.hiddenSize.y) :
    0 ≤ (activate sc inputCs).hiddenCs (address2 p sc.hiddenSize.x) ∧
    (activate sc inputCs).hiddenCs (address2 p sc.hiddenSize.x) ≤ sc.hiddenSize.z - 1 := by
  obtain ⟨n, hn⟩ : ∃ n, sc.explainIters = n + 1 := ⟨sc.explainIters - 1, by omega⟩
  have hact : activate sc inputCs
      = backwardAll (forwardPass (activateAux sc inputCs n) inputCs (n == 0)) := by
    simp only [activate, hn, activateAux, activateIter]
  obtain ⟨a1, a2, a3, a4, a5⟩ := activateAux_frame sc inputCs n
  have hcs : (backwardAll (forwardPass (activateAux sc inputCs n) inputCs (n == 0))).hiddenCs
      = (forwardPass (activateAux sc inputCs n) inputCs (n == 0)).hiddenCs :=
    (backwardAll_frame _).2.1
  rw [hact, hcs]
  exact scfp_cs_cover inputCs (n == 0) sc.hiddenSize hz
    (gridPositions (activateAux sc inputCs n).hiddenSize.x
      (activateAux sc inputCs n).hiddenSize.y)
    (activateAux sc inputCs n) a1 p (by rw [a1]; exact hp)

/-- One backward column write leaves every reconstruction-code slot of any
layer either unchanged or holding an in-range code. -/
theorem bc_recon_choice (s : SparseCoder) (vlj vli : Nat) (pos : Int2)
    (hz : 1 ≤ (s.visibleLayerDescs.getD vli default).size.z) (i : Int) :
    ((backwardColumn s vlj pos).visibleLayers.getD vli default).reconCs i
      = (s.visibleLayers.getD vli default).reconCs i ∨
    (0 ≤ ((backwardColumn s vlj pos).visibleLayers.getD vli default).reconCs i ∧
     ((backwardColumn s vlj pos).visibleLayers.getD vli default).reconCs i
       ≤ (s.visibleLayerDescs.getD vli default).size.z - 1) := by
  have hbc : (backwardColumn s vlj pos).visibleLayers
      = s.visibleLayers.set vlj
        { s.visibleLayers.getD vlj default with
          reconCs := fset (s.visibleLayers.getD vlj default).reconCs
            (address2 pos (s.visibleLayerDescs.getD vlj default).size.x)
            (reconCode s vlj pos) } := rfl
  by_cases hj : vlj = vli
  · subst hj
    by_cases hlen : vlj < s.visibleLayers.length
    · rw [hbc, getD_set_self _ _ _ _ hlen]
      by_cases hi : i = address2 pos (s.visibleLayerDescs.getD vlj default).size.x
      · right
        have he : ({ s.visibleLayers.getD vlj default with
            reconCs := fset (s.visibleLayers.getD vlj default).reconCs
              (address2 pos (s.visibleLayerDescs.getD vlj default).size.x)
              (reconCode s vlj pos) }).reconCs i = reconCode s vlj pos := by
          show fset _ _ _ i = _
          rw [hi]
          exact fset_same _ _ _
        rw [he]
        exact reconCode_range s vlj pos hz
      · left
        show fset _ _ _ i = _
        exact fset_other _ _ hi
    · left
      rw [hbc,
        getD_len_le _ _ _ (by rw [List.length_set]; exact Nat.le_of_not_lt hlen),
        getD_len_le _ _ _ (Nat.le_of_not_lt hlen)]
  · rw [hbc, getD_set_other _ _ _ _ _ hj]
    exact Or.inl rfl

/-- The backward fold over any list of visible columns of layer `vlj` leaves
layer `vli`'s reconstruction codes unchanged or in range. -/
theorem bplFold_recon_choice (vlj vli : Nat) (ds : List VisibleLayerDesc)
    (hz : 1 ≤ (ds.getD vli default).size.z) :
    ∀ (ps : List Int2) (s : SparseCoder), s.visibleLayerDescs = ds →
      ∀ i : Int,
        (((ps.foldl (fun s' pos => backwardColumn s' vlj pos) s).visibleLayers.getD vli
            default).reconCs) i
          = (s.visibleLayers.getD vli default).reconCs i ∨
        (0 ≤ (((ps.foldl (fun s' pos => backwardColumn s' vlj pos) s).visibleLayers.getD vli
            default).reconCs) i ∧
         (((ps.foldl (fun s' pos => backwardColumn s' vlj pos) s).visibleLayers.getD vli
            default).reconCs) i ≤ (ds.getD vli default).size.z - 1) := by
  intro ps
  induction ps with
  | nil => intro s _ i; exact Or.inl rfl
  | cons p ps ih =>
    intro s hds i
    rw [List.foldl_cons]
    rcases ih (backwardColumn s vlj p)
      ((backwardColumn_frame s vlj p).2.2.2.1.trans hds) i with h | h
    · rcases bc_recon_choice s vlj vli p (by rw [hds]; exact hz) i with h' | h'
      · exact Or.inl (h.trans h')
      · right
        rw [hds] at h'
        rw [h]
        exact h'
    · right
      exact h

/-- After the backward fold of layer `vli` runs over a list of its visible
columns, every listed column's reconstruction code is in range. -/
theorem bplFold_recon_cover (vli : Nat) (ds : List VisibleLayerDesc)
    (hz : 1 ≤ (ds.getD vli default).size.z) :
    ∀ (ps : List Int2) (s : SparseCoder), s.visibleLayerDescs = ds →
      vli < s.visibleLayers.length →
      ∀ p ∈ ps,
        0 ≤ (((ps.foldl (fun s' pos => backwardColumn s' vli pos) s).visibleLayers.getD vli
            default).reconCs) (address2 p (ds.getD vli default).size.x) ∧
        (((ps.foldl (fun s' pos => backwardColumn s' vli pos) s).visibleLayers.getD vli
            default).reconCs) (address2 p (ds.getD vli default).size.x)
          ≤ (ds.getD vli default).size.z - 1 := by
  intro ps
  induction ps with
  | nil => intro s _ _ p hp; exact absurd hp (List.not_mem_nil p)
  | cons q ps ih =>
    intro s hds hlen p hp
    rw [List.foldl_cons]
    rcases List.mem_cons.mp hp with h | hp'
    · subst h
      have hstep : ((backwardColumn s vli p).visibleLayers.getD vli default).reconCs
          (address2 p (ds.getD vli default).size.x) = reconCode s vli p := by
        have hbc : (backwardColumn s vli p).visibleLayers
            = s.visibleLayers.set vli
              { s.visibleLayers.getD vli default with
                reconCs := fset (s.visibleLayers.getD vli default).reconCs
                  (address2 p (s.visibleLayerDescs.getD vli default).size.x)
                  (reconCode s vli p) } := rfl
        rw [hbc, getD_set_self _ _ _ _ hlen]
        show fset _ _ _ _ = _
        rw [hds]
        exact fset_same _ _ _
      have hv := reconCode_range s vli p (by rw [hds]; exact hz)
      rw [hds] at hv
      rcases bplFold_recon_choice vli vli ds hz ps (backwardColumn s vli p)
        ((backwardColumn_frame s vli p).2.2.2.1.trans hds)
        (address2 p (ds.getD vli default).size.x) with h | h
      · rw [h, hstep]
        exact hv
      · exact h
    · exact ih (backwardColumn s vli q)
        ((backwardColumn_frame s vli q).2.2.2.1.trans hds)
        (by rw [(backwardColumn_frame s vli q).2.2.2.2.1]; exact hlen) p hp'

/-- After `SparseCoder::backward` runs over layer `vli`, every visible column's
reconstruction code of that layer is in range. -/
theorem backwardPassLayer_recon_cover (s : SparseCoder) (vli : Nat)
    (hlen : vli < s.visibleLayers.length)
    (hz : 1 ≤ (s.visibleLayerDescs.getD vli default).size.z)
    (p : Int2)
    (hp : p ∈ gridPositions (s.visibleLayerDescs.getD vli default).size.x
      (s.visibleLayerDescs.getD vli default).size.y) :
    0 ≤ ((backwardPassLayer s vli).visibleLayers.getD vli default).reconCs
      (address2 p (s.visibleLayerDescs.getD vli default).size.x) ∧
    ((backwardPassLayer s vli).visibleLayers.getD vli default).reconCs
      (address2 p (s.visibleLayerDescs.getD vli default).size.x)
      ≤ (s.visibleLayerDescs.getD vli default).size.z - 1 :=
  bplFold_recon_cover vli s.visibleLayerDescs hz
    (gridPositions (s.visibleLayerDescs.getD vli default).size.x
      (s.visibleLayerDescs.getD vli default).size.y) s rfl hlen p hp

/-- The per-layer backward passes leave any layer's reconstruction codes
unchanged or in range. -/
theorem ballFold_recon_choice (vli : Nat) (ds : List VisibleLayerDesc)
    (hz : 1 ≤ (ds.getD vli default).size.z) :
    ∀ (ls : List Nat) (s : SparseCoder), s.visibleLayerDescs = ds →
      ∀ i : Int,
        ((ls.foldl backwardPassLayer s).visibleLayers.getD vli default).reconCs i
          = (s.visibleLayers.getD vli default).reconCs i ∨
        (0 ≤ ((ls.foldl backwardPassLayer s).visibleLayers.getD vli default).reconCs i ∧
         ((ls.foldl backwardPassLayer s).visibleLayers.getD vli default).reconCs i
           ≤ (ds.getD vli default).size.z - 1) := by
  intro ls
  induction ls with
  | nil => intro s _ i; exact Or.inl rfl
  | cons vlj ls ih =>
    intro s hds i
    rw [List.foldl_cons]
    rcases ih (backwardPassLayer s vlj)
      ((backwardPassLayer_frame s vlj).2.2.2.1.trans hds) i with h | h
    · rcases bplFold_recon_choice vlj vli ds hz
        (gridPositions (s.visibleLayerDescs.getD vlj default).size.x
          (s.visibleLayerDescs.getD vlj default).size.y) s hds i with h' | h'
      · exact Or.inl (h.trans h')
      · right
        rw [h]
        exact h'
    · right
      exact h

/-- After the full backward dispatch of one `activate` iteration, every
present layer's reconstruction codes at its visible columns are in range. -/
theorem backwardAll_recon_cover (s : SparseCoder) (vli : Nat)
    (hlen : vli < s.visibleLayers.length)
    (hz : 1 ≤ (s.visibleLayerDescs.getD vli default).size.z)
    (p : Int2)
    (hp : p ∈ gridPositions (s.visibleLayerDescs.getD vli default).size.x
      (s.visibleLayerDescs.getD vli default).size.y) :
    0 ≤ ((backwardAll s).visibleLayers.getD vli default).reconCs
      (address2 p (s.visibleLayerDescs.getD vli default).size.x) ∧
    ((backwardAll s).visibleLayers.getD vli default).reconCs
      (address2 p (s.visibleLayerDescs.getD vli default).size.x)
      ≤ (s.visibleLayerDescs.getD vli default).size.z - 1 := by
  obtain ⟨ls1, ls2, hsplit⟩ := List.append_of_mem (List.mem_range.mpr hlen)
  have hba : backwardAll s
      = ls2.foldl backwardPassLayer
        (backwardPassLayer (ls1.foldl backwardPassLayer s) vli) := by
    show (List.range s.visibleLayers.length).foldl backwardPassLayer s = _
    rw [hsplit, List.foldl_append, List.foldl_cons]
  have hf1 := scFold_frame backwardPassLayer (fun s' v => backwardPassLayer_frame s' v) ls1 s
  have hds1 : (ls1.foldl backwardPassLayer s).visibleLayerDescs = s.visibleLayerDescs :=
    hf1.2.2.2.1
  have hlen1 : vli < (ls1.foldl backwardPassLayer s).visibleLayers.length := by
    rw [hf1.2.2.2.2.1]
    exact hlen
  have hcov := backwardPassLayer_recon_cover (ls1.foldl backwardPassLayer s) vli hlen1
    (by rw [hds1]; exact hz) p (by rw [hds1]; exact hp)
  rw [hds1] at hcov
  rcases ballFold_recon_choice vli s.visibleLayerDescs hz ls2
    (backwardPassLayer (ls1.foldl backwardPassLayer s) vli)
    ((backwardPassLayer_frame _ _).2.2.2.1.trans hds1)
    (address2 p (s.visibleLayerDescs.getD vli default).size.x) with h | h
  · rw [hba, h]
    exact hcov
  · rw [hba]
    exact h

/-- After `SparseCoder::activate`, every present layer's reconstruction codes
at its visible columns are in range. -/
theorem activate_recon_cover (sc : SparseCoder) (inputCs : List (List Int))
    (hexp : 1 ≤ sc.explainIters) (vli : Nat) (hlen : vli < sc.visibleLayers.length)
    (hz : 1 ≤ (sc.visibleLayerDescs.getD vli default).size.z)
    (p : Int2)
    (hp : p ∈ gridPositions (sc.visibleLayerDescs.getD vli default).size.x
      (sc.visibleLayerDescs.getD vli default).size.y) :
    0 ≤ ((activate sc inputCs).visibleLayers.getD vli default).reconCs
      (address2 p (sc.visibleLayerDescs.getD vli default).size.x) ∧
    ((activate sc inputCs).visibleLayers.getD vli default).reconCs
      (address2 p (sc.visibleLayerDescs.getD vli default).size.x)
      ≤ (sc.visibleLayerDescs.getD vli default).size.z - 1 := by
  obtain ⟨n, hn⟩ : ∃ n, sc.explainIters = n + 1 := ⟨sc.explainIters - 1, by omega⟩
  have hact : activate sc inputCs
      = backwardAll (forwardPass (activateAux sc inputCs n) inputCs (n == 0)) := by
    simp only [activate, hn, activateAux, activateIter]
  obtain ⟨a1, a2, a3, a4, a5⟩ := activateAux_frame sc inputCs n
  obtain ⟨f1, f2, f3, f4, f5⟩ :=
    forwardPass_frame (activateAux sc inputCs n) inputCs (n == 0)
  have hds : (forwardPass (activateAux sc inputCs n) inputCs (n == 0)).visibleLayerDescs
      = sc.visibleLayerDescs := f3.trans a2
  have hlen' : vli
      < (forwardPass (activateAux sc inputCs n) inputCs (n == 0)).visibleLayers.length := by
    rw [congrArg List.length f2, a3]
    exact hlen
  have h := backwardAll_recon_cover (forwardPass (activateAux sc inputCs n) inputCs (n == 0))
    vli hlen' (by rw [hds]; exact hz) p (by rw [hds]; exact hp)
  rw [hds] at h
  rw [hact]
  exact h

/-- `inputAct` reads only the geometry, layer and descriptor fields. -/
theorem inputAct_fields (s s' : SparseCoder) (h1 : s'.hiddenSize = s.hiddenSize)
    (h2 : s'.visibleLayers = s.visibleLayers)
    (h3 : s'.visibleLayerDescs = s.visibleLayerDescs) :
    inputAct s' = inputAct s := by
  unfold inputAct
  rw [h1, h2, h3]

/-- `reconAct` reads only the geometry, layer and descriptor fields. -/
theorem reconAct_fields (s s' : SparseCoder) (h1 : s'.hiddenSize = s.hiddenSize)
    (h2 : s'.visibleLayers = s.visibleLayers)
    (h3 : s'.visibleLayerDescs = s.visibleLayerDescs) :
    reconAct s' = reconAct s := by
  unfold reconAct
  rw [h1, h2, h3]

/-- The coder's forward fold leaves activation slots of unlisted columns
untouched. -/
theorem scfp_foldl_acts_untouched (inputCs : List (List Int)) (fi : Bool) (hs : Int3) :
    ∀ (ps : List Int2) (s' : SparseCoder), s'.hiddenSize = hs →
      (∀ p ∈ ps, 0 ≤ p.x ∧ p.x ≤ hs.x - 1 ∧ 0 ≤ p.y ∧ p.y ≤ hs.y - 1) →
      ∀ i : Int,
        (∀ p ∈ ps, ∀ hc : Int, 0 ≤ hc → hc ≤ hs.z - 1 →
          i ≠ address3 ⟨p.x, p.y, hc⟩ ⟨hs.x, hs.y⟩) →
        (ps.foldl (fpStepC inputCs fi) s').hiddenActivations i = s'.hiddenActivations i := by
  intro ps
  induction ps with
  | nil => intro s' _ _ i _; rfl
  | cons q ps ih =>
    intro s' hsz hval i hni
    rw [List.foldl_cons,
      ih (fpStepC inputCs fi s' q) (by rw [← hsz]; rfl)
        (fun r hr => hval r (List.mem_cons_of_mem q hr)) i
        (fun r hr => hni r (List.mem_cons_of_mem q hr))]
    have hfc := forwardColumn_acts s' inputCs fi q (by rw [hsz]; exact hval q (List.mem_cons_self q ps))
    rw [hsz] at hfc
    exact hfc.2 i (fun hc b1 b2 => hni q (List.mem_cons_self q ps) hc b1 b2)

/-- The coder's forward fold over pairwise-distinct valid columns writes every
listed column's activation slots with the per-slot parallel value of the
reference state `s`, provided the start state agrees with `s` on the listed
slots and on the geometry, layer and descriptor fields. -/
theorem scfp_foldl_acts (inputCs : List (List Int)) (fi : Bool) (s : SparseCoder) :
    ∀ (ps : List Int2) (s' : SparseCoder),
      s'.hiddenSize = s.hiddenSize →
      s'.visibleLayers = s.visibleLayers →
      s'.visibleLayerDescs = s.visibleLayerDescs →
      (∀ p ∈ ps, 0 ≤ p.x ∧ p.x ≤ s.hiddenSize.x - 1 ∧ 0 ≤ p.y ∧ p.y ≤ s.hiddenSize.y - 1) →
      ps.Pairwise (fun p q => p ≠ q) →
      (∀ p ∈ ps, ∀ hc : Int, 0 ≤ hc → hc ≤ s.hiddenSize.z - 1 →
        s'.hiddenActivations (address3 ⟨p.x, p.y, hc⟩ ⟨s.hiddenSize.x, s.hiddenSize.y⟩)
          = s.hiddenActivations (address3 ⟨p.x, p.y, hc⟩ ⟨s.hiddenSize.x, s.hiddenSize.y⟩)) →
      ∀ p ∈ ps, ∀ hc : Int, 0 ≤ hc → hc ≤ s.hiddenSize.z - 1 →
        (ps.foldl (fpStepC inputCs fi) s').hiddenActivations
            (address3 ⟨p.x, p.y, hc⟩ ⟨s.hiddenSize.x, s.hiddenSize.y⟩)
          = scNewVal s inputCs fi p hc := by
  intro ps
  induction ps with
  | nil => intro s' _ _ _ _ _ _ p hp; exact absurd hp (List.not_mem_nil p)
  | cons q ps ih =>
    intro s' h1 h2 h3 hval hpw hagree p hp hc hc1 hc2
    rw [List.foldl_cons]
    have hfc := forwardColumn_acts s' inputCs fi q (by rw [h1]; exact hval q (List.mem_cons_self q ps))
    rw [h1] at hfc
    rcases List.mem_cons.mp hp with he | hp'
    · subst he
      have hv := hfc.1 hc hc1 hc2
      have hcong : scNewVal s' inputCs fi p hc = scNewVal s inputCs fi p hc := by
        unfold scNewVal
        rw [inputAct_fields s s' h1 h2 h3, reconAct_fields s s' h1 h2 h3, h1,
          hagree p (List.mem_cons_self p ps) hc hc1 hc2]
      rw [scfp_foldl_acts_untouched inputCs fi s.hiddenSize ps (fpStepC inputCs fi s' p)
        (by rw [← h1]; rfl) (fun r hr => hval r (List.mem_cons_of_mem p hr)) _
        (fun r hr hc' k1 k2 habs => (List.pairwise_cons.mp hpw).1 r hr
          (address3_slot_inj (hval p (List.mem_cons_self p ps))
            (hval r (List.mem_cons_of_mem p hr)) habs).1)]
      exact hv.trans hcong
    · refine ih (fpStepC inputCs fi s' q) (by rw [← h1]; rfl) h2 h3
        (fun r hr => hval r (List.mem_cons_of_mem q hr)) (List.pairwise_cons.mp hpw).2
        ?_ p hp' hc hc1 hc2
      intro r hr hc' k1 k2
      have hne : ∀ hc'' : Int, 0 ≤ hc'' → hc'' ≤ s.hiddenSize.z - 1 →
          address3 ⟨r.x, r.y, hc'⟩ ⟨s.hiddenSize.x, s.hiddenSize.y⟩
            ≠ address3 ⟨q.x, q.y, hc''⟩ ⟨s.hiddenSize.x, s.hiddenSize.y⟩ := by
        intro hc'' b1 b2 habs
        exact (List.pairwise_cons.mp hpw).1 r hr
          ((address3_slot_inj (hval r (List.mem_cons_of_mem q hr))
            (hval q (List.mem_cons_self q ps)) habs).1).symm
      exact (hfc.2 _ hne).trans (hagree r (List.mem_cons_of_mem q hr) hc' k1 k2)

/-- One forward pass from a state writes every valid cell's activation slot
with the per-slot parallel value of that state. -/
theorem forwardPass_acts_at (s : SparseCoder) (inputCs : List (List Int)) (fi : Bool)
    (p : Int2) (hp : p ∈ gridPositions s.hiddenSize.x s.hiddenSize.y)
    (hc : Int) (hc1 : 0 ≤ hc) (hc2 : hc ≤ s.hiddenSize.z - 1) :
    (forwardPass s inputCs fi).hiddenActivations
        (address3 ⟨p.x, p.y, hc⟩ ⟨s.hiddenSize.x, s.hiddenSize.y⟩)
      = scNewVal s inputCs fi p hc :=
  scfp_foldl_acts inputCs fi s (gridPositions s.hiddenSize.x s.hiddenSize.y) s rfl rfl rfl
    (fun r hr => mem_gridPositions.mp hr) (gridPositions_nodup _ _)
    (fun _ _ _ _ _ => rfl) p hp hc hc1 hc2

/-- Members of the learn/backward search window are valid hidden columns. -/
theorem hWindow_mem_valid {hs : Int3} {vl : SCVisibleLayer} {pos hp : Int2}
    (h : hp ∈ hWindow hs vl pos) :
    0 ≤ hp.x ∧ hp.x ≤ hs.x - 1 ∧ 0 ≤ hp.y ∧ hp.y ≤ hs.y - 1 := by
  simp only [hWindow] at h
  rw [mem_prodList] at h
  obtain ⟨hx, hy⟩ := h
  rw [mem_rangeClosed] at hx hy
  omega

theorem hWindow_nodup (hs : Int3) (vl : SCVisibleLayer) (pos : Int2) :
    (hWindow hs vl pos).Nodup :=
  prodList_nodup _ _ (rangeClosed_nodup _ _) (rangeClosed_nodup _ _)

/-- A receptive field containing a position forces a nonnegative radius and
in-field offsets bounded by the field diameter. -/
theorem containsPos_bounds {vl : SCVisibleLayer} {vld : VisibleLayerDesc} {hp pos : Int2}
    (h : containsPos vl vld hp pos = true) :
    0 ≤ vld.radius ∧
    0 ≤ pos.x - (fieldLB vl vld hp).x ∧ pos.x - (fieldLB vl vld hp).x ≤ 2 * vld.radius ∧
    0 ≤ pos.y - (fieldLB vl vld hp).y ∧ pos.y - (fieldLB vl vld hp).y ≤ 2 * vld.radius := by
  simp only [containsPos, inBounds, fieldLB, Bool.and_eq_true, decide_eq_true_eq] at h
  simp only [fieldLB]
  omega

/-- Injectivity of the dense learn/backward weight address in the hidden
column, the visible position and the visible code, given valid columns,
in-range hidden codes and containing fields. -/
theorem recWAddr_inj (hs : Int3) (vl : SCVisibleLayer) (vld : VisibleLayerDesc)
    (hcs : Int → Int) {hp hp' pos pos' : Int2} {vc vc' : Int}
    (hv1 : 0 ≤ hp.x ∧ hp.x ≤ hs.x - 1 ∧ 0 ≤ hp.y ∧ hp.y ≤ hs.y - 1)
    (hv2 : 0 ≤ hp'.x ∧ hp'.x ≤ hs.x - 1 ∧ 0 ≤ hp'.y ∧ hp'.y ≤ hs.y - 1)
    (hb1 : 0 ≤ hcs (address2 hp hs.x) ∧ hcs (address2 hp hs.x) ≤ hs.z - 1)
    (hb2 : 0 ≤ hcs (address2 hp' hs.x) ∧ hcs (address2 hp' hs.x) ≤ hs.z - 1)
    (hc1 : containsPos vl vld hp pos = true) (hc2 : containsPos vl vld hp' pos' = true)
    (hvc1 : 0 ≤ vc) (hvc2 : 0 ≤ vc')
    (h : recWAddr hs vl vld hcs hp pos vc = recWAddr hs vl vld hcs hp' pos' vc') :
    hp = hp' ∧ pos = pos' ∧ vc = vc' := by
  obtain ⟨hr, ha1, ha2, ha3, ha4⟩ := containsPos_bounds hc1
  obtain ⟨-, hb1', hb2', hb3', hb4'⟩ := containsPos_bounds hc2
  have hoff1 := offset_bounds ha1 (by omega : pos.x - (fieldLB vl vld hp).x ≤ vld.radius * 2 + 1 - 1)
    ha3 (by omega : pos.y - (fieldLB vl vld hp).y ≤ vld.radius * 2 + 1 - 1)
  have hoff2 := offset_bounds hb1'
    (by omega : pos'.x - (fieldLB vl vld hp').x ≤ vld.radius * 2 + 1 - 1)
    hb3' (by omega : pos'.y - (fieldLB vl vld hp').y ≤ vld.radius * 2 + 1 - 1)
  have hd2 : 0 ≤ (vld.radius * 2 + 1) * (vld.radius * 2 + 1) := by nlinarith
  simp only [recWAddr] at h
  have h4 := address4_inj
    ⟨hv1.1, hv1.2.1, hv1.2.2.1, hv1.2.2.2, hb1.1, hb1.2, by
      have hm := mul_nonneg hvc1 hd2
      show 0 ≤ pos.x - (fieldLB vl vld hp).x
        + (pos.y - (fieldLB vl vld hp).y) * (vld.radius * 2 + 1)
        + vc * ((vld.radius * 2 + 1) * (vld.radius * 2 + 1))
      omega⟩
    ⟨hv2.1, hv2.2.1, hv2.2.2.1, hv2.2.2.2, hb2.1, hb2.2, by
      have hm := mul_nonneg hvc2 hd2
      show 0 ≤ pos'.x - (fieldLB vl vld hp').x
        + (pos'.y - (fieldLB vl vld hp').y) * (vld.radius * 2 + 1)
        + vc' * ((vld.radius * 2 + 1) * (vld.radius * 2 + 1))
      omega⟩ h
  rw [Int4.mk.injEq] at h4
  obtain ⟨hx, hy, -, hw⟩ := h4
  have hhp : hp = hp' := by
    cases hp; cases hp'
    simp_all
  subst hhp
  obtain ⟨hbase, hvc⟩ := addr_decomp_unique hoff1.1 (by omega) hoff2.1 (by omega) hw
  obtain ⟨hdx, hdy⟩ := addr_decomp_unique ha1 (by omega) hb1' (by omega) hbase
  refine ⟨rfl, ?_, hvc⟩
  have hpx : pos.x = pos'.x := by omega
  have hpy : pos.y = pos'.y := by omega
  cases pos; cases pos'
  simp_all

/-- `supportPair` depends on the weight buffer only through the addresses of
the containing window. -/
theorem supportPair_congr (hs : Int3) (w' w : Int → ℚ) (hcs : Int → Int)
    (vl : SCVisibleLayer) (vld : VisibleLayerDesc) (pos : Int2) (vc : Int)
    (hw : ∀ hp ∈ hWindow hs vl pos, containsPos vl vld hp pos = true →
      w' (recWAddr hs vl vld hcs hp pos vc) = w (recWAddr hs vl vld hcs hp pos vc)) :
    supportPair hs w' hcs vl vld pos vc = supportPair hs w hcs vl vld pos vc := by
  unfold supportPair
  have key : ∀ (l : List Int2) (acc : ℚ × ℚ),
      (∀ hp ∈ l, containsPos vl vld hp pos = true →
        w' (recWAddr hs vl vld hcs hp pos vc) = w (recWAddr hs vl vld hcs hp pos vc)) →
      l.foldl (fun acc hp =>
        if containsPos vl vld hp pos then
          (acc.1 + w' (recWAddr hs vl vld hcs hp pos vc), acc.2 + 1)
        else acc) acc
      = l.foldl (fun acc hp =>
        if containsPos vl vld hp pos then
          (acc.1 + w (recWAddr hs vl vld hcs hp pos vc), acc.2 + 1)
        else acc) acc := by
    intro l
    induction l with
    | nil => intro acc _; rfl
    | cons hp l ih =>
      intro acc hw'
      rw [List.foldl_cons, List.foldl_cons]
      by_cases hP : containsPos vl vld hp pos = true
      · rw [if_pos hP, if_pos hP, hw' hp (List.mem_cons_self hp l) hP]
        exact ih _ (fun r hr => hw' r (List.mem_cons_of_mem hp hr))
      · rw [if_neg hP, if_neg hP]
        exact ih _ (fun r hr => hw' r (List.mem_cons_of_mem hp hr))
  exact key _ _ hw

/-- The learn/backward search window depends only on the projection ratio and
the reverse radii of the layer. -/
theorem hWindow_congr {hs : Int3} {vl' vl : SCVisibleLayer}
    (h1 : vl'.visibleToHidden = vl.visibleToHidden) (h2 : vl'.reverseRadii = vl.reverseRadii) :
    hWindow hs vl' = hWindow hs vl := by
  funext pos
  simp only [hWindow, h1, h2]

/-- Field containment depends only on the layer's hidden-to-visible ratio. -/
theorem containsPos_congr {vl' vl : SCVisibleLayer} {vld : VisibleLayerDesc}
    (h : vl'.hiddenToVisible = vl.hiddenToVisible) :
    containsPos vl' vld = containsPos vl vld := by
  funext hp pos
  simp only [containsPos, fieldLB, h]

/-- The learn/backward weight address depends only on the layer's
hidden-to-visible ratio. -/
theorem recWAddr_congr (hs : Int3) {vl' vl : SCVisibleLayer} (vld : VisibleLayerDesc)
    (hcs : Int → Int) (h : vl'.hiddenToVisible = vl.hiddenToVisible) :
    recWAddr hs vl' vld hcs = recWAddr hs vl vld hcs := by
  funext hp pos vc
  simp only [recWAddr, fieldLB, h]

/-- `supportPair` reads the layer only through its three projection fields. -/
theorem supportPair_layer_congr (hs : Int3) (w : Int → ℚ) (hcs : Int → Int)
    {vl' vl : SCVisibleLayer} (vld : VisibleLayerDesc)
    (h1 : vl'.visibleToHidden = vl.visibleToHidden)
    (h2 : vl'.reverseRadii = vl.reverseRadii)
    (h3 : vl'.hiddenToVisible = vl.hiddenToVisible) :
    supportPair hs w hcs vl' vld = supportPair hs w hcs vl vld := by
  funext pos vc
  unfold supportPair
  rw [hWindow_congr h1 h2, containsPos_congr h3, recWAddr_congr hs vld hcs h3]

/-- The learn kernel's per-code step reads the layer only through its three
projection fields (the weights flow through the accumulator). -/
theorem learnCodeStep_congr (hs : Int3) (hcs : Int → Int) (α : ℚ)
    {vl' vl : SCVisibleLayer} (vld : VisibleLayerDesc)
    (h1 : vl'.visibleToHidden = vl.visibleToHidden)
    (h2 : vl'.reverseRadii = vl.reverseRadii)
    (h3 : vl'.hiddenToVisible = vl.hiddenToVisible) :
    learnCodeStep hs hcs α vl' vld = learnCodeStep hs hcs α vl vld := by
  funext inputC pos w vc
  unfold learnCodeStep
  rw [supportPair_layer_congr hs w hcs vld h1 h2 h3, hWindow_congr h1 h2,
    containsPos_congr h3, recWAddr_congr hs vld hcs h3]

/-- The learn kernel's per-code step touches only the addresses of its
containing window. -/
theorem learnCodeStep_notin (hs : Int3) (hcs : Int → Int) (α : ℚ) (vl : SCVisibleLayer)
    (vld : VisibleLayerDesc) (inputC : Int) (pos : Int2) (w : Int → ℚ) (vc : Int) (i : Int)
    (hni : ∀ hp ∈ hWindow hs vl pos, containsPos vl vld hp pos = true →
      i ≠ recWAddr hs vl vld hcs hp pos vc) :
    learnCodeStep hs hcs α vl vld inputC pos w vc i = w i :=
  gfsetFold_notin (fun hp => containsPos vl vld hp pos)
    (fun hp => recWAddr hs vl vld hcs hp pos vc) _ (hWindow hs vl pos) w i hni

/-- The learn kernel's per-code step moves every containing weight of its code
block by the same delta. -/
theorem learnCodeStep_at (hs : Int3) (hcs : Int → Int) (α : ℚ) (vl : SCVisibleLayer)
    (vld : VisibleLayerDesc) (inputC : Int) (pos : Int2) (w : Int → ℚ) (vc : Int)
    (hcsb : ∀ hp ∈ hWindow hs vl pos,
      0 ≤ hcs (address2 hp hs.x) ∧ hcs (address2 hp hs.x) ≤ hs.z - 1)
    (hvc : 0 ≤ vc) (hp₀ : Int2) (hmem : hp₀ ∈ hWindow hs vl pos)
    (hct : containsPos vl vld hp₀ pos = true) :
    learnCodeStep hs hcs α vl vld inputC pos w vc (recWAddr hs vl vld hcs hp₀ pos vc)
      = w (recWAddr hs vl vld hcs hp₀ pos vc)
        + α * ((if vc = inputC then 1 else 0)
          - (supportPair hs w hcs vl vld pos vc).1
            / clampDiv (supportPair hs w hcs vl vld pos vc).2) := by
  have hpw : (hWindow hs vl pos).Pairwise (fun a b =>
      containsPos vl vld a pos = true → containsPos vl vld b pos = true →
      recWAddr hs vl vld hcs a pos vc ≠ recWAddr hs vl vld hcs b pos vc) := by
    refine List.Pairwise.imp_of_mem ?_ (hWindow_nodup hs vl pos)
    intro a b ha hb hne hPa hPb habs
    exact hne (recWAddr_inj hs vl vld hcs (hWindow_mem_valid ha) (hWindow_mem_valid hb)
      (hcsb a ha) (hcsb b hb) hPa hPb hvc hvc habs).1
  exact gfsetFold_at (fun hp => containsPos vl vld hp pos)
    (fun hp => recWAddr hs vl vld hcs hp pos vc) _ (hWindow hs vl pos) w hp₀ hmem hct hpw

/-- The `vc` fold of the learn kernel: distinct code blocks write disjoint
addresses, so each containing weight of each block moves by exactly
`alpha * (target - avgSupport)` computed against the reference weights `w`. -/
theorem lcs_fold (hs : Int3) (hcs : Int → Int) (α : ℚ) (vl : SCVisibleLayer)
    (vld : VisibleLayerDesc) (inputC : Int) (pos : Int2) (w : Int → ℚ)
    (hcsb : ∀ hp ∈ hWindow hs vl pos,
      0 ≤ hcs (address2 hp hs.x) ∧ hcs (address2 hp hs.x) ≤ hs.z - 1) :
    ∀ (vcs : List Int) (W : Int → ℚ),
      vcs.Pairwise (fun a b => a ≠ b) →
      (∀ vc ∈ vcs, 0 ≤ vc) →
      (∀ vc ∈ vcs, ∀ hp ∈ hWindow hs vl pos, containsPos vl vld hp pos = true →
        W (recWAddr hs vl vld hcs hp pos vc) = w (recWAddr hs vl vld hcs hp pos vc)) →
      (∀ i : Int,
        (∀ vc ∈ vcs, ∀ hp ∈ hWindow hs vl pos, containsPos vl vld hp pos = true →
          i ≠ recWAddr hs vl vld hcs hp pos vc) →
        (vcs.foldl (learnCodeStep hs hcs α vl vld inputC pos) W) i = W i) ∧
      (∀ vc₀ ∈ vcs, ∀ hp₀ ∈ hWindow hs vl pos,
        containsPos vl vld hp₀ pos = true →
        (vcs.foldl (learnCodeStep hs hcs α vl vld inputC pos) W)
            (recWAddr hs vl vld hcs hp₀ pos vc₀)
          = w (recWAddr hs vl vld hcs hp₀ pos vc₀)
            + α * ((if vc₀ = inputC then 1 else 0)
              - (supportPair hs w hcs vl vld pos vc₀).1
                / clampDiv (supportPair hs w hcs vl vld pos vc₀).2)) := by
  intro vcs
  induction vcs with
  | nil =>
    intro W _ _ _
    exact ⟨fun i _ => rfl, fun vc₀ h => absurd h (List.not_mem_nil vc₀)⟩
  | cons vc vcs ih =>
    intro W hpw hpos0 hagree
    have hstepagree : ∀ vc' ∈ vcs, ∀ hp ∈ hWindow hs vl pos,
        containsPos vl vld hp pos = true →
        (learnCodeStep hs hcs α vl vld inputC pos W vc) (recWAddr hs vl vld hcs hp pos vc')
          = w (recWAddr hs vl vld hcs hp pos vc') := by
      intro vc' hvc' hp hhp hct
      rw [learnCodeStep_notin hs hcs α vl vld inputC pos W vc _ ?hno]
      · exact hagree vc' (List.mem_cons_of_mem vc hvc') hp hhp hct
      case hno =>
        intro hq hhq hctq habs
        have hinj := recWAddr_inj hs vl vld hcs (hWindow_mem_valid hhp)
          (hWindow_mem_valid hhq) (hcsb hp hhp) (hcsb hq hhq) hct hctq
          (hpos0 vc' (List.mem_cons_of_mem vc hvc')) (hpos0 vc (List.mem_cons_self vc vcs))
          habs
        exact (List.pairwise_cons.mp hpw).1 vc' hvc' hinj.2.2.symm
    obtain ⟨ihN, ihV⟩ := ih (learnCodeStep hs hcs α vl vld inputC pos W vc)
      (List.pairwise_cons.mp hpw).2 (fun r hr => hpos0 r (List.mem_cons_of_mem vc hr))
      hstepagree
    constructor
    · intro i hni
      rw [List.foldl_cons,
        ihN i (fun r hr hp hhp hct => hni r (List.mem_cons_of_mem vc hr) hp hhp hct),
        learnCodeStep_notin hs hcs α vl vld inputC pos W vc i
          (fun hp hhp hct => hni vc (List.mem_cons_self vc vcs) hp hhp hct)]
    · intro vc₀ hvc₀ hp₀ hhp₀ hct₀
      rw [List.foldl_cons]
      rcases List.mem_cons.mp hvc₀ with he | hvc₀'
      · subst he
        rw [ihN _ ?notail]
        · rw [learnCodeStep_at hs hcs α vl vld inputC pos W vc₀ hcsb
            (hpos0 vc₀ (List.mem_cons_self vc₀ vcs)) hp₀ hhp₀ hct₀,
            hagree vc₀ (List.mem_cons_self vc₀ vcs) hp₀ hhp₀ hct₀,
            supportPair_congr hs W w hcs vl vld pos vc₀
              (fun hp hhp hct => hagree vc₀ (List.mem_cons_self vc₀ vcs) hp hhp hct)]
        case notail =>
          intro vc' hvc' hp hhp hct habs
          have hinj := recWAddr_inj hs vl vld hcs (hWindow_mem_valid hhp₀)
            (hWindow_mem_valid hhp) (hcsb hp₀ hhp₀) (hcsb hp hhp) hct₀ hct
            (hpos0 vc₀ (List.mem_cons_self vc₀ vcs))
            (hpos0 vc' (List.mem_cons_of_mem vc₀ hvc')) habs
          exact (List.pairwise_cons.mp hpw).1 vc' hvc' hinj.2.2
      · exact ihV vc₀ hvc₀' hp₀ hhp₀ hct₀

/-- The learn kernel at one visible column replaces the layer's weights by the
`vc` fold and nothing else. -/
theorem learnColumn_getD (s : SparseCoder) (inputCs : List (List Int)) (vli : Nat)
    (pos : Int2) (hlen : vli < s.visibleLayers.length) :
    (learnColumn s inputCs vli pos).visibleLayers.getD vli default
      = { s.visibleLayers.getD vli default with
          weights := (rangeClosed 0 ((s.visibleLayerDescs.getD vli default).size.z - 1)).foldl
            (learnCodeStep s.hiddenSize s.hiddenCs s.alpha
              (s.visibleLayers.getD vli default) (s.visibleLayerDescs.getD vli default)
              ((inputCs.getD vli []).getD
                (address2 pos (s.visibleLayerDescs.getD vli default).size.x).toNat 0) pos)
            (s.visibleLayers.getD vli default).weights } :=
  getD_set_self s.visibleLayers vli _ default hlen

theorem learnColumn_other (s : SparseCoder) (inputCs : List (List Int)) (vlj vli : Nat)
    (pos : Int2) (h : vlj ≠ vli) :
    (learnColumn s inputCs vlj pos).visibleLayers.getD vli default
      = s.visibleLayers.getD vli default :=
  getD_set_other s.visibleLayers vlj vli _ default h

/-- The learn kernel leaves the layer's projection fields unchanged. -/
theorem learnColumn_layer_fields (s : SparseCoder) (inputCs : List (List Int)) (vli : Nat)
    (pos : Int2) :
    ((learnColumn s inputCs vli pos).visibleLayers.getD vli default).visibleToHidden
      = (s.visibleLayers.getD vli default).visibleToHidden ∧
    ((learnColumn s inputCs vli pos).visibleLayers.getD vli default).hiddenToVisible
      = (s.visibleLayers.getD vli default).hiddenToVisible ∧
    ((learnColumn s inputCs vli pos).visibleLayers.getD vli default).reverseRadii
      = (s.visibleLayers.getD vli default).reverseRadii := by
  by_cases hlen : vli < s.visibleLayers.length
  · rw [learnColumn_getD s inputCs vli pos hlen]
    exact ⟨rfl, rfl, rfl⟩
  · have hl : (learnColumn s inputCs vli pos).visibleLayers.length
        = s.visibleLayers.length := (learnColumn_frame s inputCs vli pos).2.2.2.2.1
    rw [getD_len_le _ vli default (by rw [hl]; omega),
      getD_len_le s.visibleLayers vli default (by omega)]
    exact ⟨rfl, rfl, rfl⟩

/-- The learn pass fold of one layer over pairwise-distinct visible columns:
distinct columns write disjoint weight addresses, so each containing weight of
each column's code block moves by exactly `alpha * (target - avgSupport)`
computed against the reference layer `vl0` (the layer at pass entry), and
every address outside the processed write sets is untouched. -/
theorem lplFold (inputCs : List (List Int)) (vli : Nat) (hs : Int3) (hcs : Int → Int)
    (α : ℚ) (ds : List VisibleLayerDesc) (vl0 : SCVisibleLayer)
    (hcsb : ∀ p ∈ gridPositions hs.x hs.y,
      0 ≤ hcs (address2 p hs.x) ∧ hcs (address2 p hs.x) ≤ hs.z - 1) :
    ∀ (ps : List Int2) (s : SparseCoder),
      s.hiddenSize = hs → s.hiddenCs = hcs → s.alpha = α → s.visibleLayerDescs = ds →
      vli < s.visibleLayers.length →
      (s.visibleLayers.getD vli default).visibleToHidden = vl0.visibleToHidden →
      (s.visibleLayers.getD vli default).hiddenToVisible = vl0.hiddenToVisible →
      (s.visibleLayers.getD vli default).reverseRadii = vl0.reverseRadii →
      ps.Pairwise (fun a b => a ≠ b) →
      (∀ q ∈ ps, ∀ hp ∈ hWindow hs vl0 q,
        containsPos vl0 (ds.getD vli default) hp q = true →
        ∀ vc : Int, 0 ≤ vc → vc ≤ (ds.getD vli default).size.z - 1 →
        (s.visibleLayers.getD vli default).weights
            (recWAddr hs vl0 (ds.getD vli default) hcs hp q vc)
          = vl0.weights (recWAddr hs vl0 (ds.getD vli default) hcs hp q vc)) →
      (∀ i : Int,
        (∀ q ∈ ps, ∀ hp ∈ hWindow hs vl0 q,
          containsPos vl0 (ds.getD vli default) hp q = true →
          ∀ vc : Int, 0 ≤ vc → vc ≤ (ds.getD vli default).size.z - 1 →
          i ≠ recWAddr hs vl0 (ds.getD vli default) hcs hp q vc) →
        ((ps.foldl (fun s' q => learnColumn s' inputCs vli q) s).visibleLayers.getD vli
            default).weights i
          = (s.visibleLayers.getD vli default).weights i) ∧
      (∀ q ∈ ps, ∀ hp₀ ∈ hWindow hs vl0 q,
        containsPos vl0 (ds.getD vli default) hp₀ q = true →
        ∀ vc₀ : Int, 0 ≤ vc₀ → vc₀ ≤ (ds.getD vli default).size.z - 1 →
        ((ps.foldl (fun s' q => learnColumn s' inputCs vli q) s).visibleLayers.getD vli
            default).weights (recWAddr hs vl0 (ds.getD vli default) hcs hp₀ q vc₀)
          = vl0.weights (recWAddr hs vl0 (ds.getD vli default) hcs hp₀ q vc₀)
            + α * ((if vc₀ = (inputCs.getD vli []).getD
                  (address2 q (ds.getD vli default).size.x).toNat 0 then 1 else 0)
              - (supportPair hs vl0.weights hcs vl0 (ds.getD vli default) q vc₀).1
                / clampDiv
                  (supportPair hs vl0.weights hcs vl0 (ds.getD vli default) q vc₀).2)) := by
  intro ps
  induction ps with
  | nil =>
    intro s _ _ _ _ _ _ _ _ _ _
    exact ⟨fun i _ => rfl, fun q h => absurd h (List.not_mem_nil q)⟩
  | cons q ps ih =>
    intro s h1 h2 h3 h4 h5 f1 f2 f3 hpw hagree
    have hW : ((learnColumn s inputCs vli q).visibleLayers.getD vli default).weights
        = (rangeClosed 0 ((ds.getD vli default).size.z - 1)).foldl
            (learnCodeStep hs hcs α vl0 (ds.getD vli default)
              ((inputCs.getD vli []).getD
                (address2 q (ds.getD vli default).size.x).toNat 0) q)
            (s.visibleLayers.getD vli default).weights := by
      rw [learnColumn_getD s inputCs vli q h5]
      show (rangeClosed 0 ((s.visibleLayerDescs.getD vli default).size.z - 1)).foldl
          (learnCodeStep s.hiddenSize s.hiddenCs s.alpha
            (s.visibleLayers.getD vli default) (s.visibleLayerDescs.getD vli default)
            ((inputCs.getD vli []).getD
              (address2 q (s.visibleLayerDescs.getD vli default).size.x).toNat 0) q)
          (s.visibleLayers.getD vli default).weights = _
      rw [h1, h2, h3, h4, learnCodeStep_congr hs hcs α (ds.getD vli default) f1 f3 f2]
    have hcsb' : ∀ hp ∈ hWindow hs vl0 q,
        0 ≤ hcs (address2 hp hs.x) ∧ hcs (address2 hp hs.x) ≤ hs.z - 1 :=
      fun hp hhp => hcsb hp (mem_gridPositions.mpr (hWindow_mem_valid hhp))
    obtain ⟨colN, colV⟩ := lcs_fold hs hcs α vl0 (ds.getD vli default)
      ((inputCs.getD vli []).getD (address2 q (ds.getD vli default).size.x).toNat 0) q
      vl0.weights hcsb' (rangeClosed 0 ((ds.getD vli default).size.z - 1))
      (s.visibleLayers.getD vli default).weights (rangeClosed_nodup _ _)
      (fun r hr => (mem_rangeClosed.mp hr).1)
      (fun vc hvc hp hhp hct => hagree q (List.mem_cons_self q ps) hp hhp hct vc
        (mem_rangeClosed.mp hvc).1 (mem_rangeClosed.mp hvc).2)
    have hcrossne : ∀ r ∈ ps, ∀ hp ∈ hWindow hs vl0 r,
        containsPos vl0 (ds.getD vli default) hp r = true → ∀ vc : Int, 0 ≤ vc →
        ∀ hp' ∈ hWindow hs vl0 q, containsPos vl0 (ds.getD vli default) hp' q = true →
        ∀ vc' : Int, 0 ≤ vc' →
        recWAddr hs vl0 (ds.getD vli default) hcs hp r vc
          ≠ recWAddr hs vl0 (ds.getD vli default) hcs hp' q vc' := by
      intro r hr hp hhp hct vc k1 hp' hhp' hct' vc' k1' habs
      have hinj := recWAddr_inj hs vl0 (ds.getD vli default) hcs
        (hWindow_mem_valid hhp) (hWindow_mem_valid hhp')
        (hcsb hp (mem_gridPositions.mpr (hWindow_mem_valid hhp)))
        (hcsb hp' (mem_gridPositions.mpr (hWindow_mem_valid hhp')))
        hct hct' k1 k1' habs
      exact (List.pairwise_cons.mp hpw).1 r hr hinj.2.1.symm
    have hagree'' : ∀ r ∈ ps, ∀ hp ∈ hWindow hs vl0 r,
        containsPos vl0 (ds.getD vli default) hp r = true →
        ∀ vc : Int, 0 ≤ vc → vc ≤ (ds.getD vli default).size.z - 1 →
        ((learnColumn s inputCs vli q).visibleLayers.getD vli default).weights
            (recWAddr hs vl0 (ds.getD vli default) hcs hp r vc)
          = vl0.weights (recWAddr hs vl0 (ds.getD vli default) hcs hp r vc) := by
      intro r hr hp hhp hct vc k1 k2
      rw [hW, colN _ (fun vc' hvc' hp' hhp' hct' =>
        hcrossne r hr hp hhp hct vc k1 hp' hhp' hct' vc' (mem_rangeClosed.mp hvc').1)]
      exact hagree r (List.mem_cons_of_mem q hr) hp hhp hct vc k1 k2
    obtain ⟨ihN, ihV⟩ := ih (learnColumn s inputCs vli q)
      ((learnColumn_frame s inputCs vli q).1.trans h1)
      ((learnColumn_frame s inputCs vli q).2.1.trans h2)
      ((learnColumn_frame s inputCs vli q).2.2.2.2.2.1.trans h3)
      ((learnColumn_frame s inputCs vli q).2.2.2.1.trans h4)
      (by rw [(learnColumn_frame s inputCs vli q).2.2.2.2.1]; exact h5)
      ((learnColumn_layer_fields s inputCs vli q).1.trans f1)
      ((learnColumn_layer_fields s inputCs vli q).2.1.trans f2)
      ((learnColumn_layer_fields s inputCs vli q).2.2.trans f3)
      (List.pairwise_cons.mp hpw).2 hagree''
    constructor
    · intro i hni
      rw [List.foldl_cons,
        ihN i (fun r hr hp hhp hct vc k1 k2 =>
          hni r (List.mem_cons_of_mem q hr) hp hhp hct vc k1 k2),
        hW]
      exact colN i (fun vc hvc hp hhp hct =>
        hni q (List.mem_cons_self q ps) hp hhp hct vc (mem_rangeClosed.mp hvc).1
          (mem_rangeClosed.mp hvc).2)
    · intro q₀ hq₀ hp₀ hhp₀ hct₀ vc₀ k1 k2
      rw [List.foldl_cons]
      rcases List.mem_cons.mp hq₀ with he | hq₀'
      · subst he
        rw [ihN _ (fun r hr hp hhp hct vc k1' k2' habs =>
            hcrossne r hr hp hhp hct vc k1' hp₀ hhp₀ hct₀ vc₀ k1 habs.symm), hW]
        exact colV vc₀ (mem_rangeClosed.mpr ⟨k1, k2⟩) hp₀ hhp₀ hct₀
      · exact ihV q₀ hq₀' hp₀ hhp₀ hct₀ vc₀ k1 k2

/-- The learn pass of layer `vlj` never touches another layer `vli`. -/
theorem lplFold_other (inputCs : List (List Int)) (vlj vli : Nat) (h : vlj ≠ vli) :
    ∀ (ps : List Int2) (s : SparseCoder),
      (ps.foldl (fun s' q => learnColumn s' inputCs vlj q) s).visibleLayers.getD vli default
        = s.visibleLayers.getD vli default := by
  intro ps
  induction ps with
  | nil => intro s; rfl
  | cons q ps ih =>
    intro s
    rw [List.foldl_cons, ih (learnColumn s inputCs vlj q)]
    exact learnColumn_other s inputCs vlj vli q h

/-- A run of learn passes over layers other than `vli` leaves layer `vli`
unchanged. -/
theorem learnAllFold_other (inputCs : List (List Int)) (vli : Nat) :
    ∀ (ls : List Nat) (s : SparseCoder), vli ∉ ls →
      (ls.foldl (fun s' v => learnPassLayer s' inputCs v) s).visibleLayers.getD vli default
        = s.visibleLayers.getD vli default := by
  intro ls
  induction ls with
  | nil => intro s _; rfl
  | cons vlj ls ih =>
    intro s hni
    rw [List.foldl_cons, ih (learnPassLayer s inputCs vlj)
      (fun habs => hni (List.mem_cons_of_mem vlj habs))]
    exact lplFold_other inputCs vlj vli
      (by intro habs; subst habs; exact hni (List.mem_cons_self vlj ls)) _ s

end SparseCoder

namespace Actor

theorem forwardPass_eq_foldl (a : Actor) (inputCs : List (List Int)) (rng : Nat → Nat) :
    forwardPass a inputCs rng
      = (gridPositions a.hiddenSize.x a.hiddenSize.y).foldl (fpStep inputCs) a := rfl

theorem fpStep_frame (inputCs : List (List Int)) (s : Actor) (pos : Int2) :
    fpStep inputCs s pos = { s with hiddenCs := (fpStep inputCs s pos).hiddenCs } := rfl

theorem fp_foldl_frame (inputCs : List (List Int)) :
    ∀ (ps : List Int2) (s : Actor),
      ps.foldl (fpStep inputCs) s = { s with hiddenCs := (ps.foldl (fpStep inputCs) s).hiddenCs } := by
  intro ps
  induction ps with
  | nil => intro s; rfl
  | cons p ps ih =>
    intro s
    rw [List.foldl_cons, ih (fpStep inputCs s p)]
    rfl

theorem fp_foldl_untouched (inputCs : List (List Int)) (hs : Int3) (i : Int) :
    ∀ (ps : List Int2) (s : Actor), s.hiddenSize = hs →
      (∀ r ∈ ps, i ≠ address2C r ⟨hs.x, hs.y⟩) →
      (ps.foldl (fpStep inputCs) s).hiddenCs i = s.hiddenCs i := by
  intro ps
  induction ps with
  | nil => intro s _ _; rfl
  | cons p ps ih =>
    intro s hsz hni
    rw [List.foldl_cons]
    rw [ih (fpStep inputCs s p) (by rw [← hsz]; rfl)
      (fun r hr => hni r (List.mem_cons_of_mem p hr))]
    exact fset_other _ _ (by rw [hsz]; exact hni p (List.mem_cons_self p ps))

theorem fp_foldl_value (inputCs : List (List Int)) (hs : Int3) (ls : List OneHotMatrix) :
    ∀ (ps : List Int2) (s : Actor), s.hiddenSize = hs → s.visibleLayers = ls →
      ps.Pairwise (fun p q => address2C p ⟨hs.x, hs.y⟩ ≠ address2C q ⟨hs.x, hs.y⟩) →
      ∀ p ∈ ps, (ps.foldl (fpStep inputCs) s).hiddenCs (address2C p ⟨hs.x, hs.y⟩)
        = forwardCode hs ls inputCs p := by
  intro ps
  induction ps with
  | nil => intro s _ _ _ p hp; exact absurd hp (List.not_mem_nil p)
  | cons q ps ih =>
    intro s hsz hls hpw p hp
    rw [List.foldl_cons]
    rcases List.mem_cons.mp hp with rfl | hp'
    · rw [fp_foldl_untouched inputCs hs _ ps (fpStep inputCs s p) (by rw [← hsz]; rfl)
        (fun r hr => (List.pairwise_cons.mp hpw).1 r hr)]
      show fset s.hiddenCs (address2C p ⟨s.hiddenSize.x, s.hiddenSize.y⟩) _ _ = _
      rw [hsz, hls, fset_same]
    · exact ih (fpStep inputCs s q) (by rw [← hsz]; rfl) (by rw [← hls]; rfl)
        (List.pairwise_cons.mp hpw).2 p hp'

set_option maxHeartbeats 1000000 in
/-- Pairwise distinctness of the column addresses of a grid. -/
theorem grid_pairwise_addr (w h : Int) :
    (gridPositions w h).Pairwise
      (fun p q => address2C p ⟨w, h⟩ ≠ address2C q ⟨w, h⟩) := by
  refine List.Pairwise.imp_of_mem ?_ (gridPositions_nodup w h)
  intro p q hp hq hne habs
  exact hne (address2C_inj (mem_gridPositions.mp hp) (mem_gridPositions.mp hq) habs)

/-- Value of the action CSDR at a valid column after the forward pass. -/
theorem forwardPass_hiddenCs_at (a : Actor) (inputCs : List (List Int)) (rng : Nat → Nat)
    (p : Int2) (hp : p ∈ gridPositions a.hiddenSize.x a.hiddenSize.y) :
    (forwardPass a inputCs rng).hiddenCs (address2C p ⟨a.hiddenSize.x, a.hiddenSize.y⟩)
      = forwardCode a.hiddenSize a.visibleLayers inputCs p := by
  rw [forwardPass_eq_foldl]
  exact fp_foldl_value inputCs a.hiddenSize a.visibleLayers _ a rfl rfl
    (grid_pairwise_addr a.hiddenSize.x a.hiddenSize.y) p hp

/-- The forward pass only rewrites the action CSDR buffer. -/
theorem forwardPass_record (a : Actor) (inputCs : List (List Int)) (rng : Nat → Nat) :
    forwardPass a inputCs rng = { a with hiddenCs := (forwardPass a inputCs rng).hiddenCs } := by
  rw [forwardPass_eq_foldl]
  exact fp_foldl_frame inputCs _ a

theorem learnScan_eq_foldl (hiddenSize : Int3) (counts : Int → Int)
    (layers : List OneHotMatrix) (inputCs inputCsPrev : List (List Int)) (pos : Int2)
    (targetC : Int) :
    learnScan hiddenSize counts layers inputCs inputCsPrev pos targetC
      = (rangeClosed 0 (hiddenSize.z - 1)).foldl
          (lsStep hiddenSize counts layers inputCs inputCsPrev pos targetC)
          (negSentinel, negSentinel, none, none) := rfl

theorem lsStep_fst (hiddenSize : Int3) (counts : Int → Int) (layers : List OneHotMatrix)
    (inputCs inputCsPrev : List (List Int)) (pos : Int2) (targetC : Int)
    (acc : ℚ × ℚ × Option ℚ × Option ℚ) (hc : Int) :
    (lsStep hiddenSize counts layers inputCs inputCsPrev pos targetC acc hc).1
      = max acc.1 (learnSums hiddenSize counts layers inputCs inputCsPrev pos hc).1 ∧
    (lsStep hiddenSize counts layers inputCs inputCsPrev pos targetC acc hc).2.1
      = max acc.2.1 (learnSums hiddenSize counts layers inputCs inputCsPrev pos hc).2 := by
  unfold lsStep
  split <;> exact ⟨rfl, rfl⟩

theorem ls_foldl_max (hiddenSize : Int3) (counts : Int → Int) (layers : List OneHotMatrix)
    (inputCs inputCsPrev : List (List Int)) (pos : Int2) (targetC : Int) :
    ∀ (l : List Int) (acc : ℚ × ℚ × Option ℚ × Option ℚ),
      (l.foldl (lsStep hiddenSize counts layers inputCs inputCsPrev pos targetC) acc).1
        = l.foldl (fun m hc =>
            max m (learnSums hiddenSize counts layers inputCs inputCsPrev pos hc).1) acc.1 ∧
      (l.foldl (lsStep hiddenSize counts layers inputCs inputCsPrev pos targetC) acc).2.1
        = l.foldl (fun m hc =>
            max m (learnSums hiddenSize counts layers inputCs inputCsPrev pos hc).2) acc.2.1 := by
  intro l
  induction l with
  | nil => intro acc; exact ⟨rfl, rfl⟩
  | cons hc l ih =>
    intro acc
    rw [List.foldl_cons, List.foldl_cons, List.foldl_cons]
    have h := lsStep_fst hiddenSize counts layers inputCs inputCsPrev pos targetC acc hc
    rcases ih (lsStep hiddenSize counts layers inputCs inputCsPrev pos targetC acc hc)
      with ⟨ih1, ih2⟩
    exact ⟨by rw [ih1, h.1], by rw [ih2, h.2]⟩

theorem ls_foldl_opt_notmem (hiddenSize : Int3) (counts : Int → Int)
    (layers : List OneHotMatrix) (inputCs inputCsPrev : List (List Int)) (pos : Int2)
    (targetC : Int) :
    ∀ (l : List Int) (acc : ℚ × ℚ × Option ℚ × Option ℚ), targetC ∉ l →
      (l.foldl (lsStep hiddenSize counts layers inputCs inputCsPrev pos targetC) acc).2.2.1
        = acc.2.2.1 ∧
      (l.foldl (lsStep hiddenSize counts layers inputCs inputCsPrev pos targetC) acc).2.2.2
        = acc.2.2.2 := by
  intro l
  induction l with
  | nil => intro acc _; exact ⟨rfl, rfl⟩
  | cons hc l ih =>
    intro acc hni
    rw [List.foldl_cons]
    have hne : hc ≠ targetC := fun h => hni (h ▸ List.mem_cons_self hc l)
    have hstep : (lsStep hiddenSize counts layers inputCs inputCsPrev pos targetC acc hc).2.2.1
          = acc.2.2.1 ∧
        (lsStep hiddenSize counts layers inputCs inputCsPrev pos targetC acc hc).2.2.2
          = acc.2.2.2 := by
      unfold lsStep
      rw [if_neg hne]
      exact ⟨rfl, rfl⟩
    have := ih (lsStep hiddenSize counts layers inputCs inputCsPrev pos targetC acc hc)
      (fun h => hni (List.mem_cons_of_mem hc h))
    exact ⟨this.1.trans hstep.1, this.2.trans hstep.2⟩

theorem ls_foldl_opt_mem (hiddenSize : Int3) (counts : Int → Int)
    (layers : List OneHotMatrix) (inputCs inputCsPrev : List (List Int)) (pos : Int2)
    (targetC : Int) :
    ∀ (l : List Int) (acc : ℚ × ℚ × Option ℚ × Option ℚ), targetC ∈ l → l.Nodup →
      (l.foldl (lsStep hiddenSize counts layers inputCs inputCsPrev pos targetC) acc).2.2.1
        = some (learnSums hiddenSize counts layers inputCs inputCsPrev pos targetC).1 ∧
      (l.foldl (lsStep hiddenSize counts layers inputCs inputCsPrev pos targetC) acc).2.2.2
        = some (learnSums hiddenSize counts layers inputCs inputCsPrev pos targetC).2 := by
  intro l
  induction l with
  | nil => intro acc h _; exact absurd h (List.not_mem_nil targetC)
  | cons hc l ih =>
    intro acc hmem hnd
    rw [List.foldl_cons]
    rcases List.mem_cons.mp hmem with rfl | hmem'
    · have hni : targetC ∉ l := (List.nodup_cons.mp hnd).1
      have hstep :
          (lsStep hiddenSize counts layers inputCs inputCsPrev pos targetC acc targetC).2.2.1
            = some (learnSums hiddenSize counts layers inputCs inputCsPrev pos targetC).1 ∧
          (lsStep hiddenSize counts layers inputCs inputCsPrev pos targetC acc targetC).2.2.2
            = some (learnSums hiddenSize counts layers inputCs inputCsPrev pos targetC).2 := by
        unfold lsStep
        rw [if_pos rfl]
        exact ⟨rfl, rfl⟩
      have := ls_foldl_opt_notmem hiddenSize counts layers inputCs inputCsPrev pos targetC l
        (lsStep hiddenSize counts layers inputCs inputCsPrev pos targetC acc targetC) hni
      exact ⟨this.1.trans hstep.1, this.2.trans hstep.2⟩
    · exact ih (lsStep hiddenSize counts layers inputCs inputCsPrev pos targetC acc hc) hmem'
        (List.nodup_cons.mp hnd).2

theorem learnPass_eq_foldl (a : Actor) (inputCs : List (List Int))
    (hiddenCsPrev feedBackCsPrev : List Int) (inputCsPrev : List (List Int)) :
    learnPass a inputCs hiddenCsPrev feedBackCsPrev inputCsPrev
      = (gridPositions a.hiddenSize.x a.hiddenSize.y).foldl
          (lpStep inputCs hiddenCsPrev feedBackCsPrev inputCsPrev) a := rfl

theorem lp_foldl_frame (inputCs : List (List Int)) (hiddenCsPrev feedBackCsPrev : List Int)
    (inputCsPrev : List (List Int)) :
    ∀ (ps : List Int2) (s : Actor),
      ps.foldl (lpStep inputCs hiddenCsPrev feedBackCsPrev inputCsPrev) s
        = { s with visibleLayers :=
            (ps.foldl (lpStep inputCs hiddenCsPrev feedBackCsPrev inputCsPrev) s).visibleLayers } := by
  intro ps
  induction ps with
  | nil => intro s; rfl
  | cons p ps ih =>
    intro s
    rw [List.foldl_cons, ih (lpStep inputCs hiddenCsPrev feedBackCsPrev inputCsPrev s p)]
    rfl

/-- The learn pass only rewrites the weight collections. -/
theorem learnPass_record (a : Actor) (inputCs : List (List Int))
    (hiddenCsPrev feedBackCsPrev : List Int) (inputCsPrev : List (List Int)) :
    learnPass a inputCs hiddenCsPrev feedBackCsPrev inputCsPrev
      = { a with visibleLayers :=
          (learnPass a inputCs hiddenCsPrev feedBackCsPrev inputCsPrev).visibleLayers } := by
  rw [learnPass_eq_foldl]
  exact lp_foldl_frame inputCs hiddenCsPrev feedBackCsPrev inputCsPrev _ a

theorem enum_map_getD {α β : Type} (l : List α) (f : Nat × α → β) (n : Nat) (d : β) (d' : α)
    (h : n < l.length) :
    (l.enum.map f).getD n d = f (n, l.getD n d') := by
  have h3 : l.get? n = some (l.get ⟨n, h⟩) := List.get?_eq_get h
  rw [List.getD_eq_getD_get?, List.get?_map, List.get?_enum, h3,
    List.getD_eq_getD_get?, h3]
  rfl

theorem enum_map_getD_ge {α β : Type} (l : List α) (f : Nat × α → β) (n : Nat) (d : β)
    (h : l.length ≤ n) :
    (l.enum.map f).getD n d = d := by
  apply List.getD_eq_default
  simpa using h

theorem learnColumn_length (s : Actor) (inputCs : List (List Int))
    (hiddenCsPrev feedBackCsPrev : List Int) (inputCsPrev : List (List Int)) (pos : Int2) :
    (learnColumn s inputCs hiddenCsPrev feedBackCsPrev inputCsPrev pos).length
      = s.visibleLayers.length := by
  simp [learnColumn]

/-- A weight changed by the learn kernel at one column always lies in the row
selected by the kernel's target code. -/
theorem learnColumn_w_ne (s : Actor) (inputCs : List (List Int))
    (hiddenCsPrev feedBackCsPrev : List Int) (inputCsPrev : List (List Int)) (pos : Int2)
    (vli : Nat) (r i c : Int)
    (hne : ((learnColumn s inputCs hiddenCsPrev feedBackCsPrev inputCsPrev pos).getD vli default).w r i c
        ≠ ((s.visibleLayers.getD vli default).w r i c)) :
    r = learnRow s.hiddenSize hiddenCsPrev pos := by
  by_cases hlt : vli < s.visibleLayers.length
  · rw [show learnColumn s inputCs hiddenCsPrev feedBackCsPrev inputCsPrev pos
        = s.visibleLayers.enum.map (fun p =>
            deltaOHVs p.2 (inputCsPrev.getD p.1 [])
              (learnDeltaVal s.alpha s.gamma s.gap
                (if learnTargetC s.hiddenSize hiddenCsPrev pos
                    = feedBackCsPrev.getD (address2C pos ⟨s.hiddenSize.x, s.hiddenSize.y⟩).toNat 0
                  then 1 else 0)
                (learnScan s.hiddenSize s.hiddenCounts s.visibleLayers inputCs inputCsPrev pos
                  (learnTargetC s.hiddenSize hiddenCsPrev pos)).1
                (learnScan s.hiddenSize s.hiddenCounts s.visibleLayers inputCs inputCsPrev pos
                  (learnTargetC s.hiddenSize hiddenCsPrev pos)).2.1
                ((learnScan s.hiddenSize s.hiddenCounts s.visibleLayers inputCs inputCsPrev pos
                  (learnTargetC s.hiddenSize hiddenCsPrev pos)).2.2.1.getD 0)
                ((learnScan s.hiddenSize s.hiddenCounts s.visibleLayers inputCs inputCsPrev pos
                  (learnTargetC s.hiddenSize hiddenCsPrev pos)).2.2.2.getD 0))
              (learnRow s.hiddenSize hiddenCsPrev pos)) from rfl,
      enum_map_getD s.visibleLayers _ vli default default hlt] at hne
    by_cases hcond : r = learnRow s.hiddenSize hiddenCsPrev pos ∧
        i ∈ (s.visibleLayers.getD vli default).field (learnRow s.hiddenSize hiddenCsPrev pos) ∧
        c = (inputCsPrev.getD vli []).getD i.toNat 0
    · exact hcond.1
    · exact absurd (by simp only [deltaOHVs, if_neg hcond]) hne
  · rw [List.getD_eq_default, List.getD_eq_default] at hne
    · exact absurd rfl hne
    · omega
    · rw [learnColumn_length]; omega

/-- Any weight changed by a full learn pass lies in a row selected by the
target code of some hidden column. -/
theorem lp_foldl_rows (inputCs : List (List Int)) (hiddenCsPrev feedBackCsPrev : List Int)
    (inputCsPrev : List (List Int)) (hs : Int3) :
    ∀ (ps : List Int2) (s : Actor), s.hiddenSize = hs →
      ∀ (vli : Nat) (r i c : Int),
        (((ps.foldl (lpStep inputCs hiddenCsPrev feedBackCsPrev inputCsPrev) s).visibleLayers.getD
            vli default).w r i c)
          ≠ ((s.visibleLayers.getD vli default).w r i c) →
        ∃ p ∈ ps, r = learnRow hs hiddenCsPrev p := by
  intro ps
  induction ps with
  | nil => intro s _ vli r i c hne; exact absurd rfl hne
  | cons q ps ih =>
    intro s hsz vli r i c hne
    rw [List.foldl_cons] at hne
    by_cases hmid :
        (((ps.foldl (lpStep inputCs hiddenCsPrev feedBackCsPrev inputCsPrev)
            (lpStep inputCs hiddenCsPrev feedBackCsPrev inputCsPrev s q)).visibleLayers.getD
          vli default).w r i c)
          = (((lpStep inputCs hiddenCsPrev feedBackCsPrev inputCsPrev s q).visibleLayers.getD
            vli default).w r i c)
    · have hq :
          (((lpStep inputCs hiddenCsPrev feedBackCsPrev inputCsPrev s q).visibleLayers.getD
            vli default).w r i c) ≠ ((s.visibleLayers.getD vli default).w r i c) := by
        rw [← hmid]; exact hne
      have := learnColumn_w_ne s inputCs hiddenCsPrev feedBackCsPrev inputCsPrev q vli r i c hq
      exact ⟨q, List.mem_cons_self q ps, hsz ▸ this⟩
    · rcases ih (lpStep inputCs hiddenCsPrev feedBackCsPrev inputCsPrev s q) (by rw [← hsz]; rfl)
        vli r i c hmid with ⟨p, hp, hr⟩
      exact ⟨p, List.mem_cons_of_mem q hp, hr⟩

/-- `Actor::step` restated with its control state expressed over the pre-call
actor (the forward pass does not disturb the history bookkeeping). -/
theorem stepFn_char (a : Actor) (inputCs : List (List Int)) (hiddenCs feedBackCs : List Int)
    (learnEnabled : Bool) (rng : Nat → Nat) :
    stepFn a inputCs hiddenCs feedBackCs learnEnabled rng
      = (let atCap : Bool := a.historySize = a.historySamples.length
         let samples1 := if atCap then histShift a.historySamples else a.historySamples
         let size1 := if atCap then a.historySize else a.historySize + 1
         let samples2 := samples1.set (size1 - 1) ⟨inputCs, hiddenCs, feedBackCs⟩
         let a2 := { forwardPass a inputCs rng with historySamples := samples2, historySize := size1 }
         if learnEnabled && decide (2 < size1) then
           (List.range a.historyIters).foldl
             (fun s it =>
               let t := rng it % (size1 - 1)
               learnPass s (samples2.getD (t + 1) default).inputCs
                 (samples2.getD (t + 1) default).hiddenCs
                 (samples2.getD (t + 1) default).feedBackCs
                 (samples2.getD t default).inputCs)
             a2
         else a2) := by
  have hrec := forwardPass_record a inputCs rng
  have h1 : (forwardPass a inputCs rng).historySize = a.historySize := by rw [hrec]
  have h2 : (forwardPass a inputCs rng).historySamples = a.historySamples := by rw [hrec]
  have h3 : (forwardPass a inputCs rng).historyIters = a.historyIters := by rw [hrec]
  simp only [stepFn, h1, h2, h3]

/-- The two running maxima of the learn kernel, as list folds. -/
theorem learnScan_max (hiddenSize : Int3) (counts : Int → Int) (layers : List OneHotMatrix)
    (inputCs inputCsPrev : List (List Int)) (pos : Int2) (targetC : Int) :
    (learnScan hiddenSize counts layers inputCs inputCsPrev pos targetC).1
      = ((rangeClosed 0 (hiddenSize.z - 1)).map
          (fun hc => (learnSums hiddenSize counts layers inputCs inputCsPrev pos hc).1)).foldl
          max negSentinel ∧
    (learnScan hiddenSize counts layers inputCs inputCsPrev pos targetC).2.1
      = ((rangeClosed 0 (hiddenSize.z - 1)).map
          (fun hc => (learnSums hiddenSize counts layers inputCs inputCsPrev pos hc).2)).foldl
          max negSentinel := by
  rw [learnScan_eq_foldl, List.foldl_map, List.foldl_map]
  exact ls_foldl_max hiddenSize counts layers inputCs inputCsPrev pos targetC _ _

/-- A fold of history-preserving steps preserves the history state. -/
theorem replay_foldl_frame (g : Actor → Nat → Actor)
    (hg : ∀ (s : Actor) (it : Nat),
      (g s it).historySize = s.historySize ∧ (g s it).historySamples = s.historySamples) :
    ∀ (l : List Nat) (s : Actor),
      (l.foldl g s).historySize = s.historySize ∧
      (l.foldl g s).historySamples = s.historySamples := by
  intro l
  induction l with
  | nil => intro s; exact ⟨rfl, rfl⟩
  | cons x l ih =>
    intro s
    rw [List.foldl_cons]
    rcases ih (g s x) with ⟨h1, h2⟩
    rcases hg s x with ⟨h3, h4⟩
    exact ⟨h1.trans h3, h2.trans h4⟩

/-- History bookkeeping of one `Actor::step`: shift-and-reuse once full,
otherwise grow, then write the new sample at index `historySize - 1`. -/
theorem stepFn_history (a : Actor) (inputCs : List (List Int)) (hiddenCs feedBackCs : List Int)
    (learnEnabled : Bool) (rng : Nat → Nat) :
    (stepFn a inputCs hiddenCs feedBackCs learnEnabled rng).historySize
        = (if a.historySize = a.historySamples.length then a.historySize
            else a.historySize + 1) ∧
    (stepFn a inputCs hiddenCs feedBackCs learnEnabled rng).historySamples
        = (if a.historySize = a.historySamples.length then histShift a.historySamples
            else a.historySamples).set
          ((if a.historySize = a.historySamples.length then a.historySize
            else a.historySize + 1) - 1)
          ⟨inputCs, hiddenCs, feedBackCs⟩ := by
  rw [stepFn_char]
  simp only [decide_eq_true_eq]
  by_cases hb : (learnEnabled && decide
      (2 < if a.historySize = a.historySamples.length then a.historySize
        else a.historySize + 1)) = true
  · simp only [hb, if_true]
    exact replay_foldl_frame _
      (fun s it => by
        constructor
        · show (learnPass s _ _ _ _).historySize = s.historySize
          rw [learnPass_record]
        · show (learnPass s _ _ _ _).historySamples = s.historySamples
          rw [learnPass_record])
      (List.range a.historyIters) _
  · simp only [hb, Bool.false_eq_true, if_false]
    constructor <;> trivial

/-- Filling phase of the history ring: while below capacity each step appends
its sample at the next free slot and the valid count grows by one. -/
theorem feed_fill (steps : List StepArgs) :
    ∀ (a : Actor), a.historySize + steps.length ≤ a.historySamples.length →
      (feed a steps).historySize = a.historySize + steps.length ∧
      (feed a steps).historySamples
        = a.historySamples.take a.historySize ++ steps.map StepArgs.toSample
            ++ a.historySamples.drop (a.historySize + steps.length) ∧
      (feed a steps).historySamples.length = a.historySamples.length := by
  induction steps with
  | nil =>
    intro a _
    refine ⟨rfl, ?_, rfl⟩
    show a.historySamples = _
    rw [List.map_nil, List.append_nil, List.length_nil, Nat.add_zero, List.take_append_drop]
  | cons x steps ih =>
    intro a hle
    have hlen : a.historySize < a.historySamples.length := by
      rw [List.length_cons] at hle
      omega
    have hne : a.historySize ≠ a.historySamples.length := by omega
    obtain ⟨hS, hL⟩ := stepFn_history a x.inputCs x.hiddenCs x.feedBackCs x.learnEnabled x.rng
    rw [if_neg hne] at hS hL
    rw [if_neg hne, Nat.add_sub_cancel] at hL
    have hstep : feed a (x :: steps)
        = feed (stepFn a x.inputCs x.hiddenCs x.feedBackCs x.learnEnabled x.rng) steps := rfl
    have hlen' : (stepFn a x.inputCs x.hiddenCs x.feedBackCs x.learnEnabled x.rng).historySamples.length
        = a.historySamples.length := by
      rw [hL, List.length_set]
    obtain ⟨ih1, ih2, ih3⟩ := ih (stepFn a x.inputCs x.hiddenCs x.feedBackCs x.learnEnabled x.rng)
      (by rw [hS, hlen', List.length_cons] at *; omega)
    rw [hstep]
    have hset : (stepFn a x.inputCs x.hiddenCs x.feedBackCs x.learnEnabled x.rng).historySamples
        = a.historySamples.take a.historySize
            ++ (⟨x.inputCs, x.hiddenCs, x.feedBackCs⟩ : HistorySample)
              :: a.historySamples.drop (a.historySize + 1) := by
      rw [hL]
      exact List.set_eq_take_cons_drop _ hlen
    refine ⟨?_, ?_, by rw [ih3, hlen']⟩
    · rw [ih1, hS, List.length_cons]
      omega
    · rw [ih2, hS, hset]
      have htk : (a.historySamples.take a.historySize
            ++ (⟨x.inputCs, x.hiddenCs, x.feedBackCs⟩ : HistorySample)
              :: a.historySamples.drop (a.historySize + 1)).take (a.historySize + 1)
          = a.historySamples.take a.historySize ++ [⟨x.inputCs, x.hiddenCs, x.feedBackCs⟩] := by
        rw [List.take_append_eq_append_take, List.take_of_length_le (by
          rw [List.length_take]
          omega : (a.historySamples.take a.historySize).length ≤ a.historySize + 1)]
        have : a.historySize + 1 - (a.historySamples.take a.historySize).length = 1 := by
          rw [List.length_take]
          omega
        rw [this]
        rfl
      have hdp : (a.historySamples.take a.historySize
            ++ (⟨x.inputCs, x.hiddenCs, x.feedBackCs⟩ : HistorySample)
              :: a.historySamples.drop (a.historySize + 1)).drop (a.historySize + 1 + steps.length)
          = a.historySamples.drop (a.historySize + (steps.length + 1)) := by
        rw [List.drop_append_eq_append_drop]
        have h1 : (a.historySamples.take a.historySize).length = a.historySize := by
          rw [List.length_take]
          omega
        rw [List.drop_of_length_le (by omega : (a.historySamples.take a.historySize).length
          ≤ a.historySize + 1 + steps.length), h1]
        have h2 : a.historySize + 1 + steps.length - a.historySize = steps.length + 1 := by omega
        rw [h2]
        show List.nil ++ _ = _
        rw [List.nil_append, List.drop_succ_cons, List.drop_drop]
        congr 1
        omega
      rw [htk, hdp, List.map_cons, List.length_cons]
      simp only [StepArgs.toSample]
      congr 1
      rw [List.append_assoc]
      rfl

/-- Steady phase of the history ring: once full, every step evicts the oldest
sample in FIFO order and appends the new one at the back. -/
theorem feed_full (steps : List StepArgs) :
    ∀ (a : Actor), a.historySize = a.historySamples.length → 1 ≤ a.historySamples.length →
      (feed a steps).historySize = a.historySize ∧
      (feed a steps).historySamples
        = (a.historySamples ++ steps.map StepArgs.toSample).drop steps.length := by
  induction steps with
  | nil =>
    intro a hfull _
    refine ⟨rfl, ?_⟩
    show a.historySamples = _
    rw [List.map_nil, List.append_nil, List.length_nil, List.drop_zero]
  | cons x steps ih =>
    intro a hfull hpos
    obtain ⟨hS, hL⟩ := stepFn_history a x.inputCs x.hiddenCs x.feedBackCs x.learnEnabled x.rng
    rw [if_pos hfull] at hS hL
    rw [if_pos hfull] at hL
    have hcons : ∃ (h : HistorySample) (t : List HistorySample), a.historySamples = h :: t := by
      cases hsam : a.historySamples with
      | nil => rw [hsam] at hpos; simp at hpos
      | cons h t => exact ⟨h, t, rfl⟩
    obtain ⟨hd, tl, hsam⟩ := hcons
    have hshift : (histShift a.historySamples).set (a.historySize - 1)
          (⟨x.inputCs, x.hiddenCs, x.feedBackCs⟩ : HistorySample)
        = tl ++ [⟨x.inputCs, x.hiddenCs, x.feedBackCs⟩] := by
      rw [hsam, histShift]
      have hlen : tl.length = a.historySize - 1 := by
        rw [hfull, hsam, List.length_cons]
        omega
      rw [List.drop_one, List.tail_cons, List.take_succ_cons, List.take_zero, ← hlen]
      rw [List.set_eq_take_cons_drop _ (by
        rw [List.length_append, List.length_singleton]
        omega)]
      rw [List.take_left]
      have hd1 : (tl ++ [hd]).drop (tl.length + 1) = [] := by
        apply List.drop_of_length_le
        rw [List.length_append, List.length_singleton]
      rw [hd1]
    have hL' : (stepFn a x.inputCs x.hiddenCs x.feedBackCs x.learnEnabled x.rng).historySamples
        = tl ++ [⟨x.inputCs, x.hiddenCs, x.feedBackCs⟩] := by rw [hL, hshift]
    have hfull' : (stepFn a x.inputCs x.hiddenCs x.feedBackCs x.learnEnabled x.rng).historySize
        = (stepFn a x.inputCs x.hiddenCs x.feedBackCs x.learnEnabled x.rng).historySamples.length := by
      rw [hS, hL', List.length_append, List.length_singleton, hfull, hsam, List.length_cons]
    have hpos' : 1 ≤ (stepFn a x.inputCs x.hiddenCs x.feedBackCs x.learnEnabled x.rng).historySamples.length := by
      rw [hL', List.length_append, List.length_singleton]
      omega
    obtain ⟨ih1, ih2⟩ := ih (stepFn a x.inputCs x.hiddenCs x.feedBackCs x.learnEnabled x.rng)
      hfull' hpos'
    have hstep : feed a (x :: steps)
        = feed (stepFn a x.inputCs x.hiddenCs x.feedBackCs x.learnEnabled x.rng) steps := rfl
    rw [hstep]
    constructor
    · rw [ih1, hS]
    · rw [ih2, hL']
      rw [hsam, List.map_cons, List.length_cons]
      simp only [StepArgs.toSample, List.cons_append, List.drop_succ_cons,
        List.append_assoc, List.singleton_append, List.nil_append]

/-- The action code emitted by `Actor::forward` lies in `[0, hiddenSize.z)`
once the column has at least one cell. -/
theorem forwardCode_range (hiddenSize : Int3) (layers : List OneHotMatrix)
    (inputCs : List (List Int)) (pos : Int2) (hz : 1 ≤ hiddenSize.z) :
    0 ≤ forwardCode hiddenSize layers inputCs pos ∧
      forwardCode hiddenSize layers inputCs pos ≤ hiddenSize.z - 1 :=
  argmax_fold_range (fun hc => actSum hiddenSize layers inputCs pos hc) hiddenSize.z hz

theorem learnPass_hiddenCs (a : Actor) (inputCs : List (List Int))
    (hiddenCsPrev feedBackCsPrev : List Int) (inputCsPrev : List (List Int)) :
    (learnPass a inputCs hiddenCsPrev feedBackCsPrev inputCsPrev).hiddenCs = a.hiddenCs := by
  rw [learnPass_record a inputCs hiddenCsPrev feedBackCsPrev inputCsPrev]

theorem replay_foldl_cs (g : Actor → Nat → Actor)
    (hg : ∀ (s : Actor) (it : Nat), (g s it).hiddenCs = s.hiddenCs) :
    ∀ (l : List Nat) (s : Actor), (l.foldl g s).hiddenCs = s.hiddenCs := by
  intro l
  induction l with
  | nil => intro s; rfl
  | cons x l ih =>
    intro s
    rw [List.foldl_cons]
    exact (ih (g s x)).trans (hg s x)

/-- The action CSDR that `Actor::step` leaves behind is exactly the forward
pass's: the history bookkeeping and the replay learning never touch it. -/
theorem stepFn_hiddenCs (a : Actor) (inputCs : List (List Int))
    (hiddenCs feedBackCs : List Int) (learnEnabled : Bool) (rng : Nat → Nat) :
    (stepFn a inputCs hiddenCs feedBackCs learnEnabled rng).hiddenCs
      = (forwardPass a inputCs rng).hiddenCs := by
  simp only [stepFn]
  split <;> split
  all_goals
    first
    | exact replay_foldl_cs _ (fun s it => learnPass_hiddenCs s _ _ _ _) _ _
    | rfl

/-- After `Actor::step`, every hidden column's action code is in
`[0, hiddenSize.z)`. -/
theorem stepFn_cs_inrange (a : Actor) (inputCs : List (List Int))
    (hiddenCs feedBackCs : List Int) (learnEnabled : Bool) (rng : Nat → Nat)
    (hz : 1 ≤ a.hiddenSize.z) (p : Int2)
    (hp : p ∈ gridPositions a.hiddenSize.x a.hiddenSize.y) :
    0 ≤ (stepFn a inputCs hiddenCs feedBackCs learnEnabled rng).hiddenCs
      (address2C p ⟨a.hiddenSize.x, a.hiddenSize.y⟩) ∧
    (stepFn a inputCs hiddenCs feedBackCs learnEnabled rng).hiddenCs
      (address2C p ⟨a.hiddenSize.x, a.hiddenSize.y⟩) ≤ a.hiddenSize.z - 1 := by
  rw [stepFn_hiddenCs, forwardPass_hiddenCs_at a inputCs rng p hp]
  exact forwardCode_range a.hiddenSize a.visibleLayers inputCs p hz

theorem feed_append (a : Actor) (l1 l2 : List StepArgs) :
    feed a (l1 ++ l2) = feed (feed a l1) l2 := by
  simp [feed, List.foldl_append]

end Actor

/-! ## Claim theorems -/

/-- C8: every normalization divisor derived from a receptive-field count — the
`max(1.0f, count)` used by the coder's backward/learn averaging and the
`max(1, hiddenCounts[...])` used by the actor's learn kernel — is at least 1,
hence nonzero, for every reachable count, so none of the divisions of the
forward/backward/learn passes divides by zero. -/
theorem claim_C8 :
    (∀ (hiddenSize : Int3) (w : Int → ℚ) (cs : Int → Int) (vl : SCVisibleLayer)
        (vld : VisibleLayerDesc) (pos : Int2) (vc : Int),
      1 ≤ clampDiv (SparseCoder.supportPair hiddenSize w cs vl vld pos vc).2 ∧
        clampDiv (SparseCoder.supportPair hiddenSize w cs vl vld pos vc).2 ≠ 0) ∧
    (∀ counts : Int → Int, ∀ col : Int,
      1 ≤ clampDivI (counts col) ∧ ((clampDivI (counts col) : Int) : ℚ) ≠ 0) := by
  constructor
  · intro hiddenSize w cs vl vld pos vc
    have h1 : (1 : ℚ) ≤ clampDiv (SparseCoder.supportPair hiddenSize w cs vl vld pos vc).2 :=
      le_max_left 1 _
    exact ⟨h1, by intro h0; rw [h0] at h1; norm_num at h1⟩
  · intro counts col
    have h1 : (1 : Int) ≤ clampDivI (counts col) := le_max_left 1 _
    refine ⟨h1, ?_⟩
    have h2 : (1 : ℚ) ≤ ((clampDivI (counts col) : Int) : ℚ) := by exact_mod_cast h1
    intro h0
    rw [h0] at h2
    norm_num at h2

/-- C9: the actor's forward (policy) pass mutates no weight buffer and no
history state — it only rewrites the action CSDR —, its result does not depend
on the supplied RNG stream, and repeating it with the same inputs and weights
reproduces the same action CSDR at every hidden column. -/
theorem claim_C9 (a : Actor) (inputCs : List (List Int)) (r1 r2 : Nat → Nat) :
    (Actor.forwardPass a inputCs r1).visibleLayers = a.visibleLayers ∧
    (Actor.forwardPass a inputCs r1).hiddenCounts = a.hiddenCounts ∧
    (Actor.forwardPass a inputCs r1).historySamples = a.historySamples ∧
    (Actor.forwardPass a inputCs r1).historySize = a.historySize ∧
    Actor.forwardPass a inputCs r1 = Actor.forwardPass a inputCs r2 ∧
    ∀ p ∈ gridPositions a.hiddenSize.x a.hiddenSize.y,
      (Actor.forwardPass (Actor.forwardPass a inputCs r1) inputCs r2).hiddenCs
          (address2C p ⟨a.hiddenSize.x, a.hiddenSize.y⟩)
        = (Actor.forwardPass a inputCs r1).hiddenCs
            (address2C p ⟨a.hiddenSize.x, a.hiddenSize.y⟩) := by
  have hrec := Actor.forwardPass_record a inputCs r1
  have hsz : (Actor.forwardPass a inputCs r1).hiddenSize = a.hiddenSize := by rw [hrec]
  have hls : (Actor.forwardPass a inputCs r1).visibleLayers = a.visibleLayers := by rw [hrec]
  refine ⟨hls, by rw [hrec], by rw [hrec], by rw [hrec], rfl, ?_⟩
  intro p hp
  have hmem : p ∈ gridPositions (Actor.forwardPass a inputCs r1).hiddenSize.x
      (Actor.forwardPass a inputCs r1).hiddenSize.y := by rw [hsz]; exact hp
  have h2 := Actor.forwardPass_hiddenCs_at (Actor.forwardPass a inputCs r1) inputCs r2 p hmem
  rw [hsz, hls] at h2
  rw [h2]
  exact (Actor.forwardPass_hiddenCs_at a inputCs r1 p hp).symm

/-- C10: in the actor's learn kernel, when the target action code lies in
`[0, hiddenSize.z)` the action-value reads `nextQActionPrev` and `qActionPrev`
are assigned (by the `hc == targetC` iteration) before the PAL update reads
them — they hold exactly the normalized activations at `targetC` — while for a
target code outside that range they stay uninitialized (`none`). -/
theorem claim_C10 (hiddenSize : Int3) (counts : Int → Int) (layers : List OneHotMatrix)
    (inputCs inputCsPrev : List (List Int)) (pos : Int2) (targetC : Int) :
    ((0 ≤ targetC ∧ targetC < hiddenSize.z) →
      (Actor.learnScan hiddenSize counts layers inputCs inputCsPrev pos targetC).2.2.1
          = some (Actor.learnSums hiddenSize counts layers inputCs inputCsPrev pos targetC).1 ∧
      (Actor.learnScan hiddenSize counts layers inputCs inputCsPrev pos targetC).2.2.2
          = some (Actor.learnSums hiddenSize counts layers inputCs inputCsPrev pos targetC).2) ∧
    ((targetC < 0 ∨ hiddenSize.z ≤ targetC) →
      (Actor.learnScan hiddenSize counts layers inputCs inputCsPrev pos targetC).2.2.1 = none ∧
      (Actor.learnScan hiddenSize counts layers inputCs inputCsPrev pos targetC).2.2.2 = none) := by
  constructor
  · rintro ⟨h1, h2⟩
    rw [Actor.learnScan_eq_foldl]
    exact Actor.ls_foldl_opt_mem hiddenSize counts layers inputCs inputCsPrev pos targetC _ _
      (mem_rangeClosed.mpr ⟨h1, by omega⟩) (rangeClosed_nodup 0 (hiddenSize.z - 1))
  · intro h
    rw [Actor.learnScan_eq_foldl]
    refine Actor.ls_foldl_opt_notmem hiddenSize counts layers inputCs inputCsPrev pos targetC _ _
      (fun hmem => ?_)
    have := mem_rangeClosed.mp hmem
    omega

/-- Witness for C10 at a concrete 2-deep column: target code 1 is assigned,
target code 5 is out of range and stays uninitialized. -/
theorem claim_C10_witness :
    (Actor.learnScan ⟨1, 1, 2⟩ (fun _ => 1) [] [] [] ⟨0, 0⟩ 1).2.2.1
        = some (Actor.learnSums ⟨1, 1, 2⟩ (fun _ => 1) [] [] [] ⟨0, 0⟩ 1).1 ∧
    (Actor.learnScan ⟨1, 1, 2⟩ (fun _ => 1) [] [] [] ⟨0, 0⟩ 5).2.2.1 = none :=
  ⟨((claim_C10 ⟨1, 1, 2⟩ (fun _ => 1) [] [] [] ⟨0, 0⟩ 1).1 (by decide)).1,
   ((claim_C10 ⟨1, 1, 2⟩ (fun _ => 1) [] [] [] ⟨0, 0⟩ 5).2 (by decide)).1⟩

/-- C2: for every hidden column of the actor's learn kernel with an in-range
target code, the kernel equals — for every visible layer — adding the PAL delta
`alpha * max(dQ - gap*(maxActivationPrev - qActionPrev), dQ - gap*(maxActivation
- nextQActionPrev))`, with `dQ = reward + gamma*maxActivation - qActionPrev` and
`reward = 1` exactly when `targetC` matches the feedback code of the column, to
the weights of row `(targetC, column)` against `sPrev`'s one-hot input codes. -/
theorem claim_C2 (a : Actor) (inputCs : List (List Int)) (hiddenCsPrev feedBackCsPrev : List Int)
    (inputCsPrev : List (List Int)) (pos : Int2)
    (h1 : 0 ≤ Actor.learnTargetC a.hiddenSize hiddenCsPrev pos)
    (h2 : Actor.learnTargetC a.hiddenSize hiddenCsPrev pos < a.hiddenSize.z) :
    Actor.learnColumn a inputCs hiddenCsPrev feedBackCsPrev inputCsPrev pos =
      (let targetC := Actor.learnTargetC a.hiddenSize hiddenCsPrev pos
       let maxA := ((rangeClosed 0 (a.hiddenSize.z - 1)).map (fun hc =>
         (Actor.learnSums a.hiddenSize a.hiddenCounts a.visibleLayers inputCs inputCsPrev pos hc).1)).foldl
           max negSentinel
       let maxAP := ((rangeClosed 0 (a.hiddenSize.z - 1)).map (fun hc =>
         (Actor.learnSums a.hiddenSize a.hiddenCounts a.visibleLayers inputCs inputCsPrev pos hc).2)).foldl
           max negSentinel
       let nextQ := (Actor.learnSums a.hiddenSize a.hiddenCounts a.visibleLayers inputCs inputCsPrev pos targetC).1
       let qP := (Actor.learnSums a.hiddenSize a.hiddenCounts a.visibleLayers inputCs inputCsPrev pos targetC).2
       let reward : ℚ := if targetC = feedBackCsPrev.getD (address2C pos ⟨a.hiddenSize.x, a.hiddenSize.y⟩).toNat 0 then 1 else 0
       let dQ := reward + a.gamma * maxA - qP
       let delta := a.alpha * max (dQ - a.gap * (maxAP - qP)) (dQ - a.gap * (maxA - nextQ))
       a.visibleLayers.enum.map (fun p =>
         deltaOHVs p.2 (inputCsPrev.getD p.1 []) delta
           (address3C ⟨pos.x, pos.y, targetC⟩ a.hiddenSize))) := by
  have hmax := Actor.learnScan_max a.hiddenSize a.hiddenCounts a.visibleLayers inputCs inputCsPrev
    pos (Actor.learnTargetC a.hiddenSize hiddenCsPrev pos)
  have hopt : (Actor.learnScan a.hiddenSize a.hiddenCounts a.visibleLayers inputCs inputCsPrev pos
        (Actor.learnTargetC a.hiddenSize hiddenCsPrev pos)).2.2.1
          = some (Actor.learnSums a.hiddenSize a.hiddenCounts a.visibleLayers inputCs inputCsPrev pos
            (Actor.learnTargetC a.hiddenSize hiddenCsPrev pos)).1 ∧
      (Actor.learnScan a.hiddenSize a.hiddenCounts a.visibleLayers inputCs inputCsPrev pos
        (Actor.learnTargetC a.hiddenSize hiddenCsPrev pos)).2.2.2
          = some (Actor.learnSums a.hiddenSize a.hiddenCounts a.visibleLayers inputCs inputCsPrev pos
            (Actor.learnTargetC a.hiddenSize hiddenCsPrev pos)).2 := by
    rw [Actor.learnScan_eq_foldl]
    exact Actor.ls_foldl_opt_mem a.hiddenSize a.hiddenCounts a.visibleLayers inputCs inputCsPrev
      pos _ _ _ (mem_rangeClosed.mpr ⟨h1, by omega⟩) (rangeClosed_nodup 0 (a.hiddenSize.z - 1))
  simp only [Actor.learnColumn, Actor.learnRow, hmax.1, hmax.2, hopt.1, hopt.2,
    Option.getD_some, Actor.learnDeltaVal]

/-- Witness for C2 at a concrete one-column actor: the in-range hypotheses hold
and the kernel output matches the spelled-out PAL update. -/
theorem claim_C2_witness :
    (0 ≤ Actor.learnTargetC ⟨1, 1, 1⟩ [0] ⟨0, 0⟩ ∧
      Actor.learnTargetC ⟨1, 1, 1⟩ [0] ⟨0, 0⟩ < (1 : Int)) ∧
    Actor.learnColumn
        ⟨⟨1, 1, 1⟩, fun _ => 0, fun _ => 1, [⟨fun _ _ _ => 0, fun _ => [0]⟩], [], 0, [], 1, 1, 1, 0⟩
        [[0]] [0] [0] [[0]] ⟨0, 0⟩ =
      (let targetC := Actor.learnTargetC ⟨1, 1, 1⟩ [0] ⟨0, 0⟩
       let maxA := ((rangeClosed 0 0).map (fun hc =>
         (Actor.learnSums ⟨1, 1, 1⟩ (fun _ => 1) [⟨fun _ _ _ => 0, fun _ => [0]⟩] [[0]] [[0]] ⟨0, 0⟩ hc).1)).foldl
           max negSentinel
       let maxAP := ((rangeClosed 0 0).map (fun hc =>
         (Actor.learnSums ⟨1, 1, 1⟩ (fun _ => 1) [⟨fun _ _ _ => 0, fun _ => [0]⟩] [[0]] [[0]] ⟨0, 0⟩ hc).2)).foldl
           max negSentinel
       let nextQ := (Actor.learnSums ⟨1, 1, 1⟩ (fun _ => 1) [⟨fun _ _ _ => 0, fun _ => [0]⟩] [[0]] [[0]] ⟨0, 0⟩ targetC).1
       let qP := (Actor.learnSums ⟨1, 1, 1⟩ (fun _ => 1) [⟨fun _ _ _ => 0, fun _ => [0]⟩] [[0]] [[0]] ⟨0, 0⟩ targetC).2
       let reward : ℚ := if targetC = [(0 : Int)].getD (address2C ⟨0, 0⟩ ⟨1, 1⟩).toNat 0 then 1 else 0
       let dQ := reward + 1 * maxA - qP
       let delta := 1 * max (dQ - 1 * (maxAP - qP)) (dQ - 1 * (maxA - nextQ))
       [⟨fun _ _ _ => (0 : ℚ), fun _ => [(0 : Int)]⟩].enum.map (fun p =>
         deltaOHVs p.2 ([[(0 : Int)]].getD p.1 []) delta
           (address3C ⟨0, 0, targetC⟩ ⟨1, 1, 1⟩))) :=
  ⟨⟨by decide, by decide⟩,
   claim_C2
     ⟨⟨1, 1, 1⟩, fun _ => 0, fun _ => 1, [⟨fun _ _ _ => 0, fun _ => [0]⟩], [], 0, [], 1, 1, 1, 0⟩
     [[0]] [0] [0] [[0]] ⟨0, 0⟩ (by decide) (by decide)⟩

set_option maxHeartbeats 4000000 in
set_option maxRecDepth 4000 in
/-- C5: feeding `historyCapacity + k` steps (k > 0) into an empty actor leaves
exactly `historyCapacity` retained samples, the oldest `k` samples evicted in
FIFO order (the buffer equals the fed samples with the first `k` dropped), the
sample at ring position 0 after overflow is the one of step `k`, and the valid
count equals `min(steps so far, capacity)` — increasing until capacity, then
constant. -/
theorem claim_C5 (a : Actor) (steps : List Actor.StepArgs) (cap k : Nat)
    (h0 : a.historySize = 0) (hcap : a.historySamples.length = cap) (hc1 : 1 ≤ cap)
    (hk : 1 ≤ k) (hlen : steps.length = cap + k) :
    (Actor.feed a steps).historySize = cap ∧
    (Actor.feed a steps).historySamples = (steps.map Actor.StepArgs.toSample).drop k ∧
    (Actor.feed a steps).historySamples.getD 0 default
      = (steps.map Actor.StepArgs.toSample).getD k default ∧
    ∀ i, i ≤ steps.length → (Actor.feed a (steps.take i)).historySize = min i cap := by
  have ht : (steps.take cap).length = cap := by
    rw [List.length_take]
    omega
  obtain ⟨f1, f2, f3⟩ := Actor.feed_fill (steps.take cap) a (by rw [h0, hcap, ht]; omega)
  rw [h0, List.take_zero, List.nil_append, Nat.zero_add, ht] at f2
  have hdrop : a.historySamples.drop cap = [] := List.drop_eq_nil_of_le (by omega)
  rw [hdrop, List.append_nil] at f2
  rw [h0, Nat.zero_add, ht] at f1
  have hfull1 : (Actor.feed a (steps.take cap)).historySize
      = (Actor.feed a (steps.take cap)).historySamples.length := by
    rw [f1, f2, List.length_map, ht]
  have hpos1 : 1 ≤ (Actor.feed a (steps.take cap)).historySamples.length := by
    rw [f2, List.length_map, ht]
    omega
  obtain ⟨g1, g2⟩ := Actor.feed_full (steps.drop cap) (Actor.feed a (steps.take cap))
    hfull1 hpos1
  have hdk : (steps.drop cap).length = k := by
    rw [List.length_drop]
    omega
  have hfeed : Actor.feed a steps = Actor.feed (Actor.feed a (steps.take cap)) (steps.drop cap) := by
    rw [← Actor.feed_append, List.take_append_drop]
  have hsz : (Actor.feed a steps).historySize = cap := by
    rw [hfeed, g1, f1]
  have hsam : (Actor.feed a steps).historySamples = (steps.map Actor.StepArgs.toSample).drop k := by
    rw [hfeed, g2, f2, hdk, ← List.map_append, List.take_append_drop]
  refine ⟨hsz, hsam, ?_, ?_⟩
  · rw [hsam, List.getD_eq_getD_get?, List.getD_eq_getD_get?, List.get?_drop, Nat.add_zero]
  · intro i hi
    by_cases hik : i ≤ cap
    · have hti : (steps.take i).length = i := by
        rw [List.length_take]
        omega
      obtain ⟨p1, _, _⟩ := Actor.feed_fill (steps.take i) a (by rw [h0, hcap, hti]; omega)
      rw [p1, h0, hti, Nat.zero_add]
      omega
    · have hsp : steps.take i = steps.take cap ++ (steps.drop cap).take (i - cap) := by
        have hi' : i = cap + (i - cap) := by omega
        rw [hi', List.take_add]
        have : cap + (i - cap) - cap = i - cap := by omega
        rw [this]
      obtain ⟨q1, _⟩ := Actor.feed_full ((steps.drop cap).take (i - cap))
        (Actor.feed a (steps.take cap)) hfull1 hpos1
      rw [hsp, Actor.feed_append, q1, f1]
      omega

/-- Witness for C5 with capacity 2 and 3 fed steps: one sample is evicted and
ring position 0 holds the sample of step index 1. -/
theorem claim_C5_witness :
    (Actor.feed ⟨⟨1, 1, 1⟩, fun _ => 0, fun _ => 1, [], [], 0, [default, default], 1, 1, 1, 0⟩
        [⟨[], [1], [1], false, fun _ => 0⟩, ⟨[], [2], [2], false, fun _ => 0⟩, ⟨[], [3], [3], false, fun _ => 0⟩]).historySize = 2 ∧
    (Actor.feed ⟨⟨1, 1, 1⟩, fun _ => 0, fun _ => 1, [], [], 0, [default, default], 1, 1, 1, 0⟩
        [⟨[], [1], [1], false, fun _ => 0⟩, ⟨[], [2], [2], false, fun _ => 0⟩, ⟨[], [3], [3], false, fun _ => 0⟩]).historySamples
      = (([⟨[], [1], [1], false, fun _ => 0⟩, ⟨[], [2], [2], false, fun _ => 0⟩, ⟨[], [3], [3], false, fun _ => 0⟩] :
          List Actor.StepArgs).map Actor.StepArgs.toSample).drop 1 :=
  ⟨(claim_C5 ⟨⟨1, 1, 1⟩, fun _ => 0, fun _ => 1, [], [], 0, [default, default], 1, 1, 1, 0⟩
      [⟨[], [1], [1], false, fun _ => 0⟩, ⟨[], [2], [2], false, fun _ => 0⟩, ⟨[], [3], [3], false, fun _ => 0⟩] 2 1 rfl rfl (by decide) (by decide) rfl).1,
   (claim_C5 ⟨⟨1, 1, 1⟩, fun _ => 0, fun _ => 1, [], [], 0, [default, default], 1, 1, 1, 0⟩
      [⟨[], [1], [1], false, fun _ => 0⟩, ⟨[], [2], [2], false, fun _ => 0⟩, ⟨[], [3], [3], false, fun _ => 0⟩] 2 1 rfl rfl (by decide) (by decide) rfl).2.1⟩

/-- Counterexample for C1: a concrete `Actor::step` run whose replayed
transition has `sPrev.hiddenCs = [0]` and `s.hiddenCs = [1]` with a nonzero PAL
delta; the weight row of `sPrev`'s recorded action code 0 stays untouched while
the row of `s`'s recorded code 1 changes, so the weight update does not use
`sPrev`'s recorded action code as the claim states. -/
theorem claim_C1_counterexample :
    let a : Actor :=
      ⟨⟨1, 1, 2⟩, fun _ => 0, fun _ => 1, [⟨fun _ _ _ => 0, fun _ => [0]⟩], [],
        2, [⟨[[0]], [0], [0]⟩, ⟨[[0]], [1], [1]⟩, default], 1, 1, 1, 1⟩
    let a' := Actor.stepFn a [[0]] [5] [5] true (fun _ => 0)
    ((a'.visibleLayers.getD 0 default).w 1 0 0 ≠ (a.visibleLayers.getD 0 default).w 1 0 0) ∧
    ((a'.visibleLayers.getD 0 default).w 0 0 0 = (a.visibleLayers.getD 0 default).w 0 0 0) := by
  have hr1 : rangeClosed 0 1 = [0, 1] := rfl
  have hr0 : rangeClosed 0 0 = [0] := rfl
  have hg : gridPositions 1 1 = [⟨0, 0⟩] := rfl
  norm_num [Actor.stepFn, Actor.forwardPass, Actor.learnPass, Actor.learnColumn, Actor.learnScan,
    Actor.learnSums, Actor.learnDeltaVal, Actor.learnTargetC, Actor.learnRow, Actor.forwardCode,
    Actor.actSum, Actor.histShift, multiplyOHVs, deltaOHVs, hr1, hr0, hg,
    address2C, address3C, fset, clampDivI, negSentinel, max_def, List.range_succ, List.range_zero]

/-- C1 (amended): every weight modified by the replay learn pass — invoked by
`Actor::step` as `learnPass s.inputCs s.hiddenCs s.feedBackCs sPrev.inputCs`
for the transition `(sPrev, s) = (history[t], history[t+1])` — lies in the row
selected by the action code recorded in `s`'s (history[t+1]'s) hidden CSDR at
the corresponding column, not `sPrev`'s. -/
theorem claim_C1_amended (a : Actor) (s sPrev : HistorySample) (vli : Nat) (r i c : Int)
    (hne : ((Actor.learnPass a s.inputCs s.hiddenCs s.feedBackCs sPrev.inputCs).visibleLayers.getD
        vli default).w r i c
      ≠ ((a.visibleLayers.getD vli default).w r i c)) :
    ∃ p ∈ gridPositions a.hiddenSize.x a.hiddenSize.y,
      r = address3C
        ⟨p.x, p.y, s.hiddenCs.getD (address2C p ⟨a.hiddenSize.x, a.hiddenSize.y⟩).toNat 0⟩
        a.hiddenSize := by
  rw [Actor.learnPass_eq_foldl] at hne
  exact Actor.lp_foldl_rows s.inputCs s.hiddenCs s.feedBackCs sPrev.inputCs a.hiddenSize
    _ a rfl vli r i c hne

/-- Witness for the amended C1 at the counterexample's transition: the changed
weight row 1 is the row of `s`'s recorded code at the single column. -/
theorem claim_C1_amended_witness :
    ∃ p ∈ gridPositions (1 : Int) 1,
      (1 : Int) = address3C
        ⟨p.x, p.y, [(1 : Int)].getD (address2C p ⟨1, 1⟩).toNat 0⟩ ⟨1, 1, 2⟩ :=
  claim_C1_amended
    ⟨⟨1, 1, 2⟩, fun _ => 0, fun _ => 1, [⟨fun _ _ _ => 0, fun _ => [0]⟩], [], 2, [], 1, 1, 1, 1⟩
    ⟨[[0]], [1], [1]⟩ ⟨[[0]], [0], [0]⟩ 0 1 0 0 (by
      have hr1 : rangeClosed 0 1 = [0, 1] := rfl
      have hg : gridPositions 1 1 = [⟨0, 0⟩] := rfl
      norm_num [Actor.learnPass, Actor.learnColumn, Actor.learnScan, Actor.learnSums,
        Actor.learnDeltaVal, Actor.learnTargetC, Actor.learnRow, multiplyOHVs, deltaOHVs,
        hr1, hg, address2C, address3C, clampDivI, negSentinel, max_def])

/-- C4: replay learning inside `Actor::step` runs exactly when `learnEnabled`
holds and at least 3 samples are valid after the append; in that case it
repeats `historyIters` times, each iteration drawing `t` in
`[0, historySize-2]` and running the learn pass with `sPrev = history[t]` and
`s = history[t+1]`; otherwise no weight collection is modified. -/
theorem claim_C4 (a : Actor) (inputCs : List (List Int)) (hiddenCs feedBackCs : List Int)
    (learnEnabled : Bool) (rng : Nat → Nat) :
    (¬ (learnEnabled = true ∧
        2 < (if a.historySize = a.historySamples.length then a.historySize else a.historySize + 1)) →
      (Actor.stepFn a inputCs hiddenCs feedBackCs learnEnabled rng).visibleLayers
        = a.visibleLayers) ∧
    ((learnEnabled = true ∧
        2 < (if a.historySize = a.historySamples.length then a.historySize else a.historySize + 1)) →
      (∀ it : Nat,
        rng it % ((if a.historySize = a.historySamples.length then a.historySize
          else a.historySize + 1) - 1)
          ≤ (if a.historySize = a.historySamples.length then a.historySize
            else a.historySize + 1) - 2) ∧
      Actor.stepFn a inputCs hiddenCs feedBackCs learnEnabled rng
        = (let size1 := if a.historySize = a.historySamples.length then a.historySize
             else a.historySize + 1
           let samples2 := (if a.historySize = a.historySamples.length
             then Actor.histShift a.historySamples else a.historySamples).set (size1 - 1)
               ⟨inputCs, hiddenCs, feedBackCs⟩
           (List.range a.historyIters).foldl
             (fun s it =>
               let t := rng it % (size1 - 1)
               Actor.learnPass s (samples2.getD (t + 1) default).inputCs
                 (samples2.getD (t + 1) default).hiddenCs
                 (samples2.getD (t + 1) default).feedBackCs
                 (samples2.getD t default).inputCs)
             { Actor.forwardPass a inputCs rng with
                historySamples := samples2, historySize := size1 })) := by
  rw [Actor.stepFn_char]
  simp only [decide_eq_true_eq]
  constructor
  · intro hcond
    have hb : (learnEnabled && decide
        (2 < if a.historySize = a.historySamples.length then a.historySize
          else a.historySize + 1)) = false := by
      cases learnEnabled
      · rfl
      · simp only [Bool.true_and, decide_eq_false_iff_not]
        intro hlt
        exact hcond ⟨rfl, hlt⟩
    simp only [hb, Bool.false_eq_true, if_false]
    rw [Actor.forwardPass_record a inputCs rng]
  · rintro ⟨he, hlt⟩
    subst he
    constructor
    · intro it
      have hpos : 0 < (if a.historySize = a.historySamples.length then a.historySize
          else a.historySize + 1) - 1 := by omega
      have := Nat.mod_lt (rng it) hpos
      omega
    · have hb : (true && decide
          (2 < if a.historySize = a.historySamples.length then a.historySize
            else a.historySize + 1)) = true := by
        simp only [Bool.true_and, decide_eq_true_eq]
        exact hlt
      simp only [hb, if_true]

/-- Witness for C4: with learning disabled no weights change; with learning
enabled and 3 valid samples the step equals the replay fold with in-range
draws. -/
theorem claim_C4_witness :
    ((Actor.stepFn
        ⟨⟨1, 1, 2⟩, fun _ => 0, fun _ => 1, [⟨fun _ _ _ => 0, fun _ => [0]⟩], [],
          2, [⟨[[0]], [0], [0]⟩, ⟨[[0]], [1], [1]⟩, default], 1, 1, 1, 1⟩
        [[0]] [4] [4] false (fun _ => 0)).visibleLayers
      = [⟨fun _ _ _ => (0 : ℚ), fun _ => [(0 : Int)]⟩]) ∧
    (∀ it : Nat, (fun _ => 0 : Nat → Nat) it % (3 - 1) ≤ 3 - 2) ∧
    Actor.stepFn
        ⟨⟨1, 1, 2⟩, fun _ => 0, fun _ => 1, [⟨fun _ _ _ => 0, fun _ => [0]⟩], [],
          2, [⟨[[0]], [0], [0]⟩, ⟨[[0]], [1], [1]⟩, default], 1, 1, 1, 1⟩
        [[0]] [4] [4] true (fun _ => 0)
      = (List.range 1).foldl
          (fun s it =>
            Actor.learnPass s
              ([⟨[[0]], [0], [0]⟩, ⟨[[0]], [1], [1]⟩, (⟨[[0]], [4], [4]⟩ : HistorySample)].getD
                ((fun _ => 0 : Nat → Nat) it % 2 + 1) default).inputCs
              ([⟨[[0]], [0], [0]⟩, ⟨[[0]], [1], [1]⟩, (⟨[[0]], [4], [4]⟩ : HistorySample)].getD
                ((fun _ => 0 : Nat → Nat) it % 2 + 1) default).hiddenCs
              ([⟨[[0]], [0], [0]⟩, ⟨[[0]], [1], [1]⟩, (⟨[[0]], [4], [4]⟩ : HistorySample)].getD
                ((fun _ => 0 : Nat → Nat) it % 2 + 1) default).feedBackCs
              ([⟨[[0]], [0], [0]⟩, ⟨[[0]], [1], [1]⟩, (⟨[[0]], [4], [4]⟩ : HistorySample)].getD
                ((fun _ => 0 : Nat → Nat) it % 2) default).inputCs)
          { Actor.forwardPass
              ⟨⟨1, 1, 2⟩, fun _ => 0, fun _ => 1, [⟨fun _ _ _ => 0, fun _ => [0]⟩], [],
                2, [⟨[[0]], [0], [0]⟩, ⟨[[0]], [1], [1]⟩, default], 1, 1, 1, 1⟩
              [[0]] (fun _ => 0) with
              historySamples :=
                [⟨[[0]], [0], [0]⟩, ⟨[[0]], [1], [1]⟩, ⟨[[0]], [4], [4]⟩],
              historySize := 3 } :=
  ⟨by
    rw [(claim_C4
      (⟨⟨1, 1, 2⟩, fun _ => 0, fun _ => 1, [⟨fun _ _ _ => 0, fun _ => [0]⟩], [],
        2, [⟨[[0]], [0], [0]⟩, ⟨[[0]], [1], [1]⟩, default], 1, 1, 1, 1⟩ : Actor)
      [[0]] [4] [4] false (fun _ => 0)).1 (by decide)],
   ((claim_C4
      (⟨⟨1, 1, 2⟩, fun _ => 0, fun _ => 1, [⟨fun _ _ _ => 0, fun _ => [0]⟩], [],
        2, [⟨[[0]], [0], [0]⟩, ⟨[[0]], [1], [1]⟩, default], 1, 1, 1, 1⟩ : Actor)
      [[0]] [4] [4] true (fun _ => 0)).2 (by decide)).1,
   ((claim_C4
      (⟨⟨1, 1, 2⟩, fun _ => 0, fun _ => 1, [⟨fun _ _ _ => 0, fun _ => [0]⟩], [],
        2, [⟨[[0]], [0], [0]⟩, ⟨[[0]], [1], [1]⟩, default], 1, 1, 1, 1⟩ : Actor)
      [[0]] [4] [4] true (fun _ => 0)).2 (by decide)).2⟩

/-- C7: a CSDR stores one code per column by construction (one integer per
column), and after any `activate` call on the sparse coder or `step` call on
the actor every produced code is in `[0, depth)` for the corresponding grid
depth: the coder's hidden codes (depth `hiddenSize.z`), the coder's per-layer
reconstruction codes (depth `vld.size.z`), and the actor's action codes (depth
`hiddenSize.z`). -/
theorem claim_C7 (sc : SparseCoder) (inputCs : List (List Int)) (vli : Nat) (hp vp : Int2)
    (a : Actor) (aInCs : List (List Int)) (aHid aFb : List Int) (le : Bool)
    (rng : Nat → Nat) (ap : Int2)
    (hexp : 1 ≤ sc.explainIters) (hscz : 1 ≤ sc.hiddenSize.z)
    (hhp : hp ∈ gridPositions sc.hiddenSize.x sc.hiddenSize.y)
    (hvli : vli < sc.visibleLayers.length)
    (hvz : 1 ≤ (sc.visibleLayerDescs.getD vli default).size.z)
    (hvp : vp ∈ gridPositions (sc.visibleLayerDescs.getD vli default).size.x
      (sc.visibleLayerDescs.getD vli default).size.y)
    (haz : 1 ≤ a.hiddenSize.z)
    (hap : ap ∈ gridPositions a.hiddenSize.x a.hiddenSize.y) :
    (0 ≤ (SparseCoder.activate sc inputCs).hiddenCs (address2 hp sc.hiddenSize.x) ∧
     (SparseCoder.activate sc inputCs).hiddenCs (address2 hp sc.hiddenSize.x)
       < sc.hiddenSize.z) ∧
    (0 ≤ ((SparseCoder.activate sc inputCs).visibleLayers.getD vli default).reconCs
       (address2 vp (sc.visibleLayerDescs.getD vli default).size.x) ∧
     ((SparseCoder.activate sc inputCs).visibleLayers.getD vli default).reconCs
       (address2 vp (sc.visibleLayerDescs.getD vli default).size.x)
       < (sc.visibleLayerDescs.getD vli default).size.z) ∧
    (0 ≤ (Actor.stepFn a aInCs aHid aFb le rng).hiddenCs
       (address2C ap ⟨a.hiddenSize.x, a.hiddenSize.y⟩) ∧
     (Actor.stepFn a aInCs aHid aFb le rng).hiddenCs
       (address2C ap ⟨a.hiddenSize.x, a.hiddenSize.y⟩) < a.hiddenSize.z) := by
  obtain ⟨h1, h2⟩ := SparseCoder.activate_cs_inrange sc inputCs hexp hscz hp hhp
  obtain ⟨h3, h4⟩ := SparseCoder.activate_recon_cover sc inputCs hexp vli hvli hvz vp hvp
  obtain ⟨h5, h6⟩ := Actor.stepFn_cs_inrange a aInCs aHid aFb le rng haz ap hap
  exact ⟨⟨h1, by omega⟩, ⟨h3, by omega⟩, h5, by omega⟩

/-- Witness for C7 on a one-column coder (one iteration, one default visible
layer) and a one-column actor. -/
theorem claim_C7_witness :
    (0 ≤ (SparseCoder.activate ⟨⟨1, 1, 1⟩, fun _ => 0, fun _ => 0, [default], [default], 0, 1⟩
        [[0]]).hiddenCs (address2 ⟨0, 0⟩ 1) ∧
     (SparseCoder.activate ⟨⟨1, 1, 1⟩, fun _ => 0, fun _ => 0, [default], [default], 0, 1⟩
        [[0]]).hiddenCs (address2 ⟨0, 0⟩ 1) < 1) ∧
    (0 ≤ ((SparseCoder.activate ⟨⟨1, 1, 1⟩, fun _ => 0, fun _ => 0, [default], [default], 0, 1⟩
        [[0]]).visibleLayers.getD 0 default).reconCs (address2 ⟨0, 0⟩ 4) ∧
     ((SparseCoder.activate ⟨⟨1, 1, 1⟩, fun _ => 0, fun _ => 0, [default], [default], 0, 1⟩
        [[0]]).visibleLayers.getD 0 default).reconCs (address2 ⟨0, 0⟩ 4) < 16) ∧
    (0 ≤ (Actor.stepFn ⟨⟨1, 1, 1⟩, fun _ => 0, fun _ => 1, [], [], 0, [], 0, 0, 0, 0⟩
        [] [] [] false (fun _ => 0)).hiddenCs (address2C ⟨0, 0⟩ ⟨1, 1⟩) ∧
     (Actor.stepFn ⟨⟨1, 1, 1⟩, fun _ => 0, fun _ => 1, [], [], 0, [], 0, 0, 0, 0⟩
        [] [] [] false (fun _ => 0)).hiddenCs (address2C ⟨0, 0⟩ ⟨1, 1⟩) < 1) :=
  claim_C7 ⟨⟨1, 1, 1⟩, fun _ => 0, fun _ => 0, [default], [default], 0, 1⟩ [[0]] 0 ⟨0, 0⟩ ⟨0, 0⟩
    ⟨⟨1, 1, 1⟩, fun _ => 0, fun _ => 1, [], [], 0, [], 0, 0, 0, 0⟩ [] [] [] false (fun _ => 0)
    ⟨0, 0⟩ (by decide) (by decide) (by decide) (by decide) (by decide) (by decide) (by decide)
    (by decide)

/-- C3: `SparseCoder::activate` runs `explainIters` iterations, each a forward
pass over all hidden columns followed by the backward reconstruction pass for
every visible layer; in iteration `n+1` every valid cell's activation is set,
on the first iteration (`n = 0`), to the summed feed-forward input support,
and on every later iteration to the running activation incremented by (input
support minus reconstruction support). -/
theorem claim_C3 (sc : SparseCoder) (inputCs : List (List Int)) (n : Nat) (pos : Int2)
    (hc : Int) (hpos : pos ∈ gridPositions sc.hiddenSize.x sc.hiddenSize.y)
    (hc1 : 0 ≤ hc) (hc2 : hc ≤ sc.hiddenSize.z - 1) :
    SparseCoder.activate sc inputCs = SparseCoder.activateAux sc inputCs sc.explainIters ∧
    SparseCoder.activateAux sc inputCs (n + 1)
      = SparseCoder.backwardAll
          (SparseCoder.forwardPass (SparseCoder.activateAux sc inputCs n) inputCs (n == 0)) ∧
    (SparseCoder.activateAux sc inputCs (n + 1)).hiddenActivations
        (address3 ⟨pos.x, pos.y, hc⟩ ⟨sc.hiddenSize.x, sc.hiddenSize.y⟩)
      = SparseCoder.scNewVal (SparseCoder.activateAux sc inputCs n) inputCs (n == 0) pos hc ∧
    SparseCoder.scNewVal (SparseCoder.activateAux sc inputCs n) inputCs (n == 0) pos hc
      = (if n == 0 then
          SparseCoder.inputAct (SparseCoder.activateAux sc inputCs n) inputCs pos hc
        else
          (SparseCoder.activateAux sc inputCs n).hiddenActivations
            (address3 ⟨pos.x, pos.y, hc⟩ ⟨sc.hiddenSize.x, sc.hiddenSize.y⟩)
          + SparseCoder.inputAct (SparseCoder.activateAux sc inputCs n) inputCs pos hc
          - SparseCoder.reconAct (SparseCoder.activateAux sc inputCs n) pos hc) := by
  obtain ⟨a1, a2, a3, a4, a5⟩ := SparseCoder.activateAux_frame sc inputCs n
  have hstruct : SparseCoder.activateAux sc inputCs (n + 1)
      = SparseCoder.backwardAll
          (SparseCoder.forwardPass (SparseCoder.activateAux sc inputCs n) inputCs (n == 0)) := by
    simp only [SparseCoder.activateAux, SparseCoder.activateIter]
  refine ⟨rfl, hstruct, ?_, ?_⟩
  · rw [hstruct, (SparseCoder.backwardAll_frame _).2.2.1]
    have h := SparseCoder.forwardPass_acts_at (SparseCoder.activateAux sc inputCs n) inputCs
      (n == 0) pos (by rw [a1]; exact hpos) hc hc1 (by rw [a1]; exact hc2)
    rw [a1] at h
    exact h
  · unfold SparseCoder.scNewVal
    rw [a1]

/-- Witness for C3 on a one-column, one-iteration coder at iteration 0. -/
theorem claim_C3_witness :
    let C : SparseCoder := ⟨⟨1, 1, 1⟩, fun _ => 0, fun _ => 0, [default], [default], 0, 1⟩
    SparseCoder.activate C [[0]] = SparseCoder.activateAux C [[0]] 1 ∧
    SparseCoder.activateAux C [[0]] 1
      = SparseCoder.backwardAll
          (SparseCoder.forwardPass (SparseCoder.activateAux C [[0]] 0) [[0]] true) ∧
    (SparseCoder.activateAux C [[0]] 1).hiddenActivations (address3 ⟨0, 0, 0⟩ ⟨1, 1⟩)
      = SparseCoder.scNewVal (SparseCoder.activateAux C [[0]] 0) [[0]] true ⟨0, 0⟩ 0 ∧
    SparseCoder.scNewVal (SparseCoder.activateAux C [[0]] 0) [[0]] true ⟨0, 0⟩ 0
      = (if true then
          SparseCoder.inputAct (SparseCoder.activateAux C [[0]] 0) [[0]] ⟨0, 0⟩ 0
        else
          (SparseCoder.activateAux C [[0]] 0).hiddenActivations (address3 ⟨0, 0, 0⟩ ⟨1, 1⟩)
          + SparseCoder.inputAct (SparseCoder.activateAux C [[0]] 0) [[0]] ⟨0, 0⟩ 0
          - SparseCoder.reconAct (SparseCoder.activateAux C [[0]] 0) ⟨0, 0⟩ 0) :=
  claim_C3 ⟨⟨1, 1, 1⟩, fun _ => 0, fun _ => 0, [default], [default], 0, 1⟩ [[0]] 0 ⟨0, 0⟩ 0
    (by decide) (by decide) (by decide)

/-- C6: in `SparseCoder::learn`, for every present visible layer, every
visible column `q` and every candidate code `vc₀`, every weight connecting
`(q, vc₀)` to a hidden column `hp₀` whose receptive field contains `q` moves
by the same delta `alpha * (target - avgSupport)`: `target` is `1` iff `vc₀`
equals the actual input code at `q`, `avgSupport` is the average hidden
support of `(q, vc₀)` recomputed (as in the backward pass) against the
weights at pass entry, and the delta does not depend on `hp₀`. -/
theorem claim_C6 (sc : SparseCoder) (inputCs : List (List Int)) (vli : Nat)
    (q hp₀ : Int2) (vc₀ : Int)
    (hvli : vli < sc.visibleLayers.length)
    (hcsb : ∀ p ∈ gridPositions sc.hiddenSize.x sc.hiddenSize.y,
      0 ≤ sc.hiddenCs (address2 p sc.hiddenSize.x) ∧
      sc.hiddenCs (address2 p sc.hiddenSize.x) ≤ sc.hiddenSize.z - 1)
    (hq : q ∈ gridPositions (sc.visibleLayerDescs.getD vli default).size.x
      (sc.visibleLayerDescs.getD vli default).size.y)
    (hhp : hp₀ ∈ SparseCoder.hWindow sc.hiddenSize (sc.visibleLayers.getD vli default) q)
    (hct : SparseCoder.containsPos (sc.visibleLayers.getD vli default)
      (sc.visibleLayerDescs.getD vli default) hp₀ q = true)
    (k1 : 0 ≤ vc₀) (k2 : vc₀ ≤ (sc.visibleLayerDescs.getD vli default).size.z - 1) :
    ((SparseCoder.learnAll sc inputCs).visibleLayers.getD vli default).weights
        (SparseCoder.recWAddr sc.hiddenSize (sc.visibleLayers.getD vli default)
          (sc.visibleLayerDescs.getD vli default) sc.hiddenCs hp₀ q vc₀)
      = (sc.visibleLayers.getD vli default).weights
          (SparseCoder.recWAddr sc.hiddenSize (sc.visibleLayers.getD vli default)
            (sc.visibleLayerDescs.getD vli default) sc.hiddenCs hp₀ q vc₀)
        + sc.alpha * ((if vc₀ = (inputCs.getD vli []).getD
              (address2 q (sc.visibleLayerDescs.getD vli default).size.x).toNat 0
            then 1 else 0)
          - SparseCoder.avgSupport sc.hiddenSize
              (sc.visibleLayers.getD vli default).weights sc.hiddenCs
              (sc.visibleLayers.getD vli default)
              (sc.visibleLayerDescs.getD vli default) q vc₀) := by
  obtain ⟨ls1, ls2, hsplit⟩ := List.append_of_mem (List.mem_range.mpr hvli)
  have hnodup : (List.range sc.visibleLayers.length).Nodup := List.nodup_range _
  rw [hsplit] at hnodup
  have hmem1 : vli ∉ ls1 := by
    intro habs
    exact (List.nodup_append.mp hnodup).2.2 habs (List.mem_cons_self vli ls2)
  have hmem2 : vli ∉ ls2 :=
    (List.nodup_cons.mp (List.nodup_append.mp hnodup).2.1).1
  have hla : SparseCoder.learnAll sc inputCs
      = ls2.foldl (fun s' v => SparseCoder.learnPassLayer s' inputCs v)
        (SparseCoder.learnPassLayer
          (ls1.foldl (fun s' v => SparseCoder.learnPassLayer s' inputCs v) sc) inputCs vli) := by
    show (List.range sc.visibleLayers.length).foldl
      (fun s' v => SparseCoder.learnPassLayer s' inputCs v) sc = _
    rw [hsplit, List.foldl_append, List.foldl_cons]
  have hf1 := SparseCoder.scFold_frame (fun s' v => SparseCoder.learnPassLayer s' inputCs v)
    (fun s' v => SparseCoder.learnPassLayer_frame s' inputCs v) ls1 sc
  have hg1 := SparseCoder.learnAllFold_other inputCs vli ls1 sc hmem1
  have hmain := (SparseCoder.lplFold inputCs vli sc.hiddenSize sc.hiddenCs sc.alpha
    sc.visibleLayerDescs (sc.visibleLayers.getD vli default) hcsb
    (gridPositions
      (((ls1.foldl (fun s' v => SparseCoder.learnPassLayer s' inputCs v)
        sc).visibleLayerDescs.getD vli default)).size.x
      (((ls1.foldl (fun s' v => SparseCoder.learnPassLayer s' inputCs v)
        sc).visibleLayerDescs.getD vli default)).size.y)
    (ls1.foldl (fun s' v => SparseCoder.learnPassLayer s' inputCs v) sc)
    hf1.1 hf1.2.1 hf1.2.2.2.2.2.1 hf1.2.2.2.1
    (by rw [hf1.2.2.2.2.1]; exact hvli)
    (by rw [hg1]) (by rw [hg1]) (by rw [hg1])
    (gridPositions_nodup _ _)
    (fun r hr hp hhp' hct' vc j1 j2 => by rw [hg1])).2
    q (by rw [hf1.2.2.2.1]; exact hq) hp₀ hhp hct vc₀ k1 k2
  rw [hla, SparseCoder.learnAllFold_other inputCs vli ls2 _ hmem2]
  exact hmain

/-- Witness for C6 on a one-column coder with a single one-column visible
layer (zero ratios, zero radii), at its only column, window entry and code. -/
theorem claim_C6_witness :
    let C : SparseCoder := ⟨⟨1, 1, 1⟩, fun _ => 0, fun _ => 0,
      [⟨fun _ => 0, ((0 : ℚ), (0 : ℚ)), ((0 : ℚ), (0 : ℚ)), ⟨0, 0⟩, fun _ => 0⟩],
      [⟨⟨1, 1, 1⟩, 0⟩], 0, 1⟩
    ((SparseCoder.learnAll C [[0]]).visibleLayers.getD 0 default).weights
        (SparseCoder.recWAddr C.hiddenSize (C.visibleLayers.getD 0 default)
          (C.visibleLayerDescs.getD 0 default) C.hiddenCs ⟨0, 0⟩ ⟨0, 0⟩ 0)
      = (C.visibleLayers.getD 0 default).weights
          (SparseCoder.recWAddr C.hiddenSize (C.visibleLayers.getD 0 default)
            (C.visibleLayerDescs.getD 0 default) C.hiddenCs ⟨0, 0⟩ ⟨0, 0⟩ 0)
        + C.alpha * ((if (0 : Int) = ([[(0 : Int)]].getD 0 []).getD
              (address2 ⟨0, 0⟩ (C.visibleLayerDescs.getD 0 default).size.x).toNat 0
            then 1 else 0)
          - SparseCoder.avgSupport C.hiddenSize (C.visibleLayers.getD 0 default).weights
              C.hiddenCs (C.visibleLayers.getD 0 default)
              (C.visibleLayerDescs.getD 0 default) ⟨0, 0⟩ 0) :=
  claim_C6 ⟨⟨1, 1, 1⟩, fun _ => 0, fun _ => 0,
      [⟨fun _ => 0, ((0 : ℚ), (0 : ℚ)), ((0 : ℚ), (0 : ℚ)), ⟨0, 0⟩, fun _ => 0⟩],
      [⟨⟨1, 1, 1⟩, 0⟩], 0, 1⟩ [[0]] 0 ⟨0, 0⟩ ⟨0, 0⟩ 0
    (by decide) (by decide) (by decide)
    (by
      have hproj : project ⟨0, 0⟩ ((0 : ℚ), (0 : ℚ)) = (⟨0, 0⟩ : Int2) := by
        norm_num [project, Int2.mk.injEq]
      show (⟨0, 0⟩ : Int2) ∈ SparseCoder.hWindow ⟨1, 1, 1⟩
        ⟨fun _ => 0, ((0 : ℚ), (0 : ℚ)), ((0 : ℚ), (0 : ℚ)), ⟨0, 0⟩, fun _ => 0⟩ ⟨0, 0⟩
      simp only [SparseCoder.hWindow, hproj]
      decide)
    (by
      have hproj : project ⟨0, 0⟩ ((0 : ℚ), (0 : ℚ)) = (⟨0, 0⟩ : Int2) := by
        norm_num [project, Int2.mk.injEq]
      show SparseCoder.containsPos
        ⟨fun _ => 0, ((0 : ℚ), (0 : ℚ)), ((0 : ℚ), (0 : ℚ)), ⟨0, 0⟩, fun _ => 0⟩
        ⟨⟨1, 1, 1⟩, 0⟩ ⟨0, 0⟩ ⟨0, 0⟩ = true
      simp only [SparseCoder.containsPos, SparseCoder.fieldLB, hproj]
      decide)
    (by decide) (by decide)

end Ogma
